import Mathlib

/-!
# Verification of `src/pointersorter.c`

A shallow embedding of the red-black-tree word sorter. The C program keeps
mutable nodes linked by `parent`/`left`/`right` pointers; we model the C heap
as a list of node records, a pointer as `Option Nat` (an index into that list,
`none` for `NULL`), and `malloc` as appending a fresh record. Every C function
is translated statement by statement; `while` loops become fuel-indexed
recursions returning `Option` (`none` models a run that exceeds the fuel, a
situation the theorems rule out on well-formed states). C strings are lists of
bytes (`List Nat`, terminator not stored); `strcmp` is modeled by its sign,
which is all the program inspects.
-/

namespace RBC

/-- A C string: the list of bytes before the NUL terminator. -/
abbrev Word := List Nat

/-- Sign of C `strcmp` on NUL-free byte strings: `-1`, `0` or `1`.
The program only tests `cmp == 0`, `cmp < 0`, `cmp > 0`. -/
def strcmp : Word → Word → Int
  | [], [] => 0
  | [], _ :: _ => -1
  | _ :: _, [] => 1
  | a :: as, b :: bs => if a < b then -1 else if b < a then 1 else strcmp as bs

/-- The `struct RBtreeNode` of the C source: a word, a color character
(`'r'` or `'b'`; the field is a plain `char`), and three links. -/
structure Node where
  word : Word
  color : Char
  parent : Option Nat
  left : Option Nat
  right : Option Nat
deriving Repr, DecidableEq

/-- The C heap: node records indexed by address; `malloc` appends. -/
abbrev Heap := List Node

/-- Dereference a node pointer (`none` is `NULL`). -/
def deref (h : Heap) : Option Nat → Option Node
  | none => none
  | some a => h.get? a

/-- Overwrite the record at an address (no-op on an unallocated address,
which corresponds to undefined behaviour the theorems exclude). -/
def hupd (h : Heap) (a : Nat) (f : Node → Node) : Heap :=
  match h.get? a with
  | some nd => h.set a (f nd)
  | none => h

/-- C `getWord`: `NULL` gives `NULL`, otherwise the node's word. -/
def getWord (h : Heap) (n : Option Nat) : Option Word :=
  (deref h n).map Node.word

/-- C `getColor`: `NULL` gives `'\0'`, otherwise the node's color byte. -/
def getColor (h : Heap) (n : Option Nat) : Char :=
  match deref h n with
  | some nd => nd.color
  | none => '\x00'

/-- C `setColor`: writes the color only when the node is non-`NULL` and the
color is `'r'` or `'b'`; anything else is silently ignored. -/
def setColor (h : Heap) (n : Option Nat) (c : Char) : Heap :=
  match n with
  | none => h
  | some a => if c = 'r' ∨ c = 'b' then hupd h a (fun nd => { nd with color := c }) else h

/-- C `getParent`. -/
def getParent (h : Heap) (child : Option Nat) : Option Nat :=
  match deref h child with
  | some nd => nd.parent
  | none => none

/-- C `setParent`. -/
def setParent (h : Heap) (child p : Option Nat) : Heap :=
  match child with
  | none => h
  | some a => hupd h a (fun nd => { nd with parent := p })

/-- C `getLeftChild`. -/
def getLeftChild (h : Heap) (p : Option Nat) : Option Nat :=
  match deref h p with
  | some nd => nd.left
  | none => none

/-- C `setLeftChild`. -/
def setLeftChild (h : Heap) (p child : Option Nat) : Heap :=
  match p with
  | none => h
  | some a => hupd h a (fun nd => { nd with left := child })

/-- C `getRightChild`. -/
def getRightChild (h : Heap) (p : Option Nat) : Option Nat :=
  match deref h p with
  | some nd => nd.right
  | none => none

/-- C `setRightChild`. -/
def setRightChild (h : Heap) (p child : Option Nat) : Heap :=
  match p with
  | none => h
  | some a => hupd h a (fun nd => { nd with right := child })

/-- C `getGrandparent`: `child->parent->parent` when both links exist. -/
def getGrandparent (h : Heap) (child : Option Nat) : Option Nat :=
  match deref h child with
  | some nd => getParent h nd.parent
  | none => none

/-- C `getUncle`: the sibling of the child's parent, found by comparing
`child->parent` with `grandparent->left`. -/
def getUncle (h : Heap) (child : Option Nat) : Option Nat :=
  let grandparent := getGrandparent h child
  match grandparent with
  | none => none
  | some _ =>
    if getParent h child = getLeftChild h grandparent then getRightChild h grandparent
    else getLeftChild h grandparent

/-- The record `makeNode` fills in: the given word, color `'r'`, the given
parent and `NULL` children. -/
def newNode (word : Word) (parent : Option Nat) : Node :=
  { word := word, color := 'r', parent := parent, left := none, right := none }

/-- C `makeNode`: `malloc` a record, color it red, set the parent link and
`NULL` children. Returns the extended heap and the fresh address. -/
def makeNode (h : Heap) (word : Word) (parent : Option Nat) : Heap × Option Nat :=
  (h ++ [newNode word parent], some h.length)

/-- C `leftRotate`, statement by statement; each getter reads the heap as it
stands at the corresponding line of the source. -/
def leftRotate (h : Heap) (root n : Option Nat) : Heap × Option Nat :=
  let m := getRightChild h n
  let h := setRightChild h n (getLeftChild h m)
  let h := if getLeftChild h m ≠ none then setParent h (getLeftChild h m) n else h
  let h := setParent h m (getParent h n)
  let root := if getParent h n = none then m else root
  let h :=
    if getParent h n = none then h
    else if n = getLeftChild h (getParent h n) then setLeftChild h (getParent h n) m
    else setRightChild h (getParent h n) m
  let h := setLeftChild h m n
  let h := setParent h n m
  (h, root)

/-- C `rightRotate`, mirror image of `leftRotate`. -/
def rightRotate (h : Heap) (root n : Option Nat) : Heap × Option Nat :=
  let m := getLeftChild h n
  let h := setLeftChild h n (getRightChild h m)
  let h := if getRightChild h m ≠ none then setParent h (getRightChild h m) n else h
  let h := setParent h m (getParent h n)
  let root := if getParent h n = none then m else root
  let h :=
    if getParent h n = none then h
    else if n = getRightChild h (getParent h n) then setRightChild h (getParent h n) m
    else setLeftChild h (getParent h n) m
  let h := setRightChild h m n
  let h := setParent h n m
  (h, root)

/-- Outcome of the binary-search descent loop of `insert` (lines 235-247):
either the word was found (`return root`), or the loop fell off the tree with
the last visited node in `parent` and the last comparison in `cmp`. -/
inductive DescendResult where
  | found
  | fell (parent : Option Nat) (cmp : Int)
deriving Repr, DecidableEq

/-- The `while (ptr != NULL)` search loop of `insert`, with fuel.
`none` models running beyond the fuel bound. -/
def descend (h : Heap) (word : Word) (ptr parent : Option Nat) (cmp : Int)
    (fuel : Nat) : Option DescendResult :=
  match fuel with
  | 0 => match ptr with
    | none => some (.fell parent cmp)
    | some _ => none
  | fuel + 1 =>
    match ptr with
    | none => some (.fell parent cmp)
    | some a =>
      match h.get? a with
      | none => none
      | some nd =>
        let parent := some a
        let cmp := strcmp word nd.word
        if cmp = 0 then some .found
        else if cmp < 0 then descend h word nd.left parent cmp fuel
        else descend h word nd.right parent cmp fuel

/-- State after the first half of `insert` (lines 221-255): either a duplicate
was found and the tree is returned as is, or the new node has been attached and
the fixup loop starts from `ptr` with the stale local `parent`. -/
inductive Phase1Result where
  | dup (h : Heap) (root : Option Nat)
  | go (h : Heap) (root ptr parent : Option Nat)
deriving Repr, DecidableEq

/-- Lines 221-255 of `insert`: `ptr` is initialised to the incoming `root`
before the empty-tree check, so on an empty tree the search loop is skipped
with `cmp = 0` and the attach branch calls `makeNode` on a `NULL` parent
(the second allocation is simply never linked). -/
def phase1 (h : Heap) (root : Option Nat) (word : Word) : Option Phase1Result :=
  let ptr := root
  let hr := if root = none then makeNode h word none else (h, root)
  let h := hr.1
  let root := hr.2
  match descend h word ptr none 0 (h.length + 1) with
  | none => none
  | some .found => some (.dup h root)
  | some (.fell parent cmp) =>
    if cmp < 0 then
      let hm := makeNode h word parent
      let h := setLeftChild hm.1 parent hm.2
      some (.go h root (getLeftChild h parent) parent)
    else
      let hm := makeNode h word parent
      let h := setRightChild hm.1 parent hm.2
      some (.go h root (getRightChild h parent) parent)

/-- One execution of the body of the fixup loop (lines 258-295). `uncle` and
`grandparent` are recomputed from `ptr` at the top of the body, but the local
`parent` is never reassigned inside the loop; the body returns the updated
heap, root and `ptr`. -/
def fixupStep (h : Heap) (root ptr parent : Option Nat) : Heap × Option Nat × Option Nat :=
  let uncle := getUncle h ptr
  let grandparent := getGrandparent h ptr
  if uncle = getRightChild h grandparent then
    if getColor h uncle = 'r' then
      let h := setColor h parent 'b'
      let h := setColor h uncle 'b'
      let h := setColor h grandparent 'r'
      (h, root, grandparent)
    else
      let s :=
        if ptr = getRightChild h parent then
          let ptr := parent
          let hr := leftRotate h root ptr
          (hr.1, hr.2, ptr)
        else (h, root, ptr)
      let h := setColor s.1 parent 'b'
      let h := setColor h grandparent 'r'
      let hr := rightRotate h s.2.1 grandparent
      (hr.1, hr.2, s.2.2)
  else
    if getColor h uncle = 'r' then
      let h := setColor h parent 'b'
      let h := setColor h uncle 'b'
      let h := setColor h grandparent 'r'
      (h, root, grandparent)
    else
      let s :=
        if ptr = getLeftChild h parent then
          let ptr := parent
          let hr := rightRotate h root ptr
          (hr.1, hr.2, ptr)
        else (h, root, ptr)
      let h := setColor s.1 parent 'b'
      let h := setColor h grandparent 'r'
      let hr := leftRotate h s.2.1 grandparent
      (hr.1, hr.2, s.2.2)

/-- The `while (ptr != root && getColor(parent) == 'r')` fixup loop, with
fuel. The guard reads the stale local `parent`, exactly as the C does. -/
def fixupLoop (h : Heap) (root ptr parent : Option Nat) (fuel : Nat) :
    Option (Heap × Option Nat) :=
  match fuel with
  | 0 => if ptr = root ∨ getColor h parent ≠ 'r' then some (h, root) else none
  | fuel + 1 =>
    if ptr = root ∨ getColor h parent ≠ 'r' then some (h, root)
    else
      let s := fixupStep h root ptr parent
      fixupLoop s.1 s.2.1 s.2.2 parent fuel

/-- C `insert` (lines 221-300): search-and-attach, the fixup loop, then
`setColor(root, 'b')`. The result is the new heap and root pointer. -/
def insert (h : Heap) (root : Option Nat) (word : Word) : Option (Heap × Option Nat) :=
  match phase1 h root word with
  | none => none
  | some (.dup h root) => some (h, root)
  | some (.go h root ptr parent) =>
    match fixupLoop h root ptr parent (h.length + 1) with
    | none => none
    | some (h, root) => some (setColor h root 'b', root)

/-- C `printTree` (lines 303-311): the in-order list of words, with fuel
against cyclic heaps. -/
def printTree (h : Heap) (root : Option Nat) (fuel : Nat) : Option (List Word) :=
  match fuel with
  | 0 => match root with
    | none => some []
    | some _ => none
  | fuel + 1 =>
    match root with
    | none => some []
    | some a =>
      match h.get? a with
      | none => none
      | some nd =>
        match printTree h nd.left fuel, printTree h nd.right fuel with
        | some l, some r => some (l ++ nd.word :: r)
        | _, _ => none

/-- Run `insert` over a list of words starting from the empty tree, as
`main` does for each parsed word. -/
def runInserts (ws : List Word) : Option (Heap × Option Nat) :=
  ws.foldlM (fun s w => insert s.1 s.2 w) (([] : Heap), (none : Option Nat))

/-- Abstract binary trees labelled with the heap address, word and color of
each node; the functional view of a well-formed heap tree. -/
inductive ATree where
  | nil : ATree
  | node (l : ATree) (a : Nat) (w : Word) (c : Char) (r : ATree) : ATree
deriving Repr, DecidableEq

namespace ATree

/-- In-order list of addresses. -/
def addrs : ATree → List Nat
  | .nil => []
  | .node l a _ _ r => addrs l ++ a :: addrs r

/-- In-order list of words: what `printTree` prints. -/
def words : ATree → List Word
  | .nil => []
  | .node l _ w _ r => words l ++ w :: words r

/-- Address of the root node, `none` for the empty tree. -/
def rootAddr : ATree → Option Nat
  | .nil => none
  | .node _ a _ _ _ => some a

/-- Color of the root node, `'\0'` for the empty tree (as `getColor(NULL)`). -/
def rootColor : ATree → Char
  | .nil => '\x00'
  | .node _ _ _ c _ => c

/-- Number of nodes. -/
def sizeA : ATree → Nat
  | .nil => 0
  | .node l _ _ _ r => sizeA l + sizeA r + 1

/-- Recolor every node carrying address `a` (at most one in a tree with
distinct addresses): the tree-level effect of `setColor`. -/
def recolorA (a : Nat) (c : Char) : ATree → ATree
  | .nil => .nil
  | .node l b w c0 r =>
      .node (recolorA a c l) b w (if b = a then c else c0) (recolorA a c r)

/-- Recolor the root node. -/
def setRootC (t : ATree) (c : Char) : ATree :=
  match t with
  | .nil => .nil
  | .node l a w _ r => .node l a w c r

/-- `true` when no red node has a red child: half of the red-black contract. -/
def noRedRed : ATree → Bool
  | .nil => true
  | .node l _ _ c r =>
      noRedRed l && noRedRed r &&
      !(c = 'r' && (rootColor l = 'r' || rootColor r = 'r'))

/-- Black-height check: `some k` when every root-to-absent-child path passes
through exactly `k` black nodes, `none` when the heights disagree. -/
def bh : ATree → Option Nat
  | .nil => some 0
  | .node l _ _ c r =>
      match bh l, bh r with
      | some x, some y => if x = y then some (x + (if c = 'b' then 1 else 0)) else none
      | _, _ => none

end ATree

/-- Extract the abstract tree reachable from `root` by following child links,
with fuel against cyclic heaps. -/
def extractTree (h : Heap) (root : Option Nat) (fuel : Nat) : Option ATree :=
  match fuel with
  | 0 => match root with
    | none => some .nil
    | some _ => none
  | fuel + 1 =>
    match root with
    | none => some .nil
    | some a =>
      match h.get? a with
      | none => none
      | some nd =>
        match extractTree h nd.left fuel, extractTree h nd.right fuel with
        | some l, some r => some (.node l a nd.word nd.color r)
        | _, _ => none

/-- Strict byte-lexicographic order on words: the order of the traversal. -/
def wordLt (a b : Word) : Prop := strcmp a b < 0

instance : DecidableRel wordLt := fun a b => inferInstanceAs (Decidable (strcmp a b < 0))

/-- A tree context (zipper): a tree with one subtree slot removed. The head
constructor is the immediate parent of the hole. -/
inductive Ctx where
  | root : Ctx
  | left (up : Ctx) (a : Nat) (w : Word) (c : Char) (r : ATree) : Ctx
  | right (l : ATree) (a : Nat) (w : Word) (c : Char) (up : Ctx) : Ctx
deriving Repr, DecidableEq

/-- Fill the hole of a context with a subtree. -/
def plug : Ctx → ATree → ATree
  | .root, s => s
  | .left up a w c r, s => plug up (.node s a w c r)
  | .right l a w c up, s => plug up (.node l a w c s)

/-- Words printed before the hole by an in-order traversal. -/
def wpre : Ctx → List Word
  | .root => []
  | .left up _ _ _ _ => wpre up
  | .right l _ w _ up => wpre up ++ (ATree.words l ++ [w])

/-- Words printed after the hole by an in-order traversal. -/
def wpost : Ctx → List Word
  | .root => []
  | .left up _ w _ r => (w :: ATree.words r) ++ wpost up
  | .right _ _ _ _ up => wpost up

/-- Addresses before the hole in in-order. -/
def apre : Ctx → List Nat
  | .root => []
  | .left up _ _ _ _ => apre up
  | .right l a _ _ up => apre up ++ (ATree.addrs l ++ [a])

/-- Addresses after the hole in in-order. -/
def apost : Ctx → List Nat
  | .root => []
  | .left up a _ _ r => (a :: ATree.addrs r) ++ apost up
  | .right _ _ _ _ up => apost up

/-- Addresses stored in a context (the hole's ancestors and their
off-path subtrees). -/
def ctxAddrs (C : Ctx) : List Nat := apre C ++ apost C

/-- Address of the node whose child slot is the hole (`none` at the root). -/
def chp : Ctx → Option Nat
  | .root => none
  | .left _ a _ _ _ => some a
  | .right _ a _ _ _ => some a

/-- The comparisons made by the search descent along a context: the word went
strictly left of every `.left` frame and strictly right of every `.right`
frame. -/
def ctxSearchOK (w : Word) : Ctx → Prop
  | .root => True
  | .left up _ w' _ _ => strcmp w w' < 0 ∧ ctxSearchOK w up
  | .right _ _ w' _ up => 0 < strcmp w w' ∧ ctxSearchOK w up

/-- Invariant tying the running `cmp` variable of the descent loop to the
context frame just entered: `0` initially, and afterwards the comparison
against the hole's parent, negative exactly when the hole is a left slot. -/
def CmpOK (w : Word) : Ctx → Int → Prop
  | .root, cmp => cmp = 0
  | .left _ _ w' _ _, cmp => cmp = strcmp w w' ∧ cmp < 0
  | .right _ _ w' _ _, cmp => cmp = strcmp w w' ∧ 0 < cmp

/-- Representation relation: pointer `x`, whose parent field must be `p`,
points in heap `h` to a linked structure whose functional contents are the
abstract tree `t` (addresses, words, colors and both child links all match,
and every node's parent field points back to its tree parent). -/
inductive Rep (h : Heap) : Option Nat → Option Nat → ATree → Prop
  | nil (p : Option Nat) : Rep h none p .nil
  | node {a : Nat} {nd : Node} {p : Option Nat} {l r : ATree}
      (ha : h.get? a = some nd) (hp : nd.parent = p)
      (hl : Rep h nd.left (some a) l) (hr : Rep h nd.right (some a) r) :
      Rep h (some a) p (.node l a nd.word nd.color r)

/-- Representation of a context: the chain from the overall root pointer `x`
down to a hole whose parent node is `hp` and whose child slot currently
contains the pointer `sp`. -/
inductive RepC (h : Heap) : Ctx → Option Nat → Option Nat → Option Nat → Prop
  | root (sp : Option Nat) : RepC h .root sp none sp
  | left {up : Ctx} {a : Nat} {nd : Node} {x pa sp : Option Nat} {r : ATree}
      (ha : h.get? a = some nd)
      (hup : RepC h up x pa (some a))
      (hpar : nd.parent = pa)
      (hslot : nd.left = sp)
      (hr : Rep h nd.right (some a) r) :
      RepC h (.left up a nd.word nd.color r) x (some a) sp
  | right {up : Ctx} {a : Nat} {nd : Node} {x pa sp : Option Nat} {l : ATree}
      (ha : h.get? a = some nd)
      (hup : RepC h up x pa (some a))
      (hpar : nd.parent = pa)
      (hslot : nd.right = sp)
      (hl : Rep h nd.left (some a) l) :
      RepC h (.right l a nd.word nd.color up) x (some a) sp

/-- The parent-slot update fragment of both rotations (lines 174-182 and
203-211 of the source), phrased via the hole parent of a context: when the
rotated node `n` sits in the hole of `C`, the fragment rewrites the child
slot of the hole's parent node to `m'` (or nothing at the root). -/
def slotUpd (h : Heap) (C : Ctx) (n : Nat) (m' : Option Nat) : Heap :=
  match chp C with
  | none => h
  | some p =>
    if some n = getLeftChild h (some p) then setLeftChild h (some p) m'
    else setRightChild h (some p) m'

/-- The parent-slot update fragment of `rightRotate` (lines 203-211 of the
source), which tests the right child slot first. -/
def slotUpdR (h : Heap) (C : Ctx) (n : Nat) (m' : Option Nat) : Heap :=
  match chp C with
  | none => h
  | some p =>
    if some n = getRightChild h (some p) then setRightChild h (some p) m'
    else setLeftChild h (some p) m'

/-! ## Basic heap lemmas -/

theorem get?_set_self (l : Heap) (i : Nat) (nd : Node) (h : i < l.length) :
    (l.set i nd).get? i = some nd := by
  simp [List.get?_eq_getElem?, List.getElem?_set_self, h]

theorem get?_set_ne (l : Heap) (i j : Nat) (nd : Node) (h : i ≠ j) :
    (l.set i nd).get? j = l.get? j := by
  simp [List.get?_eq_getElem?, List.getElem?_set_ne h]

theorem get?_append_lt (l l' : Heap) (i : Nat) (h : i < l.length) :
    (l ++ l').get? i = l.get? i := by
  simp [List.get?_eq_getElem?, List.getElem?_append_left h]

/-! ## Order lemmas for `strcmp` -/

theorem strcmp_vals (a b : Word) : strcmp a b = -1 ∨ strcmp a b = 0 ∨ strcmp a b = 1 := by
  induction a generalizing b with
  | nil => cases b <;> simp [strcmp]
  | cons x xs ih =>
    cases b with
    | nil => simp [strcmp]
    | cons y ys =>
      simp only [strcmp]
      split
      · exact Or.inl rfl
      · split
        · exact Or.inr (Or.inr rfl)
        · exact ih ys

theorem strcmp_eq_zero_iff (a b : Word) : strcmp a b = 0 ↔ a = b := by
  induction a generalizing b with
  | nil => cases b <;> simp [strcmp]
  | cons x xs ih =>
    cases b with
    | nil => simp [strcmp]
    | cons y ys =>
      simp only [strcmp]
      rcases Nat.lt_trichotomy x y with hxy | hxy | hxy
      · rw [if_pos hxy]
        constructor
        · intro hc; exact absurd hc (by decide)
        · intro he; injection he with h1 h2; omega
      · subst hxy
        rw [if_neg (by omega), if_neg (by omega), ih ys]
        simp
      · rw [if_neg (by omega), if_pos hxy]
        constructor
        · intro hc; exact absurd hc (by decide)
        · intro he; injection he with h1 h2; omega

theorem strcmp_swap (a b : Word) : strcmp b a = -strcmp a b := by
  induction a generalizing b with
  | nil => cases b <;> simp [strcmp]
  | cons x xs ih =>
    cases b with
    | nil => simp [strcmp]
    | cons y ys =>
      simp only [strcmp]
      split_ifs <;> first | omega | exact ih ys

theorem wordLt_trans {a b c : Word} (h1 : wordLt a b) (h2 : wordLt b c) : wordLt a c := by
  unfold wordLt at *
  induction a generalizing b c with
  | nil =>
    cases c with
    | nil =>
      cases b with
      | nil => simp [strcmp] at h1
      | cons y ys => simp [strcmp] at h2
    | cons z zs => simp [strcmp]
  | cons x xs ih =>
    cases b with
    | nil => simp [strcmp] at h1
    | cons y ys =>
      cases c with
      | nil => simp [strcmp] at h2
      | cons z zs =>
        simp only [strcmp] at h1 h2 ⊢
        rcases Nat.lt_trichotomy x y with hxy | hxy | hxy
        · rcases Nat.lt_trichotomy y z with hyz | hyz | hyz
          · rw [if_pos (by omega : x < z)]; decide
          · rw [if_pos (by omega : x < z)]; decide
          · rw [if_neg (by omega : ¬ y < z), if_pos hyz] at h2; omega
        · subst hxy
          rcases Nat.lt_trichotomy x z with hxz | hxz | hxz
          · rw [if_pos hxz]; decide
          · subst hxz
            rw [if_neg (by omega), if_neg (by omega)] at h1 h2 ⊢
            exact ih h1 h2
          · rw [if_neg (by omega : ¬ x < z), if_pos hxz] at h2; omega
        · rw [if_neg (by omega : ¬ x < y), if_pos hxy] at h1; omega

theorem wordLt_irrefl (a : Word) : ¬ wordLt a a := by
  unfold wordLt
  rw [(strcmp_eq_zero_iff a a).mpr rfl]
  decide

theorem wordLt_asymm {a b : Word} (h : wordLt a b) : ¬ wordLt b a := by
  unfold wordLt at *
  rw [strcmp_swap]
  omega

theorem wordLt_total {a b : Word} (h : a ≠ b) : wordLt a b ∨ wordLt b a := by
  unfold wordLt
  rw [strcmp_swap a b]
  rcases strcmp_vals a b with hv | hv | hv
  · left; omega
  · exact absurd ((strcmp_eq_zero_iff a b).mp hv) h
  · right; omega

theorem wordLt_ne {a b : Word} (h : wordLt a b) : a ≠ b := by
  intro he
  exact wordLt_irrefl a (he ▸ h)

instance : IsTrans Word wordLt := ⟨fun _ _ _ => wordLt_trans⟩

instance : IsAntisymm Word wordLt := ⟨fun _ _ h h' => absurd h' (wordLt_asymm h)⟩

instance : IsIrrefl Word wordLt := ⟨wordLt_irrefl⟩

/-- Two strictly sorted lists with the same members are equal. -/
theorem sorted_ext {l1 l2 : List Word} (s1 : l1.Sorted wordLt) (s2 : l2.Sorted wordLt)
    (hm : ∀ x, x ∈ l1 ↔ x ∈ l2) : l1 = l2 :=
  List.eq_of_perm_of_sorted ((List.perm_ext_iff_of_nodup s1.nodup s2.nodup).mpr hm) s1 s2

/-- Inserting a word between a lower and an upper part keeps strict
sortedness. -/
theorem sorted_insert_middle {pre post : List Word} {w : Word}
    (hs : (pre ++ post).Sorted wordLt)
    (hlo : ∀ u ∈ pre, wordLt u w) (hhi : ∀ u ∈ post, wordLt w u) :
    (pre ++ w :: post).Sorted wordLt := by
  rw [List.Sorted, List.pairwise_append] at hs ⊢
  refine ⟨hs.1, ?_, ?_⟩
  · rw [List.pairwise_cons]
    exact ⟨hhi, hs.2.1⟩
  · intro a ha b hb
    rcases List.mem_cons.mp hb with hb | hb
    · exact hb ▸ hlo a ha
    · exact hs.2.2 a ha b hb

/-! ## Context and representation lemmas -/

theorem get?_some_lt {h : Heap} {a : Nat} {nd : Node} (ha : h.get? a = some nd) :
    a < h.length := by
  by_contra hge
  rw [List.get?_eq_getElem?, List.getElem?_eq_none (Nat.le_of_not_lt hge)] at ha
  exact Option.noConfusion ha

theorem get?_append_self (l : Heap) (nd : Node) : (l ++ [nd]).get? l.length = some nd := by
  rw [List.get?_eq_getElem?, List.getElem?_append_right (Nat.le_refl _)]
  simp

theorem plug_words (C : Ctx) (s : ATree) :
    ATree.words (plug C s) = wpre C ++ (ATree.words s ++ wpost C) := by
  induction C generalizing s with
  | root => simp [plug, wpre, wpost]
  | left up a w c r ih => simp [plug, wpre, wpost, ih, ATree.words]
  | right l a w c up ih => simp [plug, wpre, wpost, ih, ATree.words]

theorem plug_addrs (C : Ctx) (s : ATree) :
    ATree.addrs (plug C s) = apre C ++ (ATree.addrs s ++ apost C) := by
  induction C generalizing s with
  | root => simp [plug, apre, apost]
  | left up a w c r ih => simp [plug, apre, apost, ih, ATree.addrs]
  | right l a w c up ih => simp [plug, apre, apost, ih, ATree.addrs]

theorem mem_ctxAddrs_left {b : Nat} {up : Ctx} {a : Nat} {w : Word} {c : Char} {r : ATree} :
    b ∈ ctxAddrs (.left up a w c r) ↔ b = a ∨ b ∈ ATree.addrs r ∨ b ∈ ctxAddrs up := by
  simp [ctxAddrs, apre, apost, List.mem_append]
  tauto

theorem mem_ctxAddrs_right {b : Nat} {up : Ctx} {a : Nat} {w : Word} {c : Char} {l : ATree} :
    b ∈ ctxAddrs (.right l a w c up) ↔ b = a ∨ b ∈ ATree.addrs l ∨ b ∈ ctxAddrs up := by
  simp [ctxAddrs, apre, apost, List.mem_append]
  tauto

theorem mem_addrs_plug {b : Nat} {C : Ctx} {s : ATree} :
    b ∈ ATree.addrs (plug C s) ↔ b ∈ ATree.addrs s ∨ b ∈ ctxAddrs C := by
  rw [plug_addrs]
  simp [ctxAddrs, List.mem_append]
  tauto

theorem Rep_rootAddr {h : Heap} {x p : Option Nat} {t : ATree} (hr : Rep h x p t) :
    ATree.rootAddr t = x := by
  cases hr <;> rfl

theorem Rep_none_elim {h : Heap} {p : Option Nat} {t : ATree} (hr : Rep h none p t) :
    t = .nil := by
  cases hr
  rfl

theorem Rep_lookup {h : Heap} {x p : Option Nat} {t : ATree} (hr : Rep h x p t) :
    ∀ a ∈ ATree.addrs t, ∃ nd, h.get? a = some nd := by
  induction hr with
  | nil => intro a ha; exact absurd ha (List.not_mem_nil a)
  | node ha hp hl hr ihl ihr =>
    intro b hb
    rcases List.mem_append.mp hb with hb | hb
    · exact ihl b hb
    · rcases List.mem_cons.mp hb with hb | hb
      · exact ⟨_, hb ▸ ha⟩
      · exact ihr b hb

theorem Rep_addr_lt {h : Heap} {x p : Option Nat} {t : ATree} (hr : Rep h x p t) :
    ∀ a ∈ ATree.addrs t, a < h.length := by
  intro a ha
  obtain ⟨nd, hnd⟩ := Rep_lookup hr a ha
  exact get?_some_lt hnd

theorem Rep_frame {h h' : Heap} {x p : Option Nat} {t : ATree}
    (hagree : ∀ a ∈ ATree.addrs t, h'.get? a = h.get? a) (hr : Rep h x p t) :
    Rep h' x p t := by
  induction hr with
  | nil => exact Rep.nil _
  | node ha hp hl hr ihl ihr =>
    refine Rep.node ?_ hp (ihl ?_) (ihr ?_)
    · rw [hagree _ (by simp [ATree.addrs]), ha]
    · intro b hb; exact hagree b (by simp [ATree.addrs, hb])
    · intro b hb; exact hagree b (by simp [ATree.addrs, hb])

theorem Rep_node_elim {h : Heap} {x p : Option Nat} {l : ATree} {a : Nat} {w : Word}
    {c : Char} {r : ATree} (hrep : Rep h x p (.node l a w c r)) :
    x = some a ∧ ∃ nd, h.get? a = some nd ∧ nd.word = w ∧ nd.color = c ∧ nd.parent = p ∧
      nd.left = ATree.rootAddr l ∧ nd.right = ATree.rootAddr r ∧
      Rep h nd.left (some a) l ∧ Rep h nd.right (some a) r := by
  cases hrep with
  | node ha hp hl hr =>
    exact ⟨rfl, _, ha, rfl, rfl, hp, (Rep_rootAddr hl).symm, (Rep_rootAddr hr).symm, hl, hr⟩

theorem RepC_chp {h : Heap} {C : Ctx} {x hp sp : Option Nat} (hc : RepC h C x hp sp) :
    hp = chp C := by
  cases hc <;> rfl

theorem RepC_frame {h h' : Heap} {C : Ctx} {x hp sp : Option Nat}
    (hagree : ∀ a ∈ ctxAddrs C, h'.get? a = h.get? a) (hc : RepC h C x hp sp) :
    RepC h' C x hp sp := by
  induction hc with
  | root sp => exact RepC.root sp
  | @left up a nd x pa sp r ha hup hpar hslot hr ih =>
    refine RepC.left ?_ (ih ?_) hpar hslot (Rep_frame ?_ hr)
    · rw [hagree a (mem_ctxAddrs_left.mpr (Or.inl rfl)), ha]
    · intro b hb; exact hagree b (mem_ctxAddrs_left.mpr (Or.inr (Or.inr hb)))
    · intro b hb; exact hagree b (mem_ctxAddrs_left.mpr (Or.inr (Or.inl hb)))
  | @right up a nd x pa sp l ha hup hpar hslot hl ih =>
    refine RepC.right ?_ (ih ?_) hpar hslot (Rep_frame ?_ hl)
    · rw [hagree a (mem_ctxAddrs_right.mpr (Or.inl rfl)), ha]
    · intro b hb; exact hagree b (mem_ctxAddrs_right.mpr (Or.inr (Or.inr hb)))
    · intro b hb; exact hagree b (mem_ctxAddrs_right.mpr (Or.inr (Or.inl hb)))

/-- Splitting a represented plugged tree into its context chain and subtree. -/
theorem plug_rep_split {h : Heap} {x : Option Nat} {C : Ctx} {s : ATree}
    (hr : Rep h x none (plug C s)) :
    RepC h C x (chp C) (ATree.rootAddr s) ∧ Rep h (ATree.rootAddr s) (chp C) s := by
  induction C generalizing s with
  | root =>
    have := Rep_rootAddr hr
    subst this
    exact ⟨RepC.root _, hr⟩
  | left up a w c r ih =>
    obtain ⟨hc, hrep⟩ := ih (s := .node s a w c r) hr
    obtain ⟨hx, nd, hnd, hw, hcol, hpar, hleft, hright, hl, hr'⟩ := Rep_node_elim hrep
    have hc' : RepC h up x (chp up) (some a) := hc
    constructor
    · have h2 : RepC h (.left up a nd.word nd.color r) x (some a) nd.left :=
        RepC.left hnd hc' hpar rfl hr'
      rw [hw, hcol] at h2
      show RepC h (.left up a w c r) x (some a) (ATree.rootAddr s)
      rw [← hleft]
      exact h2
    · show Rep h (ATree.rootAddr s) (some a) s
      rw [← hleft]
      exact hl
  | right l a w c up ih =>
    obtain ⟨hc, hrep⟩ := ih (s := .node l a w c s) hr
    obtain ⟨hx, nd, hnd, hw, hcol, hpar, hleft, hright, hl, hr'⟩ := Rep_node_elim hrep
    have hc' : RepC h up x (chp up) (some a) := hc
    constructor
    · have h2 : RepC h (.right l a nd.word nd.color up) x (some a) nd.right :=
        RepC.right hnd hc' hpar rfl hl
      rw [hw, hcol] at h2
      show RepC h (.right l a w c up) x (some a) (ATree.rootAddr s)
      rw [← hright]
      exact h2
    · show Rep h (ATree.rootAddr s) (some a) s
      rw [← hright]
      exact hr'

/-- Rebuilding the representation of a plugged tree from its context chain
and a representation of the subtree in the hole. -/
theorem plug_rep_compose {h : Heap} {x : Option Nat} {C : Ctx} {s : ATree}
    (hc : RepC h C x (chp C) (ATree.rootAddr s))
    (hs : Rep h (ATree.rootAddr s) (chp C) s) :
    Rep h x none (plug C s) := by
  induction C generalizing s x with
  | root =>
    cases hc
    exact hs
  | left up a w c r ih =>
    cases hc with
    | @left _ _ nd _ pa _ _ ha hup hpar hslot hr =>
      have hpa := RepC_chp hup
      subst hpa
      have hsl : Rep h nd.left (some a) s := by rw [hslot]; exact hs
      exact ih (s := .node s a nd.word nd.color r) hup (Rep.node ha hpar hsl hr)
  | right l a w c up ih =>
    cases hc with
    | @right _ _ nd _ pa _ _ ha hup hpar hslot hl =>
      have hpa := RepC_chp hup
      subst hpa
      have hsl : Rep h nd.right (some a) s := by rw [hslot]; exact hs
      exact ih (s := .node l a nd.word nd.color s) hup (Rep.node ha hpar hl hsl)

/-! ## Getter and setter bridge lemmas -/

theorem getColor_at {h : Heap} {a : Nat} {nd : Node} (ha : h.get? a = some nd) :
    getColor h (some a) = nd.color := by simp only [getColor, deref, ha]

theorem getParent_at {h : Heap} {a : Nat} {nd : Node} (ha : h.get? a = some nd) :
    getParent h (some a) = nd.parent := by simp only [getParent, deref, ha]

theorem getLeftChild_at {h : Heap} {a : Nat} {nd : Node} (ha : h.get? a = some nd) :
    getLeftChild h (some a) = nd.left := by simp only [getLeftChild, deref, ha]

theorem getRightChild_at {h : Heap} {a : Nat} {nd : Node} (ha : h.get? a = some nd) :
    getRightChild h (some a) = nd.right := by simp only [getRightChild, deref, ha]

theorem setColor_at {h : Heap} {a : Nat} {nd : Node} {c : Char} (ha : h.get? a = some nd)
    (hval : c = 'r' ∨ c = 'b') :
    setColor h (some a) c = h.set a { nd with color := c } := by
  simp only [setColor, if_pos hval, hupd, ha]

theorem setParent_at {h : Heap} {a : Nat} {nd : Node} {p : Option Nat}
    (ha : h.get? a = some nd) :
    setParent h (some a) p = h.set a { nd with parent := p } := by
  simp only [setParent, hupd, ha]

theorem setLeftChild_at {h : Heap} {a : Nat} {nd : Node} {ch : Option Nat}
    (ha : h.get? a = some nd) :
    setLeftChild h (some a) ch = h.set a { nd with left := ch } := by
  simp only [setLeftChild, hupd, ha]

theorem setRightChild_at {h : Heap} {a : Nat} {nd : Node} {ch : Option Nat}
    (ha : h.get? a = some nd) :
    setRightChild h (some a) ch = h.set a { nd with right := ch } := by
  simp only [setRightChild, hupd, ha]

/-! ## Recoloring lemmas -/

theorem recolorA_words (a : Nat) (c : Char) (t : ATree) :
    ATree.words (ATree.recolorA a c t) = ATree.words t := by
  induction t with
  | nil => rfl
  | node l b w c0 r ihl ihr => simp [ATree.recolorA, ATree.words, ihl, ihr]

theorem recolorA_addrs (a : Nat) (c : Char) (t : ATree) :
    ATree.addrs (ATree.recolorA a c t) = ATree.addrs t := by
  induction t with
  | nil => rfl
  | node l b w c0 r ihl ihr => simp [ATree.recolorA, ATree.addrs, ihl, ihr]

theorem recolorA_rootAddr (a : Nat) (c : Char) (t : ATree) :
    ATree.rootAddr (ATree.recolorA a c t) = ATree.rootAddr t := by
  cases t <;> rfl

theorem recolorA_notmem {a : Nat} {c : Char} {t : ATree} (hnm : a ∉ ATree.addrs t) :
    ATree.recolorA a c t = t := by
  induction t with
  | nil => rfl
  | node l b w c0 r ihl ihr =>
    simp only [ATree.addrs, List.mem_append, List.mem_cons] at hnm
    push_neg at hnm
    simp [ATree.recolorA, ihl hnm.1, ihr hnm.2.2, Ne.symm hnm.2.1]

theorem recolorA_plug {b : Nat} {c : Char} {C : Ctx} (s : ATree)
    (hnm : b ∉ ctxAddrs C) :
    ATree.recolorA b c (plug C s) = plug C (ATree.recolorA b c s) := by
  induction C generalizing s with
  | root => rfl
  | left up a w c0 r ih =>
    rw [mem_ctxAddrs_left] at hnm
    push_neg at hnm
    show ATree.recolorA b c (plug up (.node s a w c0 r)) = plug up (.node (ATree.recolorA b c s) a w c0 r)
    rw [ih _ hnm.2.2]
    simp [ATree.recolorA, Ne.symm hnm.1, recolorA_notmem hnm.2.1]
  | right l a w c0 up ih =>
    rw [mem_ctxAddrs_right] at hnm
    push_neg at hnm
    show ATree.recolorA b c (plug up (.node l a w c0 s)) = plug up (.node l a w c0 (ATree.recolorA b c s))
    rw [ih _ hnm.2.2]
    simp [ATree.recolorA, Ne.symm hnm.1, recolorA_notmem hnm.2.1]

/-- `setColor` at a valid color is represented by `recolorA` on the abstract
tree (recoloring a node outside the tree leaves the tree untouched). -/
theorem Rep_setColor {h : Heap} {x p : Option Nat} {t : ATree} {b : Nat} {c : Char}
    (hval : c = 'r' ∨ c = 'b') (hr : Rep h x p t) :
    Rep (setColor h (some b) c) x p (ATree.recolorA b c t) := by
  cases hb : h.get? b with
  | none =>
    have hnm : b ∉ ATree.addrs t := by
      intro hmem
      obtain ⟨nd, hnd⟩ := Rep_lookup hr b hmem
      rw [hb] at hnd
      exact Option.noConfusion hnd
    rw [recolorA_notmem hnm]
    have : setColor h (some b) c = h := by simp only [setColor, if_pos hval, hupd, hb]
    rw [this]
    exact hr
  | some ndb =>
    rw [setColor_at hb hval]
    induction hr with
    | nil => exact Rep.nil _
    | @node a nd pp l r ha hp hl hr ihl ihr =>
      by_cases hab : a = b
      · subst hab
        rw [ha] at hb
        injection hb with hb
        subst hb
        have ha' : (h.set a { nd with color := c }).get? a = some { nd with color := c } :=
          get?_set_self _ _ _ (get?_some_lt ha)
        have := Rep.node (l := ATree.recolorA a c l) (r := ATree.recolorA a c r) ha' hp ihl ihr
        simpa [ATree.recolorA] using this
      · have ha' : (h.set b { ndb with color := c }).get? a = some nd := by
          rw [get?_set_ne _ _ _ _ (fun he => hab he.symm), ha]
        have := Rep.node (l := ATree.recolorA b c l) (r := ATree.recolorA b c r) ha' hp ihl ihr
        simpa [ATree.recolorA, hab] using this

/-! ## Allocation lemmas -/

theorem Rep_append {h : Heap} {x p : Option Nat} {t : ATree} (hr : Rep h x p t)
    (l' : Heap) : Rep (h ++ l') x p t := by
  refine Rep_frame (fun a ha => ?_) hr
  exact get?_append_lt _ _ _ (Rep_addr_lt hr a ha)

theorem RepC_addr_lt {h : Heap} {C : Ctx} {x hp sp : Option Nat} (hc : RepC h C x hp sp) :
    ∀ a ∈ ctxAddrs C, a < h.length := by
  induction hc with
  | root => intro a ha; simp [ctxAddrs, apre, apost] at ha
  | @left up b nd x pa sp r hb hup hpar hslot hrr ih =>
    intro a ha
    rcases mem_ctxAddrs_left.mp ha with ha | ha | ha
    · exact ha ▸ get?_some_lt hb
    · exact Rep_addr_lt hrr a ha
    · exact ih a ha
  | @right up b nd x pa sp l hb hup hpar hslot hll ih =>
    intro a ha
    rcases mem_ctxAddrs_right.mp ha with ha | ha | ha
    · exact ha ▸ get?_some_lt hb
    · exact Rep_addr_lt hll a ha
    · exact ih a ha

theorem RepC_append {h : Heap} {C : Ctx} {x hp sp : Option Nat} (hc : RepC h C x hp sp)
    (l' : Heap) : RepC (h ++ l') C x hp sp := by
  refine RepC_frame (fun a ha => ?_) hc
  exact get?_append_lt _ _ _ (RepC_addr_lt hc a ha)

/-! ## Lookup lemmas for the setters -/

theorem hupd_get?_ne {h : Heap} {b q : Nat} {f : Node → Node} (hq : q ≠ b) :
    (hupd h b f).get? q = h.get? q := by
  unfold hupd
  cases h.get? b with
  | none => rfl
  | some nd => exact get?_set_ne _ _ _ _ (fun he => hq he.symm)

theorem hupd_get?_self {h : Heap} {b : Nat} {nd : Node} {f : Node → Node}
    (hb : h.get? b = some nd) : (hupd h b f).get? b = some (f nd) := by
  unfold hupd
  rw [hb]
  exact get?_set_self _ _ _ (get?_some_lt hb)

theorem setParent_get?_other {h : Heap} {child : Option Nat} {p : Option Nat} {q : Nat}
    (hq : child ≠ some q) : (setParent h child p).get? q = h.get? q := by
  cases child with
  | none => rfl
  | some a => exact hupd_get?_ne (fun he => hq (by rw [he]))

theorem setParent_get?_self {h : Heap} {a : Nat} {nd : Node} {p : Option Nat}
    (ha : h.get? a = some nd) :
    (setParent h (some a) p).get? a = some { nd with parent := p } :=
  hupd_get?_self ha

theorem setLeftChild_get?_other {h : Heap} {pp : Option Nat} {ch : Option Nat} {q : Nat}
    (hq : pp ≠ some q) : (setLeftChild h pp ch).get? q = h.get? q := by
  cases pp with
  | none => rfl
  | some a => exact hupd_get?_ne (fun he => hq (by rw [he]))

theorem setLeftChild_get?_self {h : Heap} {a : Nat} {nd : Node} {ch : Option Nat}
    (ha : h.get? a = some nd) :
    (setLeftChild h (some a) ch).get? a = some { nd with left := ch } :=
  hupd_get?_self ha

theorem setRightChild_get?_other {h : Heap} {pp : Option Nat} {ch : Option Nat} {q : Nat}
    (hq : pp ≠ some q) : (setRightChild h pp ch).get? q = h.get? q := by
  cases pp with
  | none => rfl
  | some a => exact hupd_get?_ne (fun he => hq (by rw [he]))

theorem setRightChild_get?_self {h : Heap} {a : Nat} {nd : Node} {ch : Option Nat}
    (ha : h.get? a = some nd) :
    (setRightChild h (some a) ch).get? a = some { nd with right := ch } :=
  hupd_get?_self ha

theorem setColor_get?_other {h : Heap} {nn : Option Nat} {c : Char} {q : Nat}
    (hq : nn ≠ some q) : (setColor h nn c).get? q = h.get? q := by
  cases nn with
  | none => rfl
  | some a =>
    have ha : q ≠ a := fun he => hq (by rw [he])
    show (if c = 'r' ∨ c = 'b' then hupd h a (fun nd => { nd with color := c }) else h).get? q = h.get? q
    by_cases hval : c = 'r' ∨ c = 'b'
    · rw [if_pos hval]
      exact hupd_get?_ne ha
    · rw [if_neg hval]

theorem setColor_get?_self {h : Heap} {a : Nat} {nd : Node} {c : Char}
    (ha : h.get? a = some nd) (hval : c = 'r' ∨ c = 'b') :
    (setColor h (some a) c).get? a = some { nd with color := c } := by
  rw [setColor_at ha hval]
  exact get?_set_self _ _ _ (get?_some_lt ha)

/-! ## Nodup dissection -/

theorem nodup_node_parts {l r : ATree} {a : Nat} {w : Word} {c : Char}
    (hnd : (ATree.addrs (.node l a w c r)).Nodup) :
    a ∉ ATree.addrs l ∧ a ∉ ATree.addrs r ∧ (ATree.addrs l).Nodup ∧
      (ATree.addrs r).Nodup ∧ ∀ b ∈ ATree.addrs l, b ∉ ATree.addrs r := by
  rw [show ATree.addrs (.node l a w c r) = ATree.addrs l ++ a :: ATree.addrs r from rfl,
    List.nodup_append] at hnd
  obtain ⟨hl, hcr, hdisj⟩ := hnd
  rw [List.nodup_cons] at hcr
  refine ⟨?_, hcr.1, hl, hcr.2, ?_⟩
  · intro hal
    exact hdisj hal (List.mem_cons_self a _)
  · intro b hb hbr
    exact hdisj hb (List.mem_cons_of_mem a hbr)

/-! ## Context Nodup dissection -/

theorem ctxAddrs_left_perm {up : Ctx} {a : Nat} {w : Word} {c : Char} {r : ATree} :
    List.Perm (ctxAddrs (.left up a w c r)) (a :: (ATree.addrs r ++ ctxAddrs up)) := by
  show List.Perm (apre up ++ ((a :: ATree.addrs r) ++ apost up)) _
  have h1 : apre up ++ ((a :: ATree.addrs r) ++ apost up) =
      apre up ++ a :: (ATree.addrs r ++ apost up) := by simp
  rw [h1]
  refine (List.perm_middle).trans (List.Perm.cons a ?_)
  have h2 : apre up ++ (ATree.addrs r ++ apost up) =
      (apre up ++ ATree.addrs r) ++ apost up := by simp
  have h3 : ATree.addrs r ++ ctxAddrs up = (ATree.addrs r ++ apre up) ++ apost up := by
    simp [ctxAddrs]
  rw [h2, h3]
  exact (List.perm_append_comm).append_right _

theorem ctxAddrs_right_perm {up : Ctx} {a : Nat} {w : Word} {c : Char} {l : ATree} :
    List.Perm (ctxAddrs (.right l a w c up)) (a :: (ATree.addrs l ++ ctxAddrs up)) := by
  show List.Perm ((apre up ++ (ATree.addrs l ++ [a])) ++ apost up) _
  have h1 : (apre up ++ (ATree.addrs l ++ [a])) ++ apost up =
      (apre up ++ ATree.addrs l) ++ a :: apost up := by simp
  rw [h1]
  refine (List.perm_middle).trans (List.Perm.cons a ?_)
  have h2 : ATree.addrs l ++ ctxAddrs up = (ATree.addrs l ++ apre up) ++ apost up := by
    simp [ctxAddrs]
  rw [h2]
  exact (List.perm_append_comm).append_right _

theorem nodup_ctx_left {up : Ctx} {a : Nat} {w : Word} {c : Char} {r : ATree}
    (hnd : (ctxAddrs (.left up a w c r)).Nodup) :
    a ∉ ATree.addrs r ∧ a ∉ ctxAddrs up ∧ (ATree.addrs r).Nodup ∧ (ctxAddrs up).Nodup ∧
      ∀ b ∈ ATree.addrs r, b ∉ ctxAddrs up := by
  have h := (ctxAddrs_left_perm.nodup_iff).mp hnd
  rw [List.nodup_cons, List.mem_append, List.nodup_append] at h
  push_neg at h
  exact ⟨h.1.1, h.1.2, h.2.1, h.2.2.1, fun b hb hb' => h.2.2.2 hb hb'⟩

theorem nodup_ctx_right {up : Ctx} {a : Nat} {w : Word} {c : Char} {l : ATree}
    (hnd : (ctxAddrs (.right l a w c up)).Nodup) :
    a ∉ ATree.addrs l ∧ a ∉ ctxAddrs up ∧ (ATree.addrs l).Nodup ∧ (ctxAddrs up).Nodup ∧
      ∀ b ∈ ATree.addrs l, b ∉ ctxAddrs up := by
  have h := (ctxAddrs_right_perm.nodup_iff).mp hnd
  rw [List.nodup_cons, List.mem_append, List.nodup_append] at h
  push_neg at h
  exact ⟨h.1.1, h.1.2, h.2.1, h.2.2.1, fun b hb hb' => h.2.2.2 hb hb'⟩

/-- Dissect the Nodup property of a plugged tree. -/
theorem plug_nodup_parts {C : Ctx} {s : ATree}
    (hnd : (ATree.addrs (plug C s)).Nodup) :
    (ATree.addrs s).Nodup ∧ (∀ b ∈ ATree.addrs s, b ∉ ctxAddrs C) ∧
      (ctxAddrs C).Nodup := by
  rw [plug_addrs, List.nodup_append] at hnd
  obtain ⟨hpre, hmid, hdisj⟩ := hnd
  rw [List.nodup_append] at hmid
  obtain ⟨hs, hpost, hdisj2⟩ := hmid
  refine ⟨hs, ?_, ?_⟩
  · intro b hb
    rw [ctxAddrs, List.mem_append]
    rintro (hbp | hbp)
    · exact hdisj hbp (List.mem_append.mpr (Or.inl hb))
    · exact hdisj2 hb hbp
  · rw [ctxAddrs, List.nodup_append]
    exact ⟨hpre, hpost, fun b hb hb' => hdisj hb (List.mem_append.mpr (Or.inr hb'))⟩

/-- Rebuild the Nodup property of a plugged tree from parts (used after tree
surgery that permutes the subtree's addresses). -/
theorem plug_nodup_build {C : Ctx} {s : ATree}
    (hs : (ATree.addrs s).Nodup) (hdisj : ∀ b ∈ ATree.addrs s, b ∉ ctxAddrs C)
    (hc : (ctxAddrs C).Nodup) : (ATree.addrs (plug C s)).Nodup := by
  rw [ctxAddrs, List.nodup_append] at hc
  rw [plug_addrs, List.nodup_append, List.nodup_append]
  refine ⟨hc.1, ⟨hs, hc.2.1, ?_⟩, ?_⟩
  · intro b hb hb'
    exact hdisj b hb (by rw [ctxAddrs, List.mem_append]; exact Or.inr hb')
  · intro b hb hb'
    rcases List.mem_append.mp hb' with hb' | hb'
    · exact hdisj b hb' (by rw [ctxAddrs, List.mem_append]; exact Or.inl hb)
    · exact hc.2.2 hb hb'

theorem rootAddr_mem {t : ATree} {a : Nat} (h : ATree.rootAddr t = some a) :
    a ∈ ATree.addrs t := by
  cases t with
  | nil => exact Option.noConfusion h
  | node l b w c r =>
    injection h with h
    simp [ATree.addrs, h]

theorem rootAddr_plug_mem {C : Ctx} (hC : C ≠ .root) (s : ATree) :
    ∃ a0, ATree.rootAddr (plug C s) = some a0 ∧ a0 ∈ ctxAddrs C := by
  induction C generalizing s with
  | root => exact absurd rfl hC
  | left up a w c r ih =>
    by_cases hup : up = Ctx.root
    · subst hup
      exact ⟨a, rfl, mem_ctxAddrs_left.mpr (Or.inl rfl)⟩
    · obtain ⟨a0, h1, h2⟩ := ih hup (s := .node s a w c r)
      exact ⟨a0, h1, mem_ctxAddrs_left.mpr (Or.inr (Or.inr h2))⟩
  | right l a w c up ih =>
    by_cases hup : up = Ctx.root
    · subst hup
      exact ⟨a, rfl, mem_ctxAddrs_right.mpr (Or.inl rfl)⟩
    · obtain ⟨a0, h1, h2⟩ := ih hup (s := .node l a w c s)
      exact ⟨a0, h1, mem_ctxAddrs_right.mpr (Or.inr (Or.inr h2))⟩

/-! ## Frame wrappers and reparenting -/

theorem Rep_setParent_out {h : Heap} {child p' x p : Option Nat} {t : ATree}
    (hout : ∀ q ∈ ATree.addrs t, child ≠ some q) (hr : Rep h x p t) :
    Rep (setParent h child p') x p t :=
  Rep_frame (fun q hq => setParent_get?_other (hout q hq)) hr

theorem Rep_setLeftChild_out {h : Heap} {pp ch x p : Option Nat} {t : ATree}
    (hout : ∀ q ∈ ATree.addrs t, pp ≠ some q) (hr : Rep h x p t) :
    Rep (setLeftChild h pp ch) x p t :=
  Rep_frame (fun q hq => setLeftChild_get?_other (hout q hq)) hr

theorem Rep_setRightChild_out {h : Heap} {pp ch x p : Option Nat} {t : ATree}
    (hout : ∀ q ∈ ATree.addrs t, pp ≠ some q) (hr : Rep h x p t) :
    Rep (setRightChild h pp ch) x p t :=
  Rep_frame (fun q hq => setRightChild_get?_other (hout q hq)) hr

theorem Rep_setColor_out {h : Heap} {nn x p : Option Nat} {c : Char} {t : ATree}
    (hout : ∀ q ∈ ATree.addrs t, nn ≠ some q) (hr : Rep h x p t) :
    Rep (setColor h nn c) x p t :=
  Rep_frame (fun q hq => setColor_get?_other (hout q hq)) hr

theorem RepC_setParent_out {h : Heap} {child p' x hp sp : Option Nat} {C : Ctx}
    (hout : ∀ q ∈ ctxAddrs C, child ≠ some q) (hc : RepC h C x hp sp) :
    RepC (setParent h child p') C x hp sp :=
  RepC_frame (fun q hq => setParent_get?_other (hout q hq)) hc

theorem RepC_setLeftChild_out {h : Heap} {pp ch x hp sp : Option Nat} {C : Ctx}
    (hout : ∀ q ∈ ctxAddrs C, pp ≠ some q) (hc : RepC h C x hp sp) :
    RepC (setLeftChild h pp ch) C x hp sp :=
  RepC_frame (fun q hq => setLeftChild_get?_other (hout q hq)) hc

theorem RepC_setRightChild_out {h : Heap} {pp ch x hp sp : Option Nat} {C : Ctx}
    (hout : ∀ q ∈ ctxAddrs C, pp ≠ some q) (hc : RepC h C x hp sp) :
    RepC (setRightChild h pp ch) C x hp sp :=
  RepC_frame (fun q hq => setRightChild_get?_other (hout q hq)) hc

theorem RepC_setColor_out {h : Heap} {nn x hp sp : Option Nat} {c : Char} {C : Ctx}
    (hout : ∀ q ∈ ctxAddrs C, nn ≠ some q) (hc : RepC h C x hp sp) :
    RepC (setColor h nn c) C x hp sp :=
  RepC_frame (fun q hq => setColor_get?_other (hout q hq)) hc

/-- Setting the parent field of the root of a represented subtree re-roots it
under a new parent pointer; inner nodes are unaffected. -/
theorem Rep_reparent {h : Heap} {sp p : Option Nat} {t : ATree}
    (hr : Rep h sp p t) (hnd : (ATree.addrs t).Nodup) (p' : Option Nat) :
    Rep (setParent h sp p') sp p' t := by
  cases hr with
  | nil => exact Rep.nil _
  | @node a nd pp l r ha hpp hl hrr =>
    obtain ⟨hal, har, hlnd, hrnd, hdisj⟩ := nodup_node_parts hnd
    have hl' : Rep (setParent h (some a) p') nd.left (some a) l :=
      Rep_setParent_out (fun q hq he => hal (by injection he with he; rw [he]; exact hq)) hl
    have hr' : Rep (setParent h (some a) p') nd.right (some a) r :=
      Rep_setParent_out (fun q hq he => har (by injection he with he; rw [he]; exact hq)) hrr
    exact @Rep.node _ a { nd with parent := p' } p' l r (setParent_get?_self ha) rfl hl' hr'

/-- Effect of the parent-slot update fragment: the context now holds `m'` in
its hole slot, the overall root pointer becomes `m'` exactly when the hole is
the root slot, and no address outside the context changes. -/
theorem RepC_slot_update {h : Heap} {C : Ctx} {x : Option Nat} {n : Nat} (m' : Option Nat)
    (hc : RepC h C x (chp C) (some n))
    (hndc : (ctxAddrs C).Nodup)
    (hn : n ∉ ctxAddrs C) :
    RepC (slotUpd h C n m') C (if chp C = none then m' else x) (chp C) m' ∧
    (∀ q, q ∉ ctxAddrs C → (slotUpd h C n m').get? q = h.get? q) := by
  cases hc with
  | root =>
    exact ⟨RepC.root m', fun q _ => rfl⟩
  | @left up a nd _ pa _ r ha hup hpar hslot hr =>
    obtain ⟨har, haup, hrnd, hupnd, hdisj⟩ := nodup_ctx_left hndc
    have hchp : chp (Ctx.left up a nd.word nd.color r) = some a := rfl
    have hLa : getLeftChild h (some a) = some n := by rw [getLeftChild_at ha, hslot]
    have heq : slotUpd h (.left up a nd.word nd.color r) n m' =
        setLeftChild h (some a) m' := by
      show (if some n = getLeftChild h (some a) then setLeftChild h (some a) m'
            else setRightChild h (some a) m') = setLeftChild h (some a) m'
      rw [if_pos hLa.symm]
    rw [heq]
    constructor
    · rw [show (if chp (Ctx.left up a nd.word nd.color r) = none then m' else x) = x from
        if_neg (by simp [chp])]
      have hup' : RepC (setLeftChild h (some a) m') up x pa (some a) := by
        refine RepC_setLeftChild_out (fun q hq he => ?_) hup
        injection he with he
        exact haup (he ▸ hq)
      have hr' : Rep (setLeftChild h (some a) m') nd.right (some a) r := by
        refine Rep_setLeftChild_out (fun q hq he => ?_) hr
        injection he with he
        exact har (he ▸ hq)
      exact @RepC.left _ up a { nd with left := m' } x pa m' r
        (setLeftChild_get?_self ha) hup' hpar rfl hr'
    · intro q hq
      refine setLeftChild_get?_other (fun he => ?_)
      injection he with he
      exact hq (he ▸ mem_ctxAddrs_left.mpr (Or.inl rfl))
  | @right up a nd _ pa _ l ha hup hpar hslot hl =>
    obtain ⟨hal, haup, hlnd, hupnd, hdisj⟩ := nodup_ctx_right hndc
    have hchp : chp (Ctx.right l a nd.word nd.color up) = some a := rfl
    have hLa : getLeftChild h (some a) = ATree.rootAddr l := by
      rw [getLeftChild_at ha, (Rep_rootAddr hl).symm]
    have hne : some n ≠ getLeftChild h (some a) := by
      rw [hLa]
      intro he
      have := rootAddr_mem he.symm
      exact hn (mem_ctxAddrs_right.mpr (Or.inr (Or.inl this)))
    have heq : slotUpd h (.right l a nd.word nd.color up) n m' =
        setRightChild h (some a) m' := by
      show (if some n = getLeftChild h (some a) then setLeftChild h (some a) m'
            else setRightChild h (some a) m') = setRightChild h (some a) m'
      rw [if_neg hne]
    rw [heq]
    constructor
    · rw [show (if chp (Ctx.right l a nd.word nd.color up) = none then m' else x) = x from
        if_neg (by simp [chp])]
      have hup' : RepC (setRightChild h (some a) m') up x pa (some a) := by
        refine RepC_setRightChild_out (fun q hq he => ?_) hup
        injection he with he
        exact haup (he ▸ hq)
      have hl' : Rep (setRightChild h (some a) m') nd.left (some a) l := by
        refine Rep_setRightChild_out (fun q hq he => ?_) hl
        injection he with he
        exact hal (he ▸ hq)
      exact @RepC.right _ up a { nd with right := m' } x pa m' l
        (setRightChild_get?_self ha) hup' hpar rfl hl'
    · intro q hq
      refine setRightChild_get?_other (fun he => ?_)
      injection he with he
      exact hq (he ▸ mem_ctxAddrs_right.mpr (Or.inl rfl))

/-- Mirror of `RepC_slot_update` for the fragment of `rightRotate`. -/
theorem RepC_slot_updateR {h : Heap} {C : Ctx} {x : Option Nat} {n : Nat} (m' : Option Nat)
    (hc : RepC h C x (chp C) (some n))
    (hndc : (ctxAddrs C).Nodup)
    (hn : n ∉ ctxAddrs C) :
    RepC (slotUpdR h C n m') C (if chp C = none then m' else x) (chp C) m' ∧
    (∀ q, q ∉ ctxAddrs C → (slotUpdR h C n m').get? q = h.get? q) := by
  cases hc with
  | root =>
    exact ⟨RepC.root m', fun q _ => rfl⟩
  | @left up a nd _ pa _ r ha hup hpar hslot hr =>
    obtain ⟨har, haup, hrnd, hupnd, hdisj⟩ := nodup_ctx_left hndc
    have hRa : getRightChild h (some a) = ATree.rootAddr r := by
      rw [getRightChild_at ha, (Rep_rootAddr hr).symm]
    have hne : some n ≠ getRightChild h (some a) := by
      rw [hRa]
      intro he
      have := rootAddr_mem he.symm
      exact hn (mem_ctxAddrs_left.mpr (Or.inr (Or.inl this)))
    have heq : slotUpdR h (.left up a nd.word nd.color r) n m' =
        setLeftChild h (some a) m' := by
      show (if some n = getRightChild h (some a) then setRightChild h (some a) m'
            else setLeftChild h (some a) m') = setLeftChild h (some a) m'
      rw [if_neg hne]
    rw [heq]
    constructor
    · rw [show (if chp (Ctx.left up a nd.word nd.color r) = none then m' else x) = x from
        if_neg (by simp [chp])]
      have hup' : RepC (setLeftChild h (some a) m') up x pa (some a) := by
        refine RepC_setLeftChild_out (fun q hq he => ?_) hup
        injection he with he
        exact haup (he ▸ hq)
      have hr' : Rep (setLeftChild h (some a) m') nd.right (some a) r := by
        refine Rep_setLeftChild_out (fun q hq he => ?_) hr
        injection he with he
        exact har (he ▸ hq)
      exact @RepC.left _ up a { nd with left := m' } x pa m' r
        (setLeftChild_get?_self ha) hup' hpar rfl hr'
    · intro q hq
      refine setLeftChild_get?_other (fun he => ?_)
      injection he with he
      exact hq (he ▸ mem_ctxAddrs_left.mpr (Or.inl rfl))
  | @right up a nd _ pa _ l ha hup hpar hslot hl =>
    obtain ⟨hal, haup, hlnd, hupnd, hdisj⟩ := nodup_ctx_right hndc
    have hRa : getRightChild h (some a) = some n := by rw [getRightChild_at ha, hslot]
    have heq : slotUpdR h (.right l a nd.word nd.color up) n m' =
        setRightChild h (some a) m' := by
      show (if some n = getRightChild h (some a) then setRightChild h (some a) m'
            else setLeftChild h (some a) m') = setRightChild h (some a) m'
      rw [if_pos hRa.symm]
    rw [heq]
    constructor
    · rw [show (if chp (Ctx.right l a nd.word nd.color up) = none then m' else x) = x from
        if_neg (by simp [chp])]
      have hup' : RepC (setRightChild h (some a) m') up x pa (some a) := by
        refine RepC_setRightChild_out (fun q hq he => ?_) hup
        injection he with he
        exact haup (he ▸ hq)
      have hl' : Rep (setRightChild h (some a) m') nd.left (some a) l := by
        refine Rep_setRightChild_out (fun q hq he => ?_) hl
        injection he with he
        exact hal (he ▸ hq)
      exact @RepC.right _ up a { nd with right := m' } x pa m' l
        (setRightChild_get?_self ha) hup' hpar rfl hl'
    · intro q hq
      refine setRightChild_get?_other (fun he => ?_)
      injection he with he
      exact hq (he ▸ mem_ctxAddrs_right.mpr (Or.inl rfl))

/-! ## Rotation lemmas -/

/-- `leftRotate` on a node `n` (with right child `m`) sitting in context `C`:
the heap afterwards represents the rotated tree in the same context, the
in-order address and word sequences are unchanged (the rotated subtree's
lists are equal outright), and the returned root pointer is the old one
unless `n` was the root, in which case it is `m`. -/
theorem leftRotate_rep {h : Heap} {x : Option Nat} {C : Ctx} {A B Cc : ATree} {n m : Nat}
    {w v : Word} {c d : Char}
    (hrep : Rep h x none (plug C (.node A n w c (.node B m v d Cc))))
    (hnd : (ATree.addrs (plug C (.node A n w c (.node B m v d Cc)))).Nodup) :
    (leftRotate h x (some n)).2 = (if x = some n then some m else x) ∧
    Rep (leftRotate h x (some n)).1 (leftRotate h x (some n)).2 none
      (plug C (.node (.node A n w c B) m v d Cc)) ∧
    (ATree.addrs (plug C (.node (.node A n w c B) m v d Cc))).Nodup := by
  obtain ⟨hcC, hsub⟩ := plug_rep_split hrep
  obtain ⟨hsubnd, hsubctx, hctxnd⟩ := plug_nodup_parts hnd
  obtain ⟨hx0, ndn, hAn, hwn, hcn, hpn, hln, hrn, hRA, hRInner⟩ := Rep_node_elim hsub
  obtain ⟨hmr, ndm, hAm, hwm, hcm, hpm, hlm, hrm, hRB, hRC⟩ := Rep_node_elim hRInner
  have hcC' : RepC h C x (chp C) (some n) := hcC
  have pn := nodup_node_parts hsubnd
  have pm := nodup_node_parts pn.2.2.2.1
  have hmem_m_inner : m ∈ ATree.addrs (.node B m v d Cc) := by simp [ATree.addrs]
  have hnm : n ≠ m := fun he => pn.2.1 (he ▸ hmem_m_inner)
  have hmn : m ≠ n := fun he => hnm he.symm
  have hnctx : n ∉ ctxAddrs C := hsubctx n (by simp [ATree.addrs])
  have hmctx : m ∉ ctxAddrs C := hsubctx m (by simp [ATree.addrs])
  have hnB : n ∉ ATree.addrs B := fun hq => pn.2.1 (by simp [ATree.addrs, hq])
  have hmB : m ∉ ATree.addrs B := pm.1
  have hAfacts : ∀ q ∈ ATree.addrs A, q ≠ n ∧ q ≠ m ∧ q ∉ ATree.addrs B ∧ q ∉ ctxAddrs C := by
    intro q hq
    refine ⟨fun he => pn.1 (he ▸ hq), fun he => pn.2.2.2.2 q hq (he ▸ hmem_m_inner),
      fun hb => pn.2.2.2.2 q hq (by simp [ATree.addrs, hb]),
      hsubctx q (by simp [ATree.addrs, hq])⟩
  have hCcfacts : ∀ q ∈ ATree.addrs Cc, q ≠ n ∧ q ≠ m ∧ q ∉ ATree.addrs B ∧ q ∉ ctxAddrs C := by
    intro q hq
    refine ⟨fun he => pn.2.1 (by rw [← he] at *; simp [ATree.addrs, hq]),
      fun he => pm.2.1 (he ▸ hq),
      fun hb => pm.2.2.2.2 q hb hq,
      hsubctx q (by simp [ATree.addrs, hq])⟩
  -- stage heaps
  set h1 : Heap := setRightChild h (some n) (ATree.rootAddr B) with hh1
  set h2 : Heap := setParent h1 (ATree.rootAddr B) (some n) with hh2
  set h3 : Heap := setParent h2 (some m) (chp C) with hh3
  set h4 : Heap := slotUpd h3 C n (some m) with hh4
  set h5 : Heap := setLeftChild h4 (some m) (some n) with hh5
  set h6 : Heap := setParent h5 (some n) (some m) with hh6
  -- getters on h
  have e_gRn : getRightChild h (some n) = some m := by rw [getRightChild_at hAn]; exact hmr
  have e_gLm : getLeftChild h (some m) = ATree.rootAddr B := by
    rw [getLeftChild_at hAm]; exact hlm
  -- stage 1 lookups
  have hother1 : ∀ q, q ≠ n → h1.get? q = h.get? q := fun q hq => by
    rw [hh1]; exact setRightChild_get?_other (fun he => hq (by injection he with he; exact he.symm))
  have hn1 : h1.get? n = some { ndn with right := ATree.rootAddr B } := by
    rw [hh1]; exact setRightChild_get?_self hAn
  have e_gLm1 : getLeftChild h1 (some m) = ATree.rootAddr B := by
    rw [getLeftChild_at (((hother1 m hmn).trans hAm))]; exact hlm
  -- stage 2 lookups
  have hother2 : ∀ q, q ∉ ATree.addrs B → h2.get? q = h1.get? q := fun q hq => by
    rw [hh2]; exact setParent_get?_other (fun he => hq (rootAddr_mem he))
  have hn2 : h2.get? n = some { ndn with right := ATree.rootAddr B } :=
    (hother2 n hnB).trans hn1
  have hm2 : h2.get? m = some ndm := (hother2 m hmB).trans ((hother1 m hmn).trans hAm)
  have e_gPn2 : getParent h2 (some n) = chp C := by rw [getParent_at hn2]; exact hpn
  -- stage 3 lookups
  have hother3 : ∀ q, q ≠ m → h3.get? q = h2.get? q := fun q hq => by
    rw [hh3]; exact setParent_get?_other (fun he => hq (by injection he with he; exact he.symm))
  have hm3 : h3.get? m = some { ndm with parent := chp C } := by
    rw [hh3]; exact setParent_get?_self hm2
  have hn3 : h3.get? n = some { ndn with right := ATree.rootAddr B } :=
    (hother3 n hnm).trans hn2
  have e_gPn3 : getParent h3 (some n) = chp C := by rw [getParent_at hn3]; exact hpn
  -- slot update
  have hcC3 : RepC h3 C x (chp C) (some n) := by
    refine RepC_frame (fun q hq => ?_) hcC'
    have hqn : q ≠ n := fun he => hnctx (he ▸ hq)
    have hqm : q ≠ m := fun he => hmctx (he ▸ hq)
    have hqB : q ∉ ATree.addrs B := fun hb => hsubctx q (by simp [ATree.addrs, hb]) hq
    exact ((hother3 q hqm).trans ((hother2 q hqB).trans (hother1 q hqn)))
  have slot := RepC_slot_update (some m) hcC3 hctxnd hnctx
  have hother4 : ∀ q, q ∉ ctxAddrs C → h4.get? q = h3.get? q := fun q hq => by
    rw [hh4]; exact slot.2 q hq
  have hm4 : h4.get? m = some { ndm with parent := chp C } := (hother4 m hmctx).trans hm3
  have hn4 : h4.get? n = some { ndn with right := ATree.rootAddr B } :=
    (hother4 n hnctx).trans hn3
  -- stage 5, 6 lookups
  have hother5 : ∀ q, q ≠ m → h5.get? q = h4.get? q := fun q hq => by
    rw [hh5]; exact setLeftChild_get?_other (fun he => hq (by injection he with he; exact he.symm))
  have hm5 : h5.get? m = some { ndm with parent := chp C, left := some n } := by
    rw [hh5]
    exact setLeftChild_get?_self hm4
  have hn5 : h5.get? n = some { ndn with right := ATree.rootAddr B } :=
    (hother5 n hnm).trans hn4
  have hother6 : ∀ q, q ≠ n → h6.get? q = h5.get? q := fun q hq => by
    rw [hh6]; exact setParent_get?_other (fun he => hq (by injection he with he; exact he.symm))
  have hn6 : h6.get? n = some { ndn with right := ATree.rootAddr B, parent := some m } := by
    rw [hh6]
    exact setParent_get?_self hn5
  have hm6 : h6.get? m = some { ndm with parent := chp C, left := some n } :=
    (hother6 m hmn).trans hm5
  have hagree_all : ∀ q, q ≠ n → q ≠ m → q ∉ ATree.addrs B → q ∉ ctxAddrs C →
      h6.get? q = h.get? q := by
    intro q q1 q2 q3 q4
    exact (hother6 q q1).trans ((hother5 q q2).trans ((hother4 q q4).trans
      ((hother3 q q2).trans ((hother2 q q3).trans (hother1 q q1)))))
  -- evaluation of leftRotate
  have heval : leftRotate h x (some n) = (h6, if chp C = none then some m else x) := by
    simp only [leftRotate]
    rw [e_gRn, e_gLm]
    rw [← hh1]
    rw [e_gLm1]
    have e_if2 : (if ATree.rootAddr B ≠ none then setParent h1 (ATree.rootAddr B) (some n)
        else h1) = h2 := by
      rw [hh2]
      by_cases hB : ATree.rootAddr B = none
      · rw [if_neg (by simp [hB]), hB]
        rfl
      · rw [if_pos hB]
    rw [e_if2]
    rw [e_gPn2, ← hh3, e_gPn3]
    have e_slot : (if chp C = none then h3
        else if some n = getLeftChild h3 (chp C) then setLeftChild h3 (chp C) (some m)
        else setRightChild h3 (chp C) (some m)) = h4 := by
      rw [hh4]
      cases hch : chp C with
      | none => simp [slotUpd, hch]
      | some p => simp [slotUpd, hch]
    rw [e_slot, ← hh5, ← hh6]
  -- the root pointer characterization
  have hiff : chp C = none ↔ x = some n := by
    constructor
    · intro hch
      cases C with
      | root =>
        cases hcC' with
        | root => rfl
      | left up a w0 c0 r => exact Option.noConfusion hch
      | right l a w0 c0 up => exact Option.noConfusion hch
    · intro hx
      by_contra hch
      have hCne : C ≠ Ctx.root := by
        intro he
        subst he
        exact hch rfl
      obtain ⟨a0, ha0, ha0mem⟩ := rootAddr_plug_mem hCne (.node A n w c (.node B m v d Cc))
      rw [Rep_rootAddr hrep] at ha0
      rw [hx] at ha0
      injection ha0 with ha0
      exact hnctx (ha0 ▸ ha0mem)
  have hroot_eq : (if chp C = none then some m else x) = (if x = some n then some m else x) := by
    by_cases hch : chp C = none
    · rw [if_pos hch, if_pos (hiff.mp hch)]
    · rw [if_neg hch, if_neg (fun hx => hch (hiff.mpr hx))]
  -- representation of the rotated tree
  have hRA6 : Rep h6 (ATree.rootAddr A) (some n) A := by
    refine Rep_frame (fun q hq => ?_) (hln ▸ hRA)
    obtain ⟨q1, q2, q3, q4⟩ := hAfacts q hq
    exact hagree_all q q1 q2 q3 q4
  have hRB2 : Rep h2 (ATree.rootAddr B) (some n) B := by
    have hRB1 : Rep h1 (ATree.rootAddr B) (some m) B := by
      refine Rep_frame (fun q hq => hother1 q (fun he => hnB (he ▸ hq))) (hlm ▸ hRB)
    rw [hh2]
    exact Rep_reparent hRB1 pm.2.2.1 (some n)
  have hRB6 : Rep h6 (ATree.rootAddr B) (some n) B := by
    refine Rep_frame (fun q hq => ?_) hRB2
    have hqn : q ≠ n := fun he => hnB (he ▸ hq)
    have hqm : q ≠ m := fun he => hmB (he ▸ hq)
    have hqc : q ∉ ctxAddrs C := hsubctx q (by simp [ATree.addrs, hq])
    exact (hother6 q hqn).trans ((hother5 q hqm).trans ((hother4 q hqc).trans (hother3 q hqm)))
  have hRC6 : Rep h6 (ATree.rootAddr Cc) (some m) Cc := by
    refine Rep_frame (fun q hq => ?_) (hrm ▸ hRC)
    obtain ⟨q1, q2, q3, q4⟩ := hCcfacts q hq
    exact hagree_all q q1 q2 q3 q4
  have hRn6 : Rep h6 (some n) (some m) (.node A n w c B) := by
    have := @Rep.node h6 n { ndn with right := ATree.rootAddr B, parent := some m } (some m)
      A B hn6 rfl (by exact hln ▸ hRA6) (by exact hRB6)
    rw [show ({ ndn with right := ATree.rootAddr B, parent := some m } : Node).word = ndn.word
      from rfl, show ({ ndn with right := ATree.rootAddr B, parent := some m } : Node).color =
      ndn.color from rfl, hwn, hcn] at this
    exact this
  have hRm6 : Rep h6 (some m) (chp C) (.node (.node A n w c B) m v d Cc) := by
    have := @Rep.node h6 m { ndm with parent := chp C, left := some n } (chp C)
      (.node A n w c B) Cc hm6 rfl (by exact hRn6) (by exact hrm ▸ hRC6)
    rw [show ({ ndm with parent := chp C, left := some n } : Node).word = ndm.word from rfl,
      show ({ ndm with parent := chp C, left := some n } : Node).color = ndm.color from rfl,
      hwm, hcm] at this
    exact this
  have hcC6 : RepC h6 C (if chp C = none then some m else x) (chp C) (some m) := by
    refine RepC_frame (fun q hq => ?_) (hh4 ▸ slot.1)
    have hqn : q ≠ n := fun he => hnctx (he ▸ hq)
    have hqm : q ≠ m := fun he => hmctx (he ▸ hq)
    exact (hother6 q hqn).trans (hother5 q hqm)
  have hfinal : Rep h6 (if chp C = none then some m else x) none
      (plug C (.node (.node A n w c B) m v d Cc)) :=
    plug_rep_compose hcC6 hRm6
  -- addresses are unchanged outright
  have haddrs_eq : ATree.addrs (plug C (.node (.node A n w c B) m v d Cc)) =
      ATree.addrs (plug C (.node A n w c (.node B m v d Cc))) := by
    rw [plug_addrs, plug_addrs]
    simp [ATree.addrs]
  refine ⟨?_, ?_, ?_⟩
  · rw [heval]
    exact hroot_eq
  · rw [heval]
    exact hfinal
  · rw [haddrs_eq]
    exact hnd

/-- `rightRotate` on a node `n` (with left child `m`) sitting in context `C`:
mirror image of `leftRotate_rep`. -/
theorem rightRotate_rep {h : Heap} {x : Option Nat} {C : Ctx} {A B Cc : ATree} {n m : Nat}
    {w v : Word} {c d : Char}
    (hrep : Rep h x none (plug C (.node (.node A m v d B) n w c Cc)))
    (hnd : (ATree.addrs (plug C (.node (.node A m v d B) n w c Cc))).Nodup) :
    (rightRotate h x (some n)).2 = (if x = some n then some m else x) ∧
    Rep (rightRotate h x (some n)).1 (rightRotate h x (some n)).2 none
      (plug C (.node A m v d (.node B n w c Cc))) ∧
    (ATree.addrs (plug C (.node A m v d (.node B n w c Cc)))).Nodup := by
  obtain ⟨hcC, hsub⟩ := plug_rep_split hrep
  obtain ⟨hsubnd, hsubctx, hctxnd⟩ := plug_nodup_parts hnd
  obtain ⟨hx0, ndn, hAn, hwn, hcn, hpn, hln, hrn, hRInner, hRCc⟩ := Rep_node_elim hsub
  obtain ⟨hml, ndm, hAm, hwm, hcm, hpm, hlm, hrm, hRA, hRB⟩ := Rep_node_elim hRInner
  have hcC' : RepC h C x (chp C) (some n) := hcC
  have pn := nodup_node_parts hsubnd
  have pm := nodup_node_parts pn.2.2.1
  have hmem_m_inner : m ∈ ATree.addrs (.node A m v d B) := by simp [ATree.addrs]
  have hnm : n ≠ m := fun he => pn.1 (he ▸ hmem_m_inner)
  have hmn : m ≠ n := fun he => hnm he.symm
  have hnctx : n ∉ ctxAddrs C := hsubctx n (by simp [ATree.addrs])
  have hmctx : m ∉ ctxAddrs C := hsubctx m (by simp [ATree.addrs])
  have hnB : n ∉ ATree.addrs B := fun hq => pn.1 (by simp [ATree.addrs, hq])
  have hmB : m ∉ ATree.addrs B := pm.2.1
  have hAfacts : ∀ q ∈ ATree.addrs A, q ≠ n ∧ q ≠ m ∧ q ∉ ATree.addrs B ∧ q ∉ ctxAddrs C := by
    intro q hq
    refine ⟨fun he => pn.1 (by rw [← he] at *; simp [ATree.addrs, hq]),
      fun he => pm.1 (he ▸ hq),
      fun hb => pm.2.2.2.2 q hq hb,
      hsubctx q (by simp [ATree.addrs, hq])⟩
  have hCcfacts : ∀ q ∈ ATree.addrs Cc, q ≠ n ∧ q ≠ m ∧ q ∉ ATree.addrs B ∧ q ∉ ctxAddrs C := by
    intro q hq
    refine ⟨fun he => pn.2.1 (he ▸ hq),
      fun he => pn.2.2.2.2 m hmem_m_inner (he ▸ hq),
      fun hb => pn.2.2.2.2 q (by simp [ATree.addrs, hb]) hq,
      hsubctx q (by simp [ATree.addrs, hq])⟩
  -- stage heaps
  set h1 : Heap := setLeftChild h (some n) (ATree.rootAddr B) with hh1
  set h2 : Heap := setParent h1 (ATree.rootAddr B) (some n) with hh2
  set h3 : Heap := setParent h2 (some m) (chp C) with hh3
  set h4 : Heap := slotUpdR h3 C n (some m) with hh4
  set h5 : Heap := setRightChild h4 (some m) (some n) with hh5
  set h6 : Heap := setParent h5 (some n) (some m) with hh6
  -- getters on h
  have e_gLn : getLeftChild h (some n) = some m := by rw [getLeftChild_at hAn]; exact hml
  have e_gRm : getRightChild h (some m) = ATree.rootAddr B := by
    rw [getRightChild_at hAm]; exact hrm
  -- stage 1 lookups
  have hother1 : ∀ q, q ≠ n → h1.get? q = h.get? q := fun q hq => by
    rw [hh1]; exact setLeftChild_get?_other (fun he => hq (by injection he with he; exact he.symm))
  have hn1 : h1.get? n = some { ndn with left := ATree.rootAddr B } := by
    rw [hh1]; exact setLeftChild_get?_self hAn
  have e_gRm1 : getRightChild h1 (some m) = ATree.rootAddr B := by
    rw [getRightChild_at (((hother1 m hmn).trans hAm))]; exact hrm
  -- stage 2 lookups
  have hother2 : ∀ q, q ∉ ATree.addrs B → h2.get? q = h1.get? q := fun q hq => by
    rw [hh2]; exact setParent_get?_other (fun he => hq (rootAddr_mem he))
  have hn2 : h2.get? n = some { ndn with left := ATree.rootAddr B } :=
    (hother2 n hnB).trans hn1
  have hm2 : h2.get? m = some ndm := (hother2 m hmB).trans ((hother1 m hmn).trans hAm)
  have e_gPn2 : getParent h2 (some n) = chp C := by rw [getParent_at hn2]; exact hpn
  -- stage 3 lookups
  have hother3 : ∀ q, q ≠ m → h3.get? q = h2.get? q := fun q hq => by
    rw [hh3]; exact setParent_get?_other (fun he => hq (by injection he with he; exact he.symm))
  have hm3 : h3.get? m = some { ndm with parent := chp C } := by
    rw [hh3]; exact setParent_get?_self hm2
  have hn3 : h3.get? n = some { ndn with left := ATree.rootAddr B } :=
    (hother3 n hnm).trans hn2
  have e_gPn3 : getParent h3 (some n) = chp C := by rw [getParent_at hn3]; exact hpn
  -- slot update
  have hcC3 : RepC h3 C x (chp C) (some n) := by
    refine RepC_frame (fun q hq => ?_) hcC'
    have hqn : q ≠ n := fun he => hnctx (he ▸ hq)
    have hqm : q ≠ m := fun he => hmctx (he ▸ hq)
    have hqB : q ∉ ATree.addrs B := fun hb => hsubctx q (by simp [ATree.addrs, hb]) hq
    exact ((hother3 q hqm).trans ((hother2 q hqB).trans (hother1 q hqn)))
  have slot := RepC_slot_updateR (some m) hcC3 hctxnd hnctx
  have hother4 : ∀ q, q ∉ ctxAddrs C → h4.get? q = h3.get? q := fun q hq => by
    rw [hh4]; exact slot.2 q hq
  have hm4 : h4.get? m = some { ndm with parent := chp C } := (hother4 m hmctx).trans hm3
  have hn4 : h4.get? n = some { ndn with left := ATree.rootAddr B } :=
    (hother4 n hnctx).trans hn3
  -- stage 5, 6 lookups
  have hother5 : ∀ q, q ≠ m → h5.get? q = h4.get? q := fun q hq => by
    rw [hh5]; exact setRightChild_get?_other (fun he => hq (by injection he with he; exact he.symm))
  have hm5 : h5.get? m = some { ndm with parent := chp C, right := some n } := by
    rw [hh5]
    exact setRightChild_get?_self hm4
  have hn5 : h5.get? n = some { ndn with left := ATree.rootAddr B } :=
    (hother5 n hnm).trans hn4
  have hother6 : ∀ q, q ≠ n → h6.get? q = h5.get? q := fun q hq => by
    rw [hh6]; exact setParent_get?_other (fun he => hq (by injection he with he; exact he.symm))
  have hn6 : h6.get? n = some { ndn with left := ATree.rootAddr B, parent := some m } := by
    rw [hh6]
    exact setParent_get?_self hn5
  have hm6 : h6.get? m = some { ndm with parent := chp C, right := some n } :=
    (hother6 m hmn).trans hm5
  have hagree_all : ∀ q, q ≠ n → q ≠ m → q ∉ ATree.addrs B → q ∉ ctxAddrs C →
      h6.get? q = h.get? q := by
    intro q q1 q2 q3 q4
    exact (hother6 q q1).trans ((hother5 q q2).trans ((hother4 q q4).trans
      ((hother3 q q2).trans ((hother2 q q3).trans (hother1 q q1)))))
  -- evaluation of rightRotate
  have heval : rightRotate h x (some n) = (h6, if chp C = none then some m else x) := by
    simp only [rightRotate]
    rw [e_gLn, e_gRm]
    rw [← hh1]
    rw [e_gRm1]
    have e_if2 : (if ATree.rootAddr B ≠ none then setParent h1 (ATree.rootAddr B) (some n)
        else h1) = h2 := by
      rw [hh2]
      by_cases hB : ATree.rootAddr B = none
      · rw [if_neg (by simp [hB]), hB]
        rfl
      · rw [if_pos hB]
    rw [e_if2]
    rw [e_gPn2, ← hh3, e_gPn3]
    have e_slot : (if chp C = none then h3
        else if some n = getRightChild h3 (chp C) then setRightChild h3 (chp C) (some m)
        else setLeftChild h3 (chp C) (some m)) = h4 := by
      rw [hh4]
      cases hch : chp C with
      | none => simp [slotUpdR, hch]
      | some p => simp [slotUpdR, hch]
    rw [e_slot, ← hh5, ← hh6]
  -- the root pointer characterization
  have hiff : chp C = none ↔ x = some n := by
    constructor
    · intro hch
      cases C with
      | root =>
        cases hcC' with
        | root => rfl
      | left up a w0 c0 r => exact Option.noConfusion hch
      | right l a w0 c0 up => exact Option.noConfusion hch
    · intro hx
      by_contra hch
      have hCne : C ≠ Ctx.root := by
        intro he
        subst he
        exact hch rfl
      obtain ⟨a0, ha0, ha0mem⟩ := rootAddr_plug_mem hCne (.node (.node A m v d B) n w c Cc)
      rw [Rep_rootAddr hrep] at ha0
      rw [hx] at ha0
      injection ha0 with ha0
      exact hnctx (ha0 ▸ ha0mem)
  have hroot_eq : (if chp C = none then some m else x) = (if x = some n then some m else x) := by
    by_cases hch : chp C = none
    · rw [if_pos hch, if_pos (hiff.mp hch)]
    · rw [if_neg hch, if_neg (fun hx => hch (hiff.mpr hx))]
  -- representation of the rotated tree
  have hRA6 : Rep h6 (ATree.rootAddr A) (some m) A := by
    refine Rep_frame (fun q hq => ?_) (hlm ▸ hRA)
    obtain ⟨q1, q2, q3, q4⟩ := hAfacts q hq
    exact hagree_all q q1 q2 q3 q4
  have hRB2 : Rep h2 (ATree.rootAddr B) (some n) B := by
    have hRB1 : Rep h1 (ATree.rootAddr B) (some m) B := by
      refine Rep_frame (fun q hq => hother1 q (fun he => hnB (he ▸ hq))) (hrm ▸ hRB)
    rw [hh2]
    exact Rep_reparent hRB1 pm.2.2.2.1 (some n)
  have hRB6 : Rep h6 (ATree.rootAddr B) (some n) B := by
    refine Rep_frame (fun q hq => ?_) hRB2
    have hqn : q ≠ n := fun he => hnB (he ▸ hq)
    have hqm : q ≠ m := fun he => hmB (he ▸ hq)
    have hqc : q ∉ ctxAddrs C := hsubctx q (by simp [ATree.addrs, hq])
    exact (hother6 q hqn).trans ((hother5 q hqm).trans ((hother4 q hqc).trans (hother3 q hqm)))
  have hRCc6 : Rep h6 (ATree.rootAddr Cc) (some n) Cc := by
    refine Rep_frame (fun q hq => ?_) (hrn ▸ hRCc)
    obtain ⟨q1, q2, q3, q4⟩ := hCcfacts q hq
    exact hagree_all q q1 q2 q3 q4
  have hRn6 : Rep h6 (some n) (some m) (.node B n w c Cc) := by
    have := @Rep.node h6 n { ndn with left := ATree.rootAddr B, parent := some m } (some m)
      B Cc hn6 rfl (by exact hRB6) (by exact hrn ▸ hRCc6)
    rw [show ({ ndn with left := ATree.rootAddr B, parent := some m } : Node).word = ndn.word
      from rfl, show ({ ndn with left := ATree.rootAddr B, parent := some m } : Node).color =
      ndn.color from rfl, hwn, hcn] at this
    exact this
  have hRm6 : Rep h6 (some m) (chp C) (.node A m v d (.node B n w c Cc)) := by
    have := @Rep.node h6 m { ndm with parent := chp C, right := some n } (chp C)
      A (.node B n w c Cc) hm6 rfl (by exact hlm ▸ hRA6) (by exact hRn6)
    rw [show ({ ndm with parent := chp C, right := some n } : Node).word = ndm.word from rfl,
      show ({ ndm with parent := chp C, right := some n } : Node).color = ndm.color from rfl,
      hwm, hcm] at this
    exact this
  have hcC6 : RepC h6 C (if chp C = none then some m else x) (chp C) (some m) := by
    refine RepC_frame (fun q hq => ?_) (hh4 ▸ slot.1)
    have hqn : q ≠ n := fun he => hnctx (he ▸ hq)
    have hqm : q ≠ m := fun he => hmctx (he ▸ hq)
    exact (hother6 q hqn).trans (hother5 q hqm)
  have hfinal : Rep h6 (if chp C = none then some m else x) none
      (plug C (.node A m v d (.node B n w c Cc))) :=
    plug_rep_compose hcC6 hRm6
  have haddrs_eq : ATree.addrs (plug C (.node A m v d (.node B n w c Cc))) =
      ATree.addrs (plug C (.node (.node A m v d B) n w c Cc)) := by
    rw [plug_addrs, plug_addrs]
    simp [ATree.addrs]
  refine ⟨?_, ?_, ?_⟩
  · rw [heval]
    exact hroot_eq
  · rw [heval]
    exact hfinal
  · rw [haddrs_eq]
    exact hnd

/-! ## The search descent -/

theorem sizeA_eq_length_addrs (t : ATree) : ATree.sizeA t = (ATree.addrs t).length := by
  induction t with
  | nil => rfl
  | node l a w c r ihl ihr => simp [ATree.sizeA, ATree.addrs, ihl, ihr]; omega

theorem addrs_length_le {h : Heap} {x p : Option Nat} {t : ATree} (hr : Rep h x p t)
    (hnd : (ATree.addrs t).Nodup) : (ATree.addrs t).length ≤ h.length := by
  have hsub : (ATree.addrs t).toFinset ⊆ Finset.range h.length := by
    intro a ha
    rw [List.mem_toFinset] at ha
    rw [Finset.mem_range]
    exact Rep_addr_lt hr a ha
  have hcard := Finset.card_le_card hsub
  rwa [List.toFinset_card_of_nodup hnd, Finset.card_range] at hcard

/-- Full characterization of the descent loop: starting at the subtree `t`
plugged into context `C` (with `parent` holding the hole parent of `C` and
`cmp` as recorded by `CmpOK`), the loop either finds the word or falls off
the tree at an empty slot described by a larger context `C2`. -/
theorem descend_go {h : Heap} {w : Word} {x : Option Nat} :
    ∀ (t : ATree) (C : Ctx) (cmp0 : Int) (fuel : Nat),
    RepC h C x (chp C) (ATree.rootAddr t) →
    Rep h (ATree.rootAddr t) (chp C) t →
    CmpOK w C cmp0 →
    ctxSearchOK w C →
    ATree.sizeA t < fuel →
    (descend h w (ATree.rootAddr t) (chp C) cmp0 fuel = some .found ∧ w ∈ ATree.words t) ∨
    (∃ C2 cmp2, descend h w (ATree.rootAddr t) (chp C) cmp0 fuel =
        some (.fell (chp C2) cmp2) ∧
      plug C2 .nil = plug C t ∧
      RepC h C2 x (chp C2) none ∧
      CmpOK w C2 cmp2 ∧
      ctxSearchOK w C2) := by
  intro t
  induction t with
  | nil =>
    intro C cmp0 fuel hcC hrep hcmp hsearch hfuel
    right
    refine ⟨C, cmp0, ?_, rfl, hcC, hcmp, hsearch⟩
    cases fuel <;> rfl
  | node l a w' c' r ihl ihr =>
    intro C cmp0 fuel hcC hrep hcmp hsearch hfuel
    obtain ⟨hx0, nd, hAn, hwn, hcn, hpn, hln, hrn, hRl, hRr⟩ := Rep_node_elim hrep
    cases fuel with
    | zero => exact absurd hfuel (by simp [ATree.sizeA])
    | succ fuel =>
      have hstep : descend h w (ATree.rootAddr (.node l a w' c' r)) (chp C) cmp0 (fuel + 1) =
          (if strcmp w w' = 0 then some .found
           else if strcmp w w' < 0 then descend h w nd.left (some a) (strcmp w w') fuel
           else descend h w nd.right (some a) (strcmp w w') fuel) := by
        show descend h w (some a) (chp C) cmp0 (fuel + 1) = _
        simp only [descend, hAn, hwn]
      rcases strcmp_vals w w' with hv | hv | hv
      · -- goes left
        rw [hstep, if_neg (by omega), if_pos (by omega)]
        have hcC' : RepC h (.left C a w' c' r) x (some a) (ATree.rootAddr l) := by
          have := @RepC.left h C a nd x (chp C) (ATree.rootAddr l) r hAn
            (by exact hcC) hpn (by rw [hln]) (by exact hRr)
          rw [hwn, hcn] at this
          exact this
        have hres := ihl (.left C a w' c' r) (strcmp w w') fuel (by exact hcC')
          (by rw [← hln]; exact hRl) (by exact ⟨rfl, by omega⟩)
          (by exact ⟨by omega, hsearch⟩)
          (by rw [show ATree.sizeA (.node l a w' c' r) = ATree.sizeA l + ATree.sizeA r + 1
                from rfl] at hfuel; omega)
        rw [show chp (Ctx.left C a w' c' r) = some a from rfl] at hres
        rw [hln]
        rcases hres with ⟨hd, hmem⟩ | ⟨C2, cmp2, hd, hplug, hc2, hcmp2, hs2⟩
        · left
          exact ⟨hd, by simp [ATree.words, hmem]⟩
        · right
          exact ⟨C2, cmp2, hd, by rw [hplug]; rfl, hc2, hcmp2, hs2⟩
      · -- found
        left
        rw [hstep, if_pos hv]
        refine ⟨rfl, ?_⟩
        rw [(strcmp_eq_zero_iff w w').mp hv]
        simp [ATree.words]
      · -- goes right
        rw [hstep, if_neg (by omega), if_neg (by omega)]
        have hcC' : RepC h (.right l a w' c' C) x (some a) (ATree.rootAddr r) := by
          have := @RepC.right h C a nd x (chp C) (ATree.rootAddr r) l hAn
            (by exact hcC) hpn (by rw [hrn]) (by exact hRl)
          rw [hwn, hcn] at this
          exact this
        have hres := ihr (.right l a w' c' C) (strcmp w w') fuel (by exact hcC')
          (by rw [← hrn]; exact hRr) (by exact ⟨rfl, by omega⟩)
          (by exact ⟨by omega, hsearch⟩)
          (by rw [show ATree.sizeA (.node l a w' c' r) = ATree.sizeA l + ATree.sizeA r + 1
                from rfl] at hfuel; omega)
        rw [show chp (Ctx.right l a w' c' C) = some a from rfl] at hres
        rw [hrn]
        rcases hres with ⟨hd, hmem⟩ | ⟨C2, cmp2, hd, hplug, hc2, hcmp2, hs2⟩
        · left
          exact ⟨hd, by simp [ATree.words, hmem]⟩
        · right
          exact ⟨C2, cmp2, hd, by rw [hplug]; rfl, hc2, hcmp2, hs2⟩

/-! ## Sorted-insertion reasoning along a search context -/

/-- In a sorted tree, the comparisons of a successful descent bound the new
word strictly between everything printed before and after the hole. -/
theorem ctx_bounds {w : Word} {C : Ctx}
    (hs : (wpre C ++ wpost C).Sorted wordLt) (hok : ctxSearchOK w C) :
    (∀ u ∈ wpre C, wordLt u w) ∧ (∀ u ∈ wpost C, wordLt w u) := by
  induction C with
  | root => simp [wpre, wpost]
  | left up a w' c' r ih =>
    obtain ⟨hlt, hok'⟩ := hok
    have hwlt : wordLt w w' := hlt
    rw [show wpre (Ctx.left up a w' c' r) = wpre up from rfl,
      show wpost (Ctx.left up a w' c' r) = (w' :: ATree.words r) ++ wpost up from rfl] at hs ⊢
    rw [List.Sorted, List.pairwise_append] at hs
    obtain ⟨hp1, hp2, hcross⟩ := hs
    rw [List.pairwise_append, List.pairwise_cons] at hp2
    have hs' : (wpre up ++ wpost up).Sorted wordLt := by
      rw [List.Sorted, List.pairwise_append]
      exact ⟨hp1, hp2.2.1, fun u hu v hv =>
        hcross u hu v (List.mem_append.mpr (Or.inr hv))⟩
    obtain ⟨h1, h2⟩ := ih hs' hok'
    refine ⟨h1, ?_⟩
    intro u hu
    rcases List.mem_append.mp hu with hu | hu
    · rcases List.mem_cons.mp hu with hu | hu
      · exact hu ▸ hwlt
      · exact wordLt_trans hwlt (hp2.1.1 u hu)
    · exact h2 u hu
  | right l a w' c' up ih =>
    obtain ⟨hgt, hok'⟩ := hok
    have hwlt : wordLt w' w := by
      unfold wordLt
      rw [strcmp_swap w' w] at hgt
      omega
    rw [show wpre (Ctx.right l a w' c' up) = wpre up ++ (ATree.words l ++ [w']) from rfl] at hs ⊢
    rw [show wpost (Ctx.right l a w' c' up) = wpost up from rfl] at hs ⊢
    have hs0 : ((wpre up ++ (ATree.words l ++ [w'])) ++ wpost up).Pairwise wordLt := hs
    rw [List.pairwise_append] at hs0
    obtain ⟨hp1, hpost, hcross1⟩ := hs0
    rw [List.pairwise_append] at hp1
    obtain ⟨hpre, hp2, hcross2⟩ := hp1
    rw [List.pairwise_append] at hp2
    obtain ⟨hpl, _, hcross3⟩ := hp2
    have hs' : (wpre up ++ wpost up).Sorted wordLt := by
      rw [List.Sorted, List.pairwise_append]
      exact ⟨hpre, hpost, fun u hu v hv =>
        hcross1 u (List.mem_append.mpr (Or.inl hu)) v hv⟩
    obtain ⟨h1, h2⟩ := ih hs' hok'
    refine ⟨?_, h2⟩
    intro u hu
    rcases List.mem_append.mp hu with hu | hu
    · exact h1 u hu
    · rcases List.mem_append.mp hu with hu | hu
      · exact wordLt_trans (hcross3 u hu w' (List.mem_singleton.mpr rfl)) hwlt
      · rw [List.mem_singleton.mp hu]
        exact hwlt

/-! ## More structural helpers -/

/-- For a non-root context, the root node of the plugged tree is a context
node, so its address and color do not depend on the plugged subtree. -/
theorem plug_root_indep {C : Ctx} (hC : C ≠ .root) (s s' : ATree) :
    ATree.rootAddr (plug C s) = ATree.rootAddr (plug C s') ∧
    ATree.rootColor (plug C s) = ATree.rootColor (plug C s') := by
  induction C generalizing s s' with
  | root => exact absurd rfl hC
  | left up a w c r ih =>
    by_cases hup : up = Ctx.root
    · subst hup
      exact ⟨rfl, rfl⟩
    · exact ih hup (.node s a w c r) (.node s' a w c r)
  | right l a w c up ih =>
    by_cases hup : up = Ctx.root
    · subst hup
      exact ⟨rfl, rfl⟩
    · exact ih hup (.node l a w c s) (.node l a w c s')

/-- `setColor(root, 'b')` at the end of `insert` blackens the root node. -/
theorem Rep_blacken_root {h : Heap} {x : Option Nat} {l r : ATree} {a : Nat} {w : Word}
    {c : Char} (hrep : Rep h x none (.node l a w c r))
    (hnd : (ATree.addrs (.node l a w c r)).Nodup) :
    Rep (setColor h x 'b') x none (.node l a w 'b' r) := by
  have hx : x = some a := (Rep_rootAddr hrep).symm
  subst hx
  have := Rep_setColor (Or.inr rfl) (b := a) hrep
  obtain ⟨hal, har, _, _, _⟩ := nodup_node_parts hnd
  rw [show ATree.recolorA a 'b' (.node l a w c r) =
    .node (ATree.recolorA a 'b' l) a w 'b' (ATree.recolorA a 'b' r) by simp [ATree.recolorA],
    recolorA_notmem hal, recolorA_notmem har] at this
  exact this

theorem words_plug_nil {C : Ctx} : ATree.words (plug C .nil) = wpre C ++ wpost C := by
  rw [plug_words]
  rfl

theorem words_plug_single {C : Ctx} {L : Nat} {w : Word} {c : Char} :
    ATree.words (plug C (.node .nil L w c .nil)) = wpre C ++ (w :: wpost C) := by
  rw [plug_words]
  rfl

/-- Behaviour of the first half of `insert` on a represented non-empty tree:
either the word is found (and the state is returned untouched), or a fresh
RED node holding the word is attached at the empty slot the search fell into,
and the heap represents the extended tree. -/
theorem phase1_spec {h : Heap} {x : Option Nat} {t : ATree} (word : Word)
    (hrep : Rep h x none t) (hnd : (ATree.addrs t).Nodup) (hne : t ≠ .nil) :
    (phase1 h x word = some (.dup h x) ∧ word ∈ ATree.words t) ∨
    (∃ (C2 : Ctx) (pa : Nat),
      chp C2 = some pa ∧
      plug C2 .nil = t ∧
      ctxSearchOK word C2 ∧
      ∃ h1, phase1 h x word = some (.go h1 x (some h.length) (some pa)) ∧
        Rep h1 x none (plug C2 (.node .nil h.length word 'r' .nil)) ∧
        (ATree.addrs (plug C2 (.node .nil h.length word 'r' .nil))).Nodup) := by
  have hxe : x = ATree.rootAddr t := (Rep_rootAddr hrep).symm
  obtain ⟨a0, hx0⟩ : ∃ a0, x = some a0 := by
    cases t with
    | nil => exact absurd rfl hne
    | node l a w c r => exact ⟨a, hxe⟩
  have hc0 : RepC h Ctx.root x (chp Ctx.root) (ATree.rootAddr t) := by
    rw [← hxe]
    exact RepC.root x
  have hrep0 : Rep h (ATree.rootAddr t) (chp Ctx.root) t := by
    rw [← hxe]
    exact hrep
  have hfuel : ATree.sizeA t < h.length + 1 := by
    rw [sizeA_eq_length_addrs]
    exact Nat.lt_succ_of_le (addrs_length_le hrep hnd)
  have hres := descend_go (w := word) t Ctx.root 0 (h.length + 1) hc0 hrep0 rfl trivial hfuel
  have hphase : phase1 h x word =
      (match descend h word x none 0 (h.length + 1) with
      | none => none
      | some .found => some (.dup h x)
      | some (.fell parent cmp) =>
        if cmp < 0 then
          some (.go (setLeftChild (makeNode h word parent).1 parent (makeNode h word parent).2)
            x (getLeftChild (setLeftChild (makeNode h word parent).1 parent
              (makeNode h word parent).2) parent) parent)
        else
          some (.go (setRightChild (makeNode h word parent).1 parent (makeNode h word parent).2)
            x (getRightChild (setRightChild (makeNode h word parent).1 parent
              (makeNode h word parent).2) parent) parent)) := by
    rw [hx0]
    simp only [phase1]
    rw [if_neg (by simp)]
  rcases hres with ⟨hd, hmem⟩ | ⟨C2, cmp2, hd, hplug, hc2, hcmp2, hs2⟩
  · left
    have hd' : descend h word x none 0 (h.length + 1) = some .found := by
      rw [hxe]
      exact hd
    refine ⟨?_, hmem⟩
    rw [hphase, hd']
  · right
    have hC2ne : C2 ≠ Ctx.root := by
      intro he
      subst he
      exact hne hplug.symm
    have hd' : descend h word x none 0 (h.length + 1) =
        some (.fell (chp C2) cmp2) := by
      rw [hxe]
      exact hd
    have hndC : (ctxAddrs C2).Nodup := by
      have hnd2 : (ATree.addrs (plug C2 ATree.nil)).Nodup := by rw [hplug]; exact hnd
      exact (plug_nodup_parts hnd2).2.2
    have hctxlt : ∀ q ∈ ctxAddrs C2, q < h.length := RepC_addr_lt hc2
    have hLfresh : h.length ∉ ctxAddrs C2 := fun hmem2 => absurd (hctxlt _ hmem2) (by omega)
    have hnodup' : (ATree.addrs (plug C2 (.node .nil h.length word 'r' .nil))).Nodup := by
      refine plug_nodup_build (by simp [ATree.addrs]) ?_ hndC
      intro b hb
      have hbL : b = h.length := by simpa [ATree.addrs] using hb
      rw [hbL]
      exact hLfresh
    cases C2 with
    | root => exact absurd rfl hC2ne
    | left up pa w' c' r =>
      obtain ⟨hcmpv, hcmpneg⟩ := hcmp2
      cases hc2 with
      | @left _ _ ndpa _ pa' _ _ ha' hup' hpar' hslot' hr' =>
        have hpalt : pa < h.length := get?_some_lt ha'
        have hpaL : pa ≠ h.length := by omega
        have haApp : (h ++ [newNode word (some pa)]).get? pa = some ndpa := by
          rw [get?_append_lt _ _ _ hpalt]
          exact ha'
        have hstep : phase1 h x word =
            (if cmp2 < 0 then
              some (.go (setLeftChild (h ++ [newNode word (some pa)]) (some pa) (some h.length))
                x (getLeftChild (setLeftChild (h ++ [newNode word (some pa)]) (some pa)
                  (some h.length)) (some pa)) (some pa))
            else
              some (.go (setRightChild (h ++ [newNode word (some pa)]) (some pa) (some h.length))
                x (getRightChild (setRightChild (h ++ [newNode word (some pa)]) (some pa)
                  (some h.length)) (some pa)) (some pa))) := by
          rw [hphase, hd']
          rfl
        obtain ⟨hctx_ar, hctx_aup, hctx_rnd, hctx_upnd, hctx_disj⟩ := nodup_ctx_left hndC
        have hup1 : RepC (setLeftChild (h ++ [newNode word (some pa)]) (some pa) (some h.length)) up x pa' (some pa) := by
          refine RepC_setLeftChild_out (fun q hq he => ?_) (RepC_append hup' _)
          injection he with he
          exact hctx_aup (he ▸ hq)
        have hr1 : Rep (setLeftChild (h ++ [newNode word (some pa)]) (some pa) (some h.length)) ndpa.right (some pa) r := by
          refine Rep_setLeftChild_out (fun q hq he => ?_) (Rep_append hr' _)
          injection he with he
          exact hctx_ar (he ▸ hq)
        have hRC1 : RepC (setLeftChild (h ++ [newNode word (some pa)]) (some pa) (some h.length))
            (.left up pa ndpa.word ndpa.color r) x (some pa) (some h.length) :=
          @RepC.left _ up pa { ndpa with left := some h.length } x pa' (some h.length) r
            (setLeftChild_get?_self haApp) hup1 hpar' rfl hr1
        have hL1 : (setLeftChild (h ++ [newNode word (some pa)]) (some pa) (some h.length)).get? h.length =
            some (newNode word (some pa)) := by
          rw [setLeftChild_get?_other (fun he => hpaL (Option.some.inj he))]
          exact get?_append_self _ _
        have hrepL : Rep (setLeftChild (h ++ [newNode word (some pa)]) (some pa) (some h.length)) (some h.length) (some pa)
            (.node .nil h.length word 'r' .nil) :=
          @Rep.node _ h.length (newNode word (some pa)) (some pa) .nil .nil hL1 rfl (Rep.nil _) (Rep.nil _)
        refine ⟨.left up pa ndpa.word ndpa.color r, pa, rfl, hplug, hs2,
          setLeftChild (h ++ [newNode word (some pa)]) (some pa) (some h.length),
          ?_, ?_, hnodup'⟩
        · rw [hstep, if_pos hcmpneg]
          rw [getLeftChild_at (setLeftChild_get?_self haApp)]
        · exact plug_rep_compose (s := .node .nil h.length word 'r' .nil) hRC1 hrepL
    | right l pa w' c' up =>
      obtain ⟨hcmpv, hcmppos⟩ := hcmp2
      have hcmpnneg : ¬ cmp2 < 0 := by omega
      cases hc2 with
      | @right _ _ ndpa _ pa' _ _ ha' hup' hpar' hslot' hl' =>
        have hpalt : pa < h.length := get?_some_lt ha'
        have hpaL : pa ≠ h.length := by omega
        have haApp : (h ++ [newNode word (some pa)]).get? pa = some ndpa := by
          rw [get?_append_lt _ _ _ hpalt]
          exact ha'
        have hstep : phase1 h x word =
            (if cmp2 < 0 then
              some (.go (setLeftChild (h ++ [newNode word (some pa)]) (some pa) (some h.length))
                x (getLeftChild (setLeftChild (h ++ [newNode word (some pa)]) (some pa)
                  (some h.length)) (some pa)) (some pa))
            else
              some (.go (setRightChild (h ++ [newNode word (some pa)]) (some pa) (some h.length))
                x (getRightChild (setRightChild (h ++ [newNode word (some pa)]) (some pa)
                  (some h.length)) (some pa)) (some pa))) := by
          rw [hphase, hd']
          rfl
        obtain ⟨hctx_al, hctx_aup, hctx_lnd, hctx_upnd, hctx_disj⟩ := nodup_ctx_right hndC
        have hup1 : RepC (setRightChild (h ++ [newNode word (some pa)]) (some pa) (some h.length)) up x pa' (some pa) := by
          refine RepC_setRightChild_out (fun q hq he => ?_) (RepC_append hup' _)
          injection he with he
          exact hctx_aup (he ▸ hq)
        have hl1 : Rep (setRightChild (h ++ [newNode word (some pa)]) (some pa) (some h.length)) ndpa.left (some pa) l := by
          refine Rep_setRightChild_out (fun q hq he => ?_) (Rep_append hl' _)
          injection he with he
          exact hctx_al (he ▸ hq)
        have hRC1 : RepC (setRightChild (h ++ [newNode word (some pa)]) (some pa) (some h.length))
            (.right l pa ndpa.word ndpa.color up) x (some pa) (some h.length) :=
          @RepC.right _ up pa { ndpa with right := some h.length } x pa' (some h.length) l
            (setRightChild_get?_self haApp) hup1 hpar' rfl hl1
        have hL1 : (setRightChild (h ++ [newNode word (some pa)]) (some pa) (some h.length)).get? h.length =
            some (newNode word (some pa)) := by
          rw [setRightChild_get?_other (fun he => hpaL (Option.some.inj he))]
          exact get?_append_self _ _
        have hrepL : Rep (setRightChild (h ++ [newNode word (some pa)]) (some pa) (some h.length)) (some h.length) (some pa)
            (.node .nil h.length word 'r' .nil) :=
          @Rep.node _ h.length (newNode word (some pa)) (some pa) .nil .nil hL1 rfl (Rep.nil _) (Rep.nil _)
        refine ⟨.right l pa ndpa.word ndpa.color up, pa, rfl, hplug, hs2,
          setRightChild (h ++ [newNode word (some pa)]) (some pa) (some h.length),
          ?_, ?_, hnodup'⟩
        · rw [hstep, if_neg hcmpnneg]
          rw [getRightChild_at (setRightChild_get?_self haApp)]
        · exact plug_rep_compose (s := .node .nil h.length word 'r' .nil) hRC1 hrepL

/-! ## Fixup loop helpers -/

theorem fixupLoop_exit {h : Heap} {x ptr parent : Option Nat} {fuel : Nat}
    (hg : ptr = x ∨ getColor h parent ≠ 'r') :
    fixupLoop h x ptr parent fuel = some (h, x) := by
  cases fuel with
  | zero => simp only [fixupLoop]; rw [if_pos hg]
  | succ fuel => simp only [fixupLoop]; rw [if_pos hg]

theorem fixupLoop_step {h : Heap} {x ptr parent : Option Nat} {fuel : Nat}
    (hg : ¬(ptr = x ∨ getColor h parent ≠ 'r')) :
    fixupLoop h x ptr parent (fuel + 1) =
      fixupLoop (fixupStep h x ptr parent).1 (fixupStep h x ptr parent).2.1
        (fixupStep h x ptr parent).2.2 parent fuel := by
  simp only [fixupLoop]
  rw [if_neg hg]

/-- Read the color of a node out of a representation. -/
theorem rep_color_at {h : Heap} {x : Option Nat} {C : Ctx} {l r : ATree} {a : Nat}
    {w : Word} {c : Char} (hrep : Rep h x none (plug C (.node l a w c r))) :
    getColor h (some a) = c := by
  obtain ⟨_, hsub⟩ := plug_rep_split hrep
  obtain ⟨_, nd, hnd, _, hc, _, _, _, _, _⟩ := Rep_node_elim hsub
  rw [getColor_at hnd, hc]

theorem plug_node_ne_nil {C : Ctx} {l r : ATree} {a : Nat} {w : Word} {c : Char} :
    plug C (.node l a w c r) ≠ .nil := by
  induction C generalizing l a w c r with
  | root => exact fun he => ATree.noConfusion he
  | left up b w0 c0 r0 ih => exact ih
  | right l0 b w0 c0 up ih => exact ih

/-- Case A of the fixup (parent is the left child of the grandparent and the
uncle is RED): parent and uncle are recolored BLACK, the grandparent RED,
`ptr` moves to the grandparent — and then the loop exits at once because the
stale local `parent` has just been blackened. -/
theorem fixup_caseA_left {h1 : Heap} {x : Option Nat} {up2 : Ctx} {S1 S2 rl rr : ATree}
    {pa pg ur L : Nat} {w' wg uw : Word} {cg : Char} {ndL : Node}
    (hrep : Rep h1 x none
      (plug up2 (.node (.node S1 pa w' 'r' S2) pg wg cg (.node rl ur uw 'r' rr))))
    (hnd : (ATree.addrs
      (plug up2 (.node (.node S1 pa w' 'r' S2) pg wg cg (.node rl ur uw 'r' rr)))).Nodup)
    (hL : h1.get? L = some ndL) (hLpar : ndL.parent = some pa)
    (hLx : some L ≠ x) (fuel : Nat) :
    ∃ h2 t2, fixupLoop h1 x (some L) (some pa) (fuel + 1) = some (h2, ATree.rootAddr t2) ∧
      Rep h2 (ATree.rootAddr t2) none t2 ∧ (ATree.addrs t2).Nodup ∧ t2 ≠ .nil ∧
      ATree.words t2 = ATree.words
        (plug up2 (.node (.node S1 pa w' 'r' S2) pg wg cg (.node rl ur uw 'r' rr))) := by
  obtain ⟨hcU, hsub⟩ := plug_rep_split hrep
  obtain ⟨hsubnd, hsubctx, hctxnd⟩ := plug_nodup_parts hnd
  obtain ⟨_, ndpg, hApg, hwpg, hcpg, hppg, hlpg, hrpg, hRleft, hRright⟩ := Rep_node_elim hsub
  obtain ⟨hple, ndpa, hApa, hwpa, hcpa, hppa, hlpa, hrpa, hRS1, hRS2⟩ := Rep_node_elim hRleft
  obtain ⟨hpre, ndur, hAur, hwur, hcur, hpur, hlur, hrur, hRrl, hRrr⟩ := Rep_node_elim hRright
  -- distinctness
  have ppg := nodup_node_parts hsubnd
  have ppa := nodup_node_parts ppg.2.2.1
  have pur := nodup_node_parts ppg.2.2.2.1
  have hmem_pa : pa ∈ ATree.addrs (.node S1 pa w' 'r' S2) := by simp [ATree.addrs]
  have hmem_ur : ur ∈ ATree.addrs (.node rl ur uw 'r' rr) := by simp [ATree.addrs]
  have hne_papg : pa ≠ pg := fun he => ppg.1 (he ▸ hmem_pa)
  have hne_pgpa : pg ≠ pa := fun he => hne_papg he.symm
  have hne_paur : pa ≠ ur := fun he => ppg.2.2.2.2 pa hmem_pa (he ▸ hmem_ur)
  have hne_urpa : ur ≠ pa := fun he => hne_paur he.symm
  have hne_pgur : pg ≠ ur := fun he => ppg.2.1 (he ▸ hmem_ur)
  have hne_urpg : ur ≠ pg := fun he => hne_pgur he.symm
  have hpa_ctx : pa ∉ ctxAddrs up2 := hsubctx pa (by simp [ATree.addrs])
  have hpg_ctx : pg ∉ ctxAddrs up2 := hsubctx pg (by simp [ATree.addrs])
  have hur_ctx : ur ∉ ctxAddrs up2 := hsubctx ur (by simp [ATree.addrs])
  have hpaS1 : pa ∉ ATree.addrs S1 := ppa.1
  have hpaS2 : pa ∉ ATree.addrs S2 := ppa.2.1
  have hurrl : ur ∉ ATree.addrs rl := pur.1
  have hurrr : ur ∉ ATree.addrs rr := pur.2.1
  have hpaRsub : pa ∉ ATree.addrs (.node rl ur uw 'r' rr) := ppg.2.2.2.2 pa hmem_pa
  have hparl : pa ∉ ATree.addrs rl := fun hq => hpaRsub (by simp [ATree.addrs, hq])
  have hparr : pa ∉ ATree.addrs rr := fun hq => hpaRsub (by simp [ATree.addrs, hq])
  have hurLsub : ur ∉ ATree.addrs (.node S1 pa w' 'r' S2) :=
    fun hq => ppg.2.2.2.2 ur hq hmem_ur
  have hurS1 : ur ∉ ATree.addrs S1 := fun hq => hurLsub (by simp [ATree.addrs, hq])
  have hurS2 : ur ∉ ATree.addrs S2 := fun hq => hurLsub (by simp [ATree.addrs, hq])
  have hpgS1 : pg ∉ ATree.addrs S1 := fun hq => ppg.1 (by simp [ATree.addrs, hq])
  have hpgS2 : pg ∉ ATree.addrs S2 := fun hq => ppg.1 (by simp [ATree.addrs, hq])
  have hpgrl : pg ∉ ATree.addrs rl := fun hq => ppg.2.1 (by simp [ATree.addrs, hq])
  have hpgrr : pg ∉ ATree.addrs rr := fun hq => ppg.2.1 (by simp [ATree.addrs, hq])
  -- getters
  have e_pL : getParent h1 (some L) = some pa := by rw [getParent_at hL, hLpar]
  have e_gp : getGrandparent h1 (some L) = some pg := by
    simp only [getGrandparent, deref, hL]
    rw [hLpar, getParent_at hApa, hppa]
  have e_lpg : getLeftChild h1 (some pg) = some pa := by
    rw [getLeftChild_at hApg]
    exact hlpg
  have e_rpg : getRightChild h1 (some pg) = some ur := by
    rw [getRightChild_at hApg]
    exact hrpg
  have e_un : getUncle h1 (some L) = some ur := by
    simp only [getUncle, e_gp]
    rw [e_pL, e_lpg, if_pos rfl, e_rpg]
  have e_cpa : getColor h1 (some pa) = 'r' := by rw [getColor_at hApa, hcpa]
  have e_cur : getColor h1 (some ur) = 'r' := by rw [getColor_at hAur, hcur]
  have hg : ¬(some L = x ∨ getColor h1 (some pa) ≠ 'r') := by
    rintro (he | he)
    · exact hLx he
    · exact he e_cpa
  have hfix : fixupStep h1 x (some L) (some pa) =
      (setColor (setColor (setColor h1 (some pa) 'b') (some ur) 'b') (some pg) 'r',
        x, some pg) := by
    simp only [fixupStep, e_un, e_gp, e_rpg, e_cur, eq_self_iff_true, if_true]
  -- representation after the three recolorings
  have hrec3 : Rep (setColor (setColor (setColor h1 (some pa) 'b') (some ur) 'b')
      (some pg) 'r') x none
      (ATree.recolorA pg 'r' (ATree.recolorA ur 'b' (ATree.recolorA pa 'b'
        (plug up2 (.node (.node S1 pa w' 'r' S2) pg wg cg (.node rl ur uw 'r' rr)))))) :=
    Rep_setColor (Or.inl rfl) (Rep_setColor (Or.inr rfl) (Rep_setColor (Or.inr rfl) hrep))
  have hnorm : ATree.recolorA pg 'r' (ATree.recolorA ur 'b' (ATree.recolorA pa 'b'
      (plug up2 (.node (.node S1 pa w' 'r' S2) pg wg cg (.node rl ur uw 'r' rr))))) =
      plug up2 (.node (.node S1 pa w' 'b' S2) pg wg 'r' (.node rl ur uw 'b' rr)) := by
    rw [recolorA_plug _ hpa_ctx, recolorA_plug _ hur_ctx, recolorA_plug _ hpg_ctx]
    congr 1
    simp [ATree.recolorA, recolorA_notmem hpaS1, recolorA_notmem hpaS2,
      recolorA_notmem hparl, recolorA_notmem hparr, recolorA_notmem hurS1,
      recolorA_notmem hurS2, recolorA_notmem hurrl, recolorA_notmem hurrr,
      recolorA_notmem hpgS1, recolorA_notmem hpgS2, recolorA_notmem hpgrl,
      recolorA_notmem hpgrr, hne_pgpa, hne_urpa, hne_paur, hne_pgur, hne_urpg, hne_papg]
  rw [hnorm] at hrec3
  have e_cpa' : getColor (setColor (setColor (setColor h1 (some pa) 'b') (some ur) 'b')
      (some pg) 'r') (some pa) = 'b' := by
    have := rep_color_at (C := .left up2 pg wg 'r' (.node rl ur uw 'b' rr)) hrec3
    exact this
  refine ⟨setColor (setColor (setColor h1 (some pa) 'b') (some ur) 'b') (some pg) 'r',
    plug up2 (.node (.node S1 pa w' 'b' S2) pg wg 'r' (.node rl ur uw 'b' rr)),
    ?_, ?_, ?_, plug_node_ne_nil, ?_⟩
  · rw [fixupLoop_step hg, hfix]
    rw [show ATree.rootAddr (plug up2 (.node (.node S1 pa w' 'b' S2) pg wg 'r'
      (.node rl ur uw 'b' rr))) = x from Rep_rootAddr hrec3]
    exact fixupLoop_exit (Or.inr (by rw [e_cpa']; decide))
  · rw [show ATree.rootAddr (plug up2 (.node (.node S1 pa w' 'b' S2) pg wg 'r'
      (.node rl ur uw 'b' rr))) = x from Rep_rootAddr hrec3]
    exact hrec3
  · have haddr : ATree.addrs (plug up2 (.node (.node S1 pa w' 'b' S2) pg wg 'r'
        (.node rl ur uw 'b' rr))) = ATree.addrs
        (plug up2 (.node (.node S1 pa w' 'r' S2) pg wg cg (.node rl ur uw 'r' rr))) := by
      rw [plug_addrs, plug_addrs]
      simp [ATree.addrs]
    rw [haddr]
    exact hnd
  · rw [plug_words, plug_words]
    simp [ATree.words]

/-- Case A of the fixup, mirror image: parent is the right child of the
grandparent and the uncle (the left child) is RED. -/
theorem fixup_caseA_right {h1 : Heap} {x : Option Nat} {up2 : Ctx} {S1 S2 ll lr : ATree}
    {pa pg ul L : Nat} {w' wg uw : Word} {cg : Char} {ndL : Node}
    (hrep : Rep h1 x none
      (plug up2 (.node (.node ll ul uw 'r' lr) pg wg cg (.node S1 pa w' 'r' S2))))
    (hnd : (ATree.addrs
      (plug up2 (.node (.node ll ul uw 'r' lr) pg wg cg (.node S1 pa w' 'r' S2)))).Nodup)
    (hL : h1.get? L = some ndL) (hLpar : ndL.parent = some pa)
    (hLx : some L ≠ x) (fuel : Nat) :
    ∃ h2 t2, fixupLoop h1 x (some L) (some pa) (fuel + 1) = some (h2, ATree.rootAddr t2) ∧
      Rep h2 (ATree.rootAddr t2) none t2 ∧ (ATree.addrs t2).Nodup ∧ t2 ≠ .nil ∧
      ATree.words t2 = ATree.words
        (plug up2 (.node (.node ll ul uw 'r' lr) pg wg cg (.node S1 pa w' 'r' S2))) := by
  obtain ⟨hcU, hsub⟩ := plug_rep_split hrep
  obtain ⟨hsubnd, hsubctx, hctxnd⟩ := plug_nodup_parts hnd
  obtain ⟨_, ndpg, hApg, hwpg, hcpg, hppg, hlpg, hrpg, hRleft, hRright⟩ := Rep_node_elim hsub
  obtain ⟨hple, ndul, hAul, hwul, hcul, hpul, hlul, hrul, hRll, hRlr⟩ := Rep_node_elim hRleft
  obtain ⟨hpre, ndpa, hApa, hwpa, hcpa, hppa, hlpa, hrpa, hRS1, hRS2⟩ := Rep_node_elim hRright
  -- distinctness
  have ppg := nodup_node_parts hsubnd
  have pul := nodup_node_parts ppg.2.2.1
  have ppa := nodup_node_parts ppg.2.2.2.1
  have hmem_pa : pa ∈ ATree.addrs (.node S1 pa w' 'r' S2) := by simp [ATree.addrs]
  have hmem_ul : ul ∈ ATree.addrs (.node ll ul uw 'r' lr) := by simp [ATree.addrs]
  have hne_papg : pa ≠ pg := fun he => ppg.2.1 (he ▸ hmem_pa)
  have hne_pgpa : pg ≠ pa := fun he => hne_papg he.symm
  have hne_paul : pa ≠ ul := fun he => ppg.2.2.2.2 ul hmem_ul (he ▸ hmem_pa)
  have hne_ulpa : ul ≠ pa := fun he => hne_paul he.symm
  have hne_pgul : pg ≠ ul := fun he => ppg.1 (he ▸ hmem_ul)
  have hne_ulpg : ul ≠ pg := fun he => hne_pgul he.symm
  have hpa_ctx : pa ∉ ctxAddrs up2 := hsubctx pa (by simp [ATree.addrs])
  have hpg_ctx : pg ∉ ctxAddrs up2 := hsubctx pg (by simp [ATree.addrs])
  have hul_ctx : ul ∉ ctxAddrs up2 := hsubctx ul (by simp [ATree.addrs])
  have hpaS1 : pa ∉ ATree.addrs S1 := ppa.1
  have hpaS2 : pa ∉ ATree.addrs S2 := ppa.2.1
  have hulll : ul ∉ ATree.addrs ll := pul.1
  have hullr : ul ∉ ATree.addrs lr := pul.2.1
  have hpaLsub : pa ∉ ATree.addrs (.node ll ul uw 'r' lr) :=
    fun hq => ppg.2.2.2.2 pa hq hmem_pa
  have hpall : pa ∉ ATree.addrs ll := fun hq => hpaLsub (by simp [ATree.addrs, hq])
  have hpalr : pa ∉ ATree.addrs lr := fun hq => hpaLsub (by simp [ATree.addrs, hq])
  have hulRsub : ul ∉ ATree.addrs (.node S1 pa w' 'r' S2) := ppg.2.2.2.2 ul hmem_ul
  have hulS1 : ul ∉ ATree.addrs S1 := fun hq => hulRsub (by simp [ATree.addrs, hq])
  have hulS2 : ul ∉ ATree.addrs S2 := fun hq => hulRsub (by simp [ATree.addrs, hq])
  have hpgS1 : pg ∉ ATree.addrs S1 := fun hq => ppg.2.1 (by simp [ATree.addrs, hq])
  have hpgS2 : pg ∉ ATree.addrs S2 := fun hq => ppg.2.1 (by simp [ATree.addrs, hq])
  have hpgll : pg ∉ ATree.addrs ll := fun hq => ppg.1 (by simp [ATree.addrs, hq])
  have hpglr : pg ∉ ATree.addrs lr := fun hq => ppg.1 (by simp [ATree.addrs, hq])
  -- getters
  have e_pL : getParent h1 (some L) = some pa := by rw [getParent_at hL, hLpar]
  have e_gp : getGrandparent h1 (some L) = some pg := by
    simp only [getGrandparent, deref, hL]
    rw [hLpar, getParent_at hApa, hppa]
  have e_lpg : getLeftChild h1 (some pg) = some ul := by
    rw [getLeftChild_at hApg]
    exact hlpg
  have e_rpg : getRightChild h1 (some pg) = some pa := by
    rw [getRightChild_at hApg]
    exact hrpg
  have e_un : getUncle h1 (some L) = some ul := by
    simp only [getUncle, e_gp]
    rw [e_pL, e_lpg, if_neg (fun he => hne_paul (Option.some.inj he))]
  have e_cpa : getColor h1 (some pa) = 'r' := by rw [getColor_at hApa, hcpa]
  have e_cul : getColor h1 (some ul) = 'r' := by rw [getColor_at hAul, hcul]
  have hg : ¬(some L = x ∨ getColor h1 (some pa) ≠ 'r') := by
    rintro (he | he)
    · exact hLx he
    · exact he e_cpa
  have hfix : fixupStep h1 x (some L) (some pa) =
      (setColor (setColor (setColor h1 (some pa) 'b') (some ul) 'b') (some pg) 'r',
        x, some pg) := by
    simp only [fixupStep, e_un, e_gp, e_rpg, e_cul, eq_self_iff_true, if_true]
    rw [if_neg (fun he => hne_ulpa (Option.some.inj he))]
  have hrec3 : Rep (setColor (setColor (setColor h1 (some pa) 'b') (some ul) 'b')
      (some pg) 'r') x none
      (ATree.recolorA pg 'r' (ATree.recolorA ul 'b' (ATree.recolorA pa 'b'
        (plug up2 (.node (.node ll ul uw 'r' lr) pg wg cg (.node S1 pa w' 'r' S2)))))) :=
    Rep_setColor (Or.inl rfl) (Rep_setColor (Or.inr rfl) (Rep_setColor (Or.inr rfl) hrep))
  have hnorm : ATree.recolorA pg 'r' (ATree.recolorA ul 'b' (ATree.recolorA pa 'b'
      (plug up2 (.node (.node ll ul uw 'r' lr) pg wg cg (.node S1 pa w' 'r' S2))))) =
      plug up2 (.node (.node ll ul uw 'b' lr) pg wg 'r' (.node S1 pa w' 'b' S2)) := by
    rw [recolorA_plug _ hpa_ctx, recolorA_plug _ hul_ctx, recolorA_plug _ hpg_ctx]
    congr 1
    simp [ATree.recolorA, recolorA_notmem hpaS1, recolorA_notmem hpaS2,
      recolorA_notmem hpall, recolorA_notmem hpalr, recolorA_notmem hulS1,
      recolorA_notmem hulS2, recolorA_notmem hulll, recolorA_notmem hullr,
      recolorA_notmem hpgS1, recolorA_notmem hpgS2, recolorA_notmem hpgll,
      recolorA_notmem hpglr, hne_pgpa, hne_ulpa, hne_paul, hne_pgul, hne_ulpg, hne_papg]
  rw [hnorm] at hrec3
  have e_cpa' : getColor (setColor (setColor (setColor h1 (some pa) 'b') (some ul) 'b')
      (some pg) 'r') (some pa) = 'b' := by
    have := rep_color_at (C := .right (.node ll ul uw 'b' lr) pg wg 'r' up2) hrec3
    exact this
  refine ⟨setColor (setColor (setColor h1 (some pa) 'b') (some ul) 'b') (some pg) 'r',
    plug up2 (.node (.node ll ul uw 'b' lr) pg wg 'r' (.node S1 pa w' 'b' S2)),
    ?_, ?_, ?_, plug_node_ne_nil, ?_⟩
  · rw [fixupLoop_step hg, hfix]
    rw [show ATree.rootAddr (plug up2 (.node (.node ll ul uw 'b' lr) pg wg 'r'
      (.node S1 pa w' 'b' S2))) = x from Rep_rootAddr hrec3]
    exact fixupLoop_exit (Or.inr (by rw [e_cpa']; decide))
  · rw [show ATree.rootAddr (plug up2 (.node (.node ll ul uw 'b' lr) pg wg 'r'
      (.node S1 pa w' 'b' S2))) = x from Rep_rootAddr hrec3]
    exact hrec3
  · have haddr : ATree.addrs (plug up2 (.node (.node ll ul uw 'b' lr) pg wg 'r'
        (.node S1 pa w' 'b' S2))) = ATree.addrs
        (plug up2 (.node (.node ll ul uw 'r' lr) pg wg cg (.node S1 pa w' 'r' S2))) := by
      rw [plug_addrs, plug_addrs]
      simp [ATree.addrs]
    rw [haddr]
    exact hnd
  · rw [plug_words, plug_words]
    simp [ATree.words]

/-- The color the heap reports for the root address of a represented tree is
the abstract root color (`'\x00'` for the empty tree, as `getColor(NULL)`). -/
theorem rep_rootColor {h : Heap} {y p : Option Nat} {t : ATree} (hr : Rep h y p t) :
    getColor h y = ATree.rootColor t := by
  cases hr with
  | nil => rfl
  | node ha hp hl hr => rw [getColor_at ha]; rfl

/-- Zig-zig rotation case of the fixup, left side: the freshly inserted node
is the left child of a red parent that is itself the left child of the
grandparent, and the uncle is not red.  The code recolors parent and
grandparent and right-rotates at the grandparent; afterwards the loop stops
because the stale `parent` variable now holds a black node. -/
theorem fixup_zigzig_left {h1 : Heap} {x : Option Nat} {up2 : Ctx} {S2 U : ATree}
    {pa pg L : Nat} {nw w' wg : Word} {cg : Char}
    (hrep : Rep h1 x none
      (plug up2 (.node (.node (.node .nil L nw 'r' .nil) pa w' 'r' S2) pg wg cg U)))
    (hnd : (ATree.addrs
      (plug up2 (.node (.node (.node .nil L nw 'r' .nil) pa w' 'r' S2) pg wg cg U))).Nodup)
    (hUc : ATree.rootColor U ≠ 'r')
    (hLx : some L ≠ x) (fuel : Nat) :
    ∃ h2 t2, fixupLoop h1 x (some L) (some pa) (fuel + 1) = some (h2, ATree.rootAddr t2) ∧
      Rep h2 (ATree.rootAddr t2) none t2 ∧ (ATree.addrs t2).Nodup ∧ t2 ≠ .nil ∧
      ATree.words t2 = ATree.words
        (plug up2 (.node (.node (.node .nil L nw 'r' .nil) pa w' 'r' S2) pg wg cg U)) := by
  obtain ⟨hcU0, hsub⟩ := plug_rep_split hrep
  obtain ⟨hsubnd, hsubctx, hctxnd⟩ := plug_nodup_parts hnd
  obtain ⟨_, ndpg, hApg, hwpg, hcpg, hppg, hlpg, hrpg, hRleft, hRright⟩ := Rep_node_elim hsub
  obtain ⟨hple, ndpa, hApa, hwpa, hcpa, hppa, hlpa, hrpa, hRNEW, hRS2⟩ := Rep_node_elim hRleft
  obtain ⟨hpln, ndL, hAL, hwL, hcL, hpL, hlL, hrL, hRn1, hRn2⟩ := Rep_node_elim hRNEW
  have hRU : Rep h1 (ATree.rootAddr U) (some pg) U := hrpg ▸ hRright
  -- distinctness
  have ppg := nodup_node_parts hsubnd
  have ppa := nodup_node_parts ppg.2.2.1
  have hmem_pa : pa ∈ ATree.addrs (.node (.node .nil L nw 'r' .nil) pa w' 'r' S2) := by
    simp [ATree.addrs]
  have hmem_L : L ∈ ATree.addrs (.node (.node .nil L nw 'r' .nil) pa w' 'r' S2) := by
    simp [ATree.addrs]
  have hne_papg : pa ≠ pg := fun he => ppg.1 (he ▸ hmem_pa)
  have hne_pgpa : pg ≠ pa := fun he => hne_papg he.symm
  have hpa_ctx : pa ∉ ctxAddrs up2 := hsubctx pa (by simp [ATree.addrs])
  have hpg_ctx : pg ∉ ctxAddrs up2 := hsubctx pg (by simp [ATree.addrs])
  have hpaNEW : pa ∉ ATree.addrs (.node .nil L nw 'r' .nil) := ppa.1
  have hpaS2 : pa ∉ ATree.addrs S2 := ppa.2.1
  have hpaU : pa ∉ ATree.addrs U := ppg.2.2.2.2 pa hmem_pa
  have hpgU : pg ∉ ATree.addrs U := ppg.2.1
  have hpgS2 : pg ∉ ATree.addrs S2 := fun hq => ppg.1 (by simp [ATree.addrs, hq])
  have hpgNEW : pg ∉ ATree.addrs (.node .nil L nw 'r' .nil) := fun hq => by
    simp [ATree.addrs] at hq
    exact ppg.1 (by simp [ATree.addrs, hq])
  have hne_Lpa : L ≠ pa := fun he => hpaNEW (by simp [ATree.addrs, he])
  have hne_Lpg : L ≠ pg := fun he => hpgNEW (by simp [ATree.addrs, he])
  have hLS2 : L ∉ ATree.addrs S2 := ppa.2.2.2.2 L (by simp [ATree.addrs])
  have hneLS2 : ¬(some L = ATree.rootAddr S2) := fun he => hLS2 (rootAddr_mem he.symm)
  -- getters
  have e_pL : getParent h1 (some L) = some pa := by rw [getParent_at hAL, hpL]
  have e_gp : getGrandparent h1 (some L) = some pg := by
    simp only [getGrandparent, deref, hAL]
    rw [hpL, getParent_at hApa, hppa]
  have e_lpg : getLeftChild h1 (some pg) = some pa := by
    rw [getLeftChild_at hApg]
    exact hlpg
  have e_rpg : getRightChild h1 (some pg) = ATree.rootAddr U := by
    rw [getRightChild_at hApg]
    exact hrpg
  have e_un : getUncle h1 (some L) = ATree.rootAddr U := by
    simp only [getUncle, e_gp]
    rw [e_pL, e_lpg, if_pos rfl, e_rpg]
  have e_cpa : getColor h1 (some pa) = 'r' := by rw [getColor_at hApa, hcpa]
  have e_rpa : getRightChild h1 (some pa) = ATree.rootAddr S2 := by
    rw [getRightChild_at hApa]
    exact hrpa
  have hUc' : ¬(getColor h1 (ATree.rootAddr U) = 'r') := by
    rw [rep_rootColor hRU]
    exact hUc
  have hg : ¬(some L = x ∨ getColor h1 (some pa) ≠ 'r') := by
    rintro (he | he)
    · exact hLx he
    · exact he e_cpa
  have hfix : fixupStep h1 x (some L) (some pa) =
      ((rightRotate (setColor (setColor h1 (some pa) 'b') (some pg) 'r') x (some pg)).1,
        (rightRotate (setColor (setColor h1 (some pa) 'b') (some pg) 'r') x (some pg)).2,
        some L) := by
    simp only [fixupStep, e_un, e_gp, e_rpg, e_rpa, eq_self_iff_true, if_true]
    rw [if_neg hUc', if_neg hneLS2]
  -- recolor parent black, grandparent red
  have hrec2 : Rep (setColor (setColor h1 (some pa) 'b') (some pg) 'r') x none
      (ATree.recolorA pg 'r' (ATree.recolorA pa 'b'
        (plug up2 (.node (.node (.node .nil L nw 'r' .nil) pa w' 'r' S2) pg wg cg U)))) :=
    Rep_setColor (Or.inl rfl) (Rep_setColor (Or.inr rfl) hrep)
  have hnorm : ATree.recolorA pg 'r' (ATree.recolorA pa 'b'
      (plug up2 (.node (.node (.node .nil L nw 'r' .nil) pa w' 'r' S2) pg wg cg U))) =
      plug up2 (.node (.node (.node .nil L nw 'r' .nil) pa w' 'b' S2) pg wg 'r' U) := by
    rw [recolorA_plug _ hpa_ctx, recolorA_plug _ hpg_ctx]
    congr 1
    simp [ATree.recolorA, recolorA_notmem hpaS2, recolorA_notmem hpaU,
      recolorA_notmem hpgS2, recolorA_notmem hpgU, hne_Lpa, hne_Lpg, hne_pgpa, hne_papg]
  rw [hnorm] at hrec2
  have hnd1 : (ATree.addrs
      (plug up2 (.node (.node (.node .nil L nw 'r' .nil) pa w' 'b' S2) pg wg 'r' U))).Nodup := by
    have haddr : ATree.addrs
        (plug up2 (.node (.node (.node .nil L nw 'r' .nil) pa w' 'b' S2) pg wg 'r' U)) =
        ATree.addrs
        (plug up2 (.node (.node (.node .nil L nw 'r' .nil) pa w' 'r' S2) pg wg cg U)) := by
      rw [plug_addrs, plug_addrs]
      simp [ATree.addrs]
    rw [haddr]
    exact hnd
  obtain ⟨hroot2, hrep2, hnd2⟩ := rightRotate_rep (C := up2) hrec2 hnd1
  have e_cpa2 : getColor (rightRotate (setColor (setColor h1 (some pa) 'b') (some pg) 'r')
      x (some pg)).1 (some pa) = 'b' := by
    have := rep_color_at (C := up2) hrep2
    exact this
  refine ⟨(rightRotate (setColor (setColor h1 (some pa) 'b') (some pg) 'r') x (some pg)).1,
    plug up2 (.node (.node .nil L nw 'r' .nil) pa w' 'b' (.node S2 pg wg 'r' U)),
    ?_, ?_, hnd2, plug_node_ne_nil, ?_⟩
  · rw [fixupLoop_step hg, hfix]
    rw [show ATree.rootAddr (plug up2 (.node (.node .nil L nw 'r' .nil) pa w' 'b'
      (.node S2 pg wg 'r' U))) = (rightRotate (setColor (setColor h1 (some pa) 'b')
        (some pg) 'r') x (some pg)).2 from Rep_rootAddr hrep2]
    exact fixupLoop_exit (Or.inr (by rw [e_cpa2]; decide))
  · rw [show ATree.rootAddr (plug up2 (.node (.node .nil L nw 'r' .nil) pa w' 'b'
      (.node S2 pg wg 'r' U))) = (rightRotate (setColor (setColor h1 (some pa) 'b')
        (some pg) 'r') x (some pg)).2 from Rep_rootAddr hrep2]
    exact hrep2
  · rw [plug_words, plug_words]
    simp [ATree.words]

/-- Zig-zig rotation case of the fixup, right side: the freshly inserted node
is the right child of a red parent that is itself the right child of the
grandparent, and the uncle is not red.  The code recolors parent and
grandparent and left-rotates at the grandparent; afterwards the loop stops
because the stale `parent` variable now holds a black node. -/
theorem fixup_zigzig_right {h1 : Heap} {x : Option Nat} {up2 : Ctx} {S1 U : ATree}
    {pa pg L : Nat} {nw w' wg : Word} {cg : Char}
    (hrep : Rep h1 x none
      (plug up2 (.node U pg wg cg (.node S1 pa w' 'r' (.node .nil L nw 'r' .nil)))))
    (hnd : (ATree.addrs
      (plug up2 (.node U pg wg cg (.node S1 pa w' 'r' (.node .nil L nw 'r' .nil))))).Nodup)
    (hUc : ATree.rootColor U ≠ 'r')
    (hLx : some L ≠ x) (fuel : Nat) :
    ∃ h2 t2, fixupLoop h1 x (some L) (some pa) (fuel + 1) = some (h2, ATree.rootAddr t2) ∧
      Rep h2 (ATree.rootAddr t2) none t2 ∧ (ATree.addrs t2).Nodup ∧ t2 ≠ .nil ∧
      ATree.words t2 = ATree.words
        (plug up2 (.node U pg wg cg (.node S1 pa w' 'r' (.node .nil L nw 'r' .nil)))) := by
  obtain ⟨hcU0, hsub⟩ := plug_rep_split hrep
  obtain ⟨hsubnd, hsubctx, hctxnd⟩ := plug_nodup_parts hnd
  obtain ⟨_, ndpg, hApg, hwpg, hcpg, hppg, hlpg, hrpg, hRleft, hRright⟩ := Rep_node_elim hsub
  obtain ⟨hpre, ndpa, hApa, hwpa, hcpa, hppa, hlpa, hrpa, hRS1, hRNEW⟩ := Rep_node_elim hRright
  obtain ⟨hprn, ndL, hAL, hwL, hcL, hpL, hlL, hrL, hRn1, hRn2⟩ := Rep_node_elim hRNEW
  have hRU : Rep h1 (ATree.rootAddr U) (some pg) U := hlpg ▸ hRleft
  -- distinctness
  have ppg := nodup_node_parts hsubnd
  have ppa := nodup_node_parts ppg.2.2.2.1
  have hmem_pa : pa ∈ ATree.addrs (.node S1 pa w' 'r' (.node .nil L nw 'r' .nil)) := by
    simp [ATree.addrs]
  have hmem_L : L ∈ ATree.addrs (.node S1 pa w' 'r' (.node .nil L nw 'r' .nil)) := by
    simp [ATree.addrs]
  have hne_papg : pa ≠ pg := fun he => ppg.2.1 (he ▸ hmem_pa)
  have hne_pgpa : pg ≠ pa := fun he => hne_papg he.symm
  have hpa_ctx : pa ∉ ctxAddrs up2 := hsubctx pa (by simp [ATree.addrs])
  have hpg_ctx : pg ∉ ctxAddrs up2 := hsubctx pg (by simp [ATree.addrs])
  have hpaS1 : pa ∉ ATree.addrs S1 := ppa.1
  have hpaNEW : pa ∉ ATree.addrs (.node .nil L nw 'r' .nil) := ppa.2.1
  have hpaU : pa ∉ ATree.addrs U := fun hq => ppg.2.2.2.2 pa hq hmem_pa
  have hpgU : pg ∉ ATree.addrs U := ppg.1
  have hpgS1 : pg ∉ ATree.addrs S1 := fun hq => ppg.2.1 (by simp [ATree.addrs, hq])
  have hpgNEW : pg ∉ ATree.addrs (.node .nil L nw 'r' .nil) := fun hq => by
    simp [ATree.addrs] at hq
    exact ppg.2.1 (by simp [ATree.addrs, hq])
  have hne_Lpa : L ≠ pa := fun he => hpaNEW (by simp [ATree.addrs, he])
  have hne_Lpg : L ≠ pg := fun he => hpgNEW (by simp [ATree.addrs, he])
  have hLS1 : L ∉ ATree.addrs S1 := fun hq => ppa.2.2.2.2 L hq (by simp [ATree.addrs])
  have hneLS1 : ¬(some L = ATree.rootAddr S1) := fun he => hLS1 (rootAddr_mem he.symm)
  have hne_paU : ¬(some pa = ATree.rootAddr U) := fun he => hpaU (rootAddr_mem he.symm)
  have hne_Upa : ¬(ATree.rootAddr U = some pa) := fun he => hpaU (rootAddr_mem he)
  -- getters
  have e_pL : getParent h1 (some L) = some pa := by rw [getParent_at hAL, hpL]
  have e_gp : getGrandparent h1 (some L) = some pg := by
    simp only [getGrandparent, deref, hAL]
    rw [hpL, getParent_at hApa, hppa]
  have e_lpg : getLeftChild h1 (some pg) = ATree.rootAddr U := by
    rw [getLeftChild_at hApg]
    exact hlpg
  have e_rpg : getRightChild h1 (some pg) = some pa := by
    rw [getRightChild_at hApg]
    exact hrpg
  have e_un : getUncle h1 (some L) = ATree.rootAddr U := by
    simp only [getUncle, e_gp]
    rw [e_pL, e_lpg, if_neg hne_paU]
  have e_cpa : getColor h1 (some pa) = 'r' := by rw [getColor_at hApa, hcpa]
  have e_lpa : getLeftChild h1 (some pa) = ATree.rootAddr S1 := by
    rw [getLeftChild_at hApa]
    exact hlpa
  have hUc' : ¬(getColor h1 (ATree.rootAddr U) = 'r') := by
    rw [rep_rootColor hRU]
    exact hUc
  have hg : ¬(some L = x ∨ getColor h1 (some pa) ≠ 'r') := by
    rintro (he | he)
    · exact hLx he
    · exact he e_cpa
  have hfix : fixupStep h1 x (some L) (some pa) =
      ((leftRotate (setColor (setColor h1 (some pa) 'b') (some pg) 'r') x (some pg)).1,
        (leftRotate (setColor (setColor h1 (some pa) 'b') (some pg) 'r') x (some pg)).2,
        some L) := by
    simp only [fixupStep, e_un, e_gp, e_rpg, e_lpa]
    rw [if_neg hne_Upa, if_neg hUc', if_neg hneLS1]
  -- recolor parent black, grandparent red
  have hrec2 : Rep (setColor (setColor h1 (some pa) 'b') (some pg) 'r') x none
      (ATree.recolorA pg 'r' (ATree.recolorA pa 'b'
        (plug up2 (.node U pg wg cg (.node S1 pa w' 'r' (.node .nil L nw 'r' .nil)))))) :=
    Rep_setColor (Or.inl rfl) (Rep_setColor (Or.inr rfl) hrep)
  have hnorm : ATree.recolorA pg 'r' (ATree.recolorA pa 'b'
      (plug up2 (.node U pg wg cg (.node S1 pa w' 'r' (.node .nil L nw 'r' .nil))))) =
      plug up2 (.node U pg wg 'r' (.node S1 pa w' 'b' (.node .nil L nw 'r' .nil))) := by
    rw [recolorA_plug _ hpa_ctx, recolorA_plug _ hpg_ctx]
    congr 1
    simp [ATree.recolorA, recolorA_notmem hpaS1, recolorA_notmem hpaU,
      recolorA_notmem hpgS1, recolorA_notmem hpgU, hne_Lpa, hne_Lpg, hne_pgpa, hne_papg]
  rw [hnorm] at hrec2
  have hnd1 : (ATree.addrs (plug up2
      (.node U pg wg 'r' (.node S1 pa w' 'b' (.node .nil L nw 'r' .nil))))).Nodup := by
    have haddr : ATree.addrs (plug up2
        (.node U pg wg 'r' (.node S1 pa w' 'b' (.node .nil L nw 'r' .nil)))) =
        ATree.addrs (plug up2
        (.node U pg wg cg (.node S1 pa w' 'r' (.node .nil L nw 'r' .nil)))) := by
      rw [plug_addrs, plug_addrs]
      simp [ATree.addrs]
    rw [haddr]
    exact hnd
  obtain ⟨hroot2, hrep2, hnd2⟩ := leftRotate_rep (C := up2) hrec2 hnd1
  have e_cpa2 : getColor (leftRotate (setColor (setColor h1 (some pa) 'b') (some pg) 'r')
      x (some pg)).1 (some pa) = 'b' := by
    have := rep_color_at (C := up2) hrep2
    exact this
  refine ⟨(leftRotate (setColor (setColor h1 (some pa) 'b') (some pg) 'r') x (some pg)).1,
    plug up2 (.node (.node U pg wg 'r' S1) pa w' 'b' (.node .nil L nw 'r' .nil)),
    ?_, ?_, hnd2, plug_node_ne_nil, ?_⟩
  · rw [fixupLoop_step hg, hfix]
    rw [show ATree.rootAddr (plug up2 (.node (.node U pg wg 'r' S1) pa w' 'b'
      (.node .nil L nw 'r' .nil))) = (leftRotate (setColor (setColor h1 (some pa) 'b')
        (some pg) 'r') x (some pg)).2 from Rep_rootAddr hrep2]
    exact fixupLoop_exit (Or.inr (by rw [e_cpa2]; decide))
  · rw [show ATree.rootAddr (plug up2 (.node (.node U pg wg 'r' S1) pa w' 'b'
      (.node .nil L nw 'r' .nil))) = (leftRotate (setColor (setColor h1 (some pa) 'b')
        (some pg) 'r') x (some pg)).2 from Rep_rootAddr hrep2]
    exact hrep2
  · rw [plug_words, plug_words]
    simp [ATree.words]

/-- Zig-zag rotation case of the fixup, left side: the freshly inserted node
is the right child of a red parent that is the left child of the grandparent,
and the uncle is not red.  The code left-rotates at the parent, then — using
the stale `parent` variable — blackens the demoted parent node (not the
promoted node), reddens the grandparent and right-rotates there, and the loop
stops because `parent` is now black. -/
theorem fixup_zigzag_left {h1 : Heap} {x : Option Nat} {up2 : Ctx} {S1 U : ATree}
    {pa pg L : Nat} {nw w' wg : Word} {cg : Char}
    (hrep : Rep h1 x none
      (plug up2 (.node (.node S1 pa w' 'r' (.node .nil L nw 'r' .nil)) pg wg cg U)))
    (hnd : (ATree.addrs
      (plug up2 (.node (.node S1 pa w' 'r' (.node .nil L nw 'r' .nil)) pg wg cg U))).Nodup)
    (hUc : ATree.rootColor U ≠ 'r')
    (hLx : some L ≠ x) (fuel : Nat) :
    ∃ h2 t2, fixupLoop h1 x (some L) (some pa) (fuel + 1) = some (h2, ATree.rootAddr t2) ∧
      Rep h2 (ATree.rootAddr t2) none t2 ∧ (ATree.addrs t2).Nodup ∧ t2 ≠ .nil ∧
      ATree.words t2 = ATree.words
        (plug up2 (.node (.node S1 pa w' 'r' (.node .nil L nw 'r' .nil)) pg wg cg U)) := by
  obtain ⟨hcU0, hsub⟩ := plug_rep_split hrep
  obtain ⟨hsubnd, hsubctx, hctxnd⟩ := plug_nodup_parts hnd
  obtain ⟨_, ndpg, hApg, hwpg, hcpg, hppg, hlpg, hrpg, hRleft, hRright⟩ := Rep_node_elim hsub
  obtain ⟨hple, ndpa, hApa, hwpa, hcpa, hppa, hlpa, hrpa, hRS1, hRNEW⟩ := Rep_node_elim hRleft
  obtain ⟨hprn, ndL, hAL, hwL, hcL, hpL, hlL, hrL, hRn1, hRn2⟩ := Rep_node_elim hRNEW
  have hRU : Rep h1 (ATree.rootAddr U) (some pg) U := hrpg ▸ hRright
  -- distinctness
  have ppg := nodup_node_parts hsubnd
  have ppa := nodup_node_parts ppg.2.2.1
  have hmem_pa : pa ∈ ATree.addrs (.node S1 pa w' 'r' (.node .nil L nw 'r' .nil)) := by
    simp [ATree.addrs]
  have hmem_L : L ∈ ATree.addrs (.node S1 pa w' 'r' (.node .nil L nw 'r' .nil)) := by
    simp [ATree.addrs]
  have hne_papg : pa ≠ pg := fun he => ppg.1 (he ▸ hmem_pa)
  have hne_pgpa : pg ≠ pa := fun he => hne_papg he.symm
  have hpa_ctx : pa ∉ ctxAddrs up2 := hsubctx pa (by simp [ATree.addrs])
  have hpg_ctx : pg ∉ ctxAddrs up2 := hsubctx pg (by simp [ATree.addrs])
  have hpaS1 : pa ∉ ATree.addrs S1 := ppa.1
  have hpaNEW : pa ∉ ATree.addrs (.node .nil L nw 'r' .nil) := ppa.2.1
  have hpaU : pa ∉ ATree.addrs U := ppg.2.2.2.2 pa hmem_pa
  have hpgU : pg ∉ ATree.addrs U := ppg.2.1
  have hpgS1 : pg ∉ ATree.addrs S1 := fun hq => ppg.1 (by simp [ATree.addrs, hq])
  have hpgNEW : pg ∉ ATree.addrs (.node .nil L nw 'r' .nil) := fun hq => by
    simp [ATree.addrs] at hq
    exact ppg.1 (by simp [ATree.addrs, hq])
  have hne_Lpa : L ≠ pa := fun he => hpaNEW (by simp [ATree.addrs, he])
  have hne_Lpg : L ≠ pg := fun he => hpgNEW (by simp [ATree.addrs, he])
  have hx_ne_pa : ¬(x = some pa) := by
    intro he
    by_cases hC : up2 = Ctx.root
    · subst hC
      have hx : ATree.rootAddr (plug Ctx.root
          (.node (.node S1 pa w' 'r' (.node .nil L nw 'r' .nil)) pg wg cg U)) = x :=
        Rep_rootAddr hrep
      rw [he] at hx
      exact hne_pgpa (Option.some.inj hx)
    · obtain ⟨a0, ha0, ha0mem⟩ := rootAddr_plug_mem hC
        (.node (.node S1 pa w' 'r' (.node .nil L nw 'r' .nil)) pg wg cg U)
      have hx : ATree.rootAddr (plug up2
          (.node (.node S1 pa w' 'r' (.node .nil L nw 'r' .nil)) pg wg cg U)) = x :=
        Rep_rootAddr hrep
      rw [ha0, he] at hx
      exact hpa_ctx (Option.some.inj hx ▸ ha0mem)
  -- getters
  have e_pL : getParent h1 (some L) = some pa := by rw [getParent_at hAL, hpL]
  have e_gp : getGrandparent h1 (some L) = some pg := by
    simp only [getGrandparent, deref, hAL]
    rw [hpL, getParent_at hApa, hppa]
  have e_lpg : getLeftChild h1 (some pg) = some pa := by
    rw [getLeftChild_at hApg]
    exact hlpg
  have e_rpg : getRightChild h1 (some pg) = ATree.rootAddr U := by
    rw [getRightChild_at hApg]
    exact hrpg
  have e_un : getUncle h1 (some L) = ATree.rootAddr U := by
    simp only [getUncle, e_gp]
    rw [e_pL, e_lpg, if_pos rfl, e_rpg]
  have e_cpa : getColor h1 (some pa) = 'r' := by rw [getColor_at hApa, hcpa]
  have e_rpa : getRightChild h1 (some pa) = some L := by
    rw [getRightChild_at hApa]
    exact hrpa
  have hUc' : ¬(getColor h1 (ATree.rootAddr U) = 'r') := by
    rw [rep_rootColor hRU]
    exact hUc
  have hg : ¬(some L = x ∨ getColor h1 (some pa) ≠ 'r') := by
    rintro (he | he)
    · exact hLx he
    · exact he e_cpa
  have hfix : fixupStep h1 x (some L) (some pa) =
      ((rightRotate (setColor (setColor (leftRotate h1 x (some pa)).1 (some pa) 'b')
          (some pg) 'r') (leftRotate h1 x (some pa)).2 (some pg)).1,
        (rightRotate (setColor (setColor (leftRotate h1 x (some pa)).1 (some pa) 'b')
          (some pg) 'r') (leftRotate h1 x (some pa)).2 (some pg)).2,
        some pa) := by
    simp only [fixupStep, e_un, e_gp, e_rpg, e_rpa, eq_self_iff_true, if_true]
    rw [if_neg hUc']
  -- first rotation: left-rotate at the parent
  obtain ⟨hrootA, hrepA, hndA⟩ :=
    leftRotate_rep (C := .left up2 pg wg cg U) hrep hnd
  rw [if_neg hx_ne_pa] at hrootA
  rw [hrootA] at hrepA hfix
  have hrepA' : Rep (leftRotate h1 x (some pa)).1 x none
      (plug up2 (.node (.node (.node S1 pa w' 'r' .nil) L nw 'r' .nil) pg wg cg U)) :=
    hrepA
  have hndA' : (ATree.addrs
      (plug up2 (.node (.node (.node S1 pa w' 'r' .nil) L nw 'r' .nil) pg wg cg U))).Nodup :=
    hndA
  -- recolor the stale parent black and the grandparent red
  have hrecB : Rep (setColor (setColor (leftRotate h1 x (some pa)).1 (some pa) 'b')
      (some pg) 'r') x none
      (ATree.recolorA pg 'r' (ATree.recolorA pa 'b'
        (plug up2 (.node (.node (.node S1 pa w' 'r' .nil) L nw 'r' .nil) pg wg cg U)))) :=
    Rep_setColor (Or.inl rfl) (Rep_setColor (Or.inr rfl) hrepA')
  have hnorm : ATree.recolorA pg 'r' (ATree.recolorA pa 'b'
      (plug up2 (.node (.node (.node S1 pa w' 'r' .nil) L nw 'r' .nil) pg wg cg U))) =
      plug up2 (.node (.node (.node S1 pa w' 'b' .nil) L nw 'r' .nil) pg wg 'r' U) := by
    rw [recolorA_plug _ hpa_ctx, recolorA_plug _ hpg_ctx]
    congr 1
    simp [ATree.recolorA, recolorA_notmem hpaS1, recolorA_notmem hpaU,
      recolorA_notmem hpgS1, recolorA_notmem hpgU, hne_Lpa, hne_Lpg, hne_pgpa, hne_papg]
  rw [hnorm] at hrecB
  have hndB : (ATree.addrs
      (plug up2 (.node (.node (.node S1 pa w' 'b' .nil) L nw 'r' .nil) pg wg 'r' U))).Nodup := by
    have haddr : ATree.addrs
        (plug up2 (.node (.node (.node S1 pa w' 'b' .nil) L nw 'r' .nil) pg wg 'r' U)) =
        ATree.addrs
        (plug up2 (.node (.node (.node S1 pa w' 'r' .nil) L nw 'r' .nil) pg wg cg U)) := by
      rw [plug_addrs, plug_addrs]
      simp [ATree.addrs]
    rw [haddr]
    exact hndA'
  -- second rotation: right-rotate at the grandparent
  obtain ⟨hrootC, hrepC, hndC⟩ := rightRotate_rep (C := up2) hrecB hndB
  have e_cpaC : getColor (rightRotate (setColor (setColor (leftRotate h1 x (some pa)).1
      (some pa) 'b') (some pg) 'r') x (some pg)).1 (some pa) = 'b' := by
    have := rep_color_at (C := .left up2 L nw 'r' (.node .nil pg wg 'r' U)) hrepC
    exact this
  refine ⟨(rightRotate (setColor (setColor (leftRotate h1 x (some pa)).1 (some pa) 'b')
      (some pg) 'r') x (some pg)).1,
    plug up2 (.node (.node S1 pa w' 'b' .nil) L nw 'r' (.node .nil pg wg 'r' U)),
    ?_, ?_, hndC, plug_node_ne_nil, ?_⟩
  · rw [fixupLoop_step hg, hfix]
    rw [show ATree.rootAddr (plug up2 (.node (.node S1 pa w' 'b' .nil) L nw 'r'
      (.node .nil pg wg 'r' U))) = (rightRotate (setColor (setColor
        (leftRotate h1 x (some pa)).1 (some pa) 'b') (some pg) 'r') x (some pg)).2 from
      Rep_rootAddr hrepC]
    exact fixupLoop_exit (Or.inr (by rw [e_cpaC]; decide))
  · rw [show ATree.rootAddr (plug up2 (.node (.node S1 pa w' 'b' .nil) L nw 'r'
      (.node .nil pg wg 'r' U))) = (rightRotate (setColor (setColor
        (leftRotate h1 x (some pa)).1 (some pa) 'b') (some pg) 'r') x (some pg)).2 from
      Rep_rootAddr hrepC]
    exact hrepC
  · rw [plug_words, plug_words]
    simp [ATree.words]

/-- Zig-zag rotation case of the fixup, right side: the freshly inserted node
is the left child of a red parent that is the right child of the grandparent,
and the uncle is not red.  The code right-rotates at the parent, then — using
the stale `parent` variable — blackens the demoted parent node, reddens the
grandparent and left-rotates there, and the loop stops because `parent` is
now black. -/
theorem fixup_zigzag_right {h1 : Heap} {x : Option Nat} {up2 : Ctx} {S2 U : ATree}
    {pa pg L : Nat} {nw w' wg : Word} {cg : Char}
    (hrep : Rep h1 x none
      (plug up2 (.node U pg wg cg (.node (.node .nil L nw 'r' .nil) pa w' 'r' S2))))
    (hnd : (ATree.addrs
      (plug up2 (.node U pg wg cg (.node (.node .nil L nw 'r' .nil) pa w' 'r' S2)))).Nodup)
    (hUc : ATree.rootColor U ≠ 'r')
    (hLx : some L ≠ x) (fuel : Nat) :
    ∃ h2 t2, fixupLoop h1 x (some L) (some pa) (fuel + 1) = some (h2, ATree.rootAddr t2) ∧
      Rep h2 (ATree.rootAddr t2) none t2 ∧ (ATree.addrs t2).Nodup ∧ t2 ≠ .nil ∧
      ATree.words t2 = ATree.words
        (plug up2 (.node U pg wg cg (.node (.node .nil L nw 'r' .nil) pa w' 'r' S2))) := by
  obtain ⟨hcU0, hsub⟩ := plug_rep_split hrep
  obtain ⟨hsubnd, hsubctx, hctxnd⟩ := plug_nodup_parts hnd
  obtain ⟨_, ndpg, hApg, hwpg, hcpg, hppg, hlpg, hrpg, hRleft, hRright⟩ := Rep_node_elim hsub
  obtain ⟨hpre, ndpa, hApa, hwpa, hcpa, hppa, hlpa, hrpa, hRNEW, hRS2⟩ := Rep_node_elim hRright
  obtain ⟨hpln, ndL, hAL, hwL, hcL, hpL, hlL, hrL, hRn1, hRn2⟩ := Rep_node_elim hRNEW
  have hRU : Rep h1 (ATree.rootAddr U) (some pg) U := hlpg ▸ hRleft
  -- distinctness
  have ppg := nodup_node_parts hsubnd
  have ppa := nodup_node_parts ppg.2.2.2.1
  have hmem_pa : pa ∈ ATree.addrs (.node (.node .nil L nw 'r' .nil) pa w' 'r' S2) := by
    simp [ATree.addrs]
  have hmem_L : L ∈ ATree.addrs (.node (.node .nil L nw 'r' .nil) pa w' 'r' S2) := by
    simp [ATree.addrs]
  have hne_papg : pa ≠ pg := fun he => ppg.2.1 (he ▸ hmem_pa)
  have hne_pgpa : pg ≠ pa := fun he => hne_papg he.symm
  have hpa_ctx : pa ∉ ctxAddrs up2 := hsubctx pa (by simp [ATree.addrs])
  have hpg_ctx : pg ∉ ctxAddrs up2 := hsubctx pg (by simp [ATree.addrs])
  have hpaNEW : pa ∉ ATree.addrs (.node .nil L nw 'r' .nil) := ppa.1
  have hpaS2 : pa ∉ ATree.addrs S2 := ppa.2.1
  have hpaU : pa ∉ ATree.addrs U := fun hq => ppg.2.2.2.2 pa hq hmem_pa
  have hpgU : pg ∉ ATree.addrs U := ppg.1
  have hpgS2 : pg ∉ ATree.addrs S2 := fun hq => ppg.2.1 (by simp [ATree.addrs, hq])
  have hpgNEW : pg ∉ ATree.addrs (.node .nil L nw 'r' .nil) := fun hq => by
    simp [ATree.addrs] at hq
    exact ppg.2.1 (by simp [ATree.addrs, hq])
  have hne_Lpa : L ≠ pa := fun he => hpaNEW (by simp [ATree.addrs, he])
  have hne_Lpg : L ≠ pg := fun he => hpgNEW (by simp [ATree.addrs, he])
  have hne_Upa : ¬(ATree.rootAddr U = some pa) := fun he => hpaU (rootAddr_mem he)
  have hne_paU : ¬(some pa = ATree.rootAddr U) := fun he => hpaU (rootAddr_mem he.symm)
  have hx_ne_pa : ¬(x = some pa) := by
    intro he
    by_cases hC : up2 = Ctx.root
    · subst hC
      have hx : ATree.rootAddr (plug Ctx.root
          (.node U pg wg cg (.node (.node .nil L nw 'r' .nil) pa w' 'r' S2))) = x :=
        Rep_rootAddr hrep
      rw [he] at hx
      exact hne_pgpa (Option.some.inj hx)
    · obtain ⟨a0, ha0, ha0mem⟩ := rootAddr_plug_mem hC
        (.node U pg wg cg (.node (.node .nil L nw 'r' .nil) pa w' 'r' S2))
      have hx : ATree.rootAddr (plug up2
          (.node U pg wg cg (.node (.node .nil L nw 'r' .nil) pa w' 'r' S2))) = x :=
        Rep_rootAddr hrep
      rw [ha0, he] at hx
      exact hpa_ctx (Option.some.inj hx ▸ ha0mem)
  -- getters
  have e_pL : getParent h1 (some L) = some pa := by rw [getParent_at hAL, hpL]
  have e_gp : getGrandparent h1 (some L) = some pg := by
    simp only [getGrandparent, deref, hAL]
    rw [hpL, getParent_at hApa, hppa]
  have e_lpg : getLeftChild h1 (some pg) = ATree.rootAddr U := by
    rw [getLeftChild_at hApg]
    exact hlpg
  have e_rpg : getRightChild h1 (some pg) = some pa := by
    rw [getRightChild_at hApg]
    exact hrpg
  have e_un : getUncle h1 (some L) = ATree.rootAddr U := by
    simp only [getUncle, e_gp]
    rw [e_pL, e_lpg, if_neg hne_paU]
  have e_cpa : getColor h1 (some pa) = 'r' := by rw [getColor_at hApa, hcpa]
  have e_lpa : getLeftChild h1 (some pa) = some L := by
    rw [getLeftChild_at hApa]
    exact hlpa
  have hUc' : ¬(getColor h1 (ATree.rootAddr U) = 'r') := by
    rw [rep_rootColor hRU]
    exact hUc
  have hg : ¬(some L = x ∨ getColor h1 (some pa) ≠ 'r') := by
    rintro (he | he)
    · exact hLx he
    · exact he e_cpa
  have hfix : fixupStep h1 x (some L) (some pa) =
      ((leftRotate (setColor (setColor (rightRotate h1 x (some pa)).1 (some pa) 'b')
          (some pg) 'r') (rightRotate h1 x (some pa)).2 (some pg)).1,
        (leftRotate (setColor (setColor (rightRotate h1 x (some pa)).1 (some pa) 'b')
          (some pg) 'r') (rightRotate h1 x (some pa)).2 (some pg)).2,
        some pa) := by
    simp only [fixupStep, e_un, e_gp, e_rpg, e_lpa, eq_self_iff_true, if_true]
    rw [if_neg hne_Upa, if_neg hUc']
  -- first rotation: right-rotate at the parent
  obtain ⟨hrootA, hrepA, hndA⟩ :=
    rightRotate_rep (C := .right U pg wg cg up2) hrep hnd
  rw [if_neg hx_ne_pa] at hrootA
  rw [hrootA] at hrepA hfix
  have hrepA' : Rep (rightRotate h1 x (some pa)).1 x none
      (plug up2 (.node U pg wg cg (.node .nil L nw 'r' (.node .nil pa w' 'r' S2)))) :=
    hrepA
  have hndA' : (ATree.addrs
      (plug up2 (.node U pg wg cg (.node .nil L nw 'r' (.node .nil pa w' 'r' S2))))).Nodup :=
    hndA
  -- recolor the stale parent black and the grandparent red
  have hrecB : Rep (setColor (setColor (rightRotate h1 x (some pa)).1 (some pa) 'b')
      (some pg) 'r') x none
      (ATree.recolorA pg 'r' (ATree.recolorA pa 'b'
        (plug up2 (.node U pg wg cg (.node .nil L nw 'r' (.node .nil pa w' 'r' S2)))))) :=
    Rep_setColor (Or.inl rfl) (Rep_setColor (Or.inr rfl) hrepA')
  have hnorm : ATree.recolorA pg 'r' (ATree.recolorA pa 'b'
      (plug up2 (.node U pg wg cg (.node .nil L nw 'r' (.node .nil pa w' 'r' S2))))) =
      plug up2 (.node U pg wg 'r' (.node .nil L nw 'r' (.node .nil pa w' 'b' S2))) := by
    rw [recolorA_plug _ hpa_ctx, recolorA_plug _ hpg_ctx]
    congr 1
    simp [ATree.recolorA, recolorA_notmem hpaS2, recolorA_notmem hpaU,
      recolorA_notmem hpgS2, recolorA_notmem hpgU, hne_Lpa, hne_Lpg, hne_pgpa, hne_papg]
  rw [hnorm] at hrecB
  have hndB : (ATree.addrs
      (plug up2 (.node U pg wg 'r' (.node .nil L nw 'r' (.node .nil pa w' 'b' S2))))).Nodup := by
    have haddr : ATree.addrs
        (plug up2 (.node U pg wg 'r' (.node .nil L nw 'r' (.node .nil pa w' 'b' S2)))) =
        ATree.addrs
        (plug up2 (.node U pg wg cg (.node .nil L nw 'r' (.node .nil pa w' 'r' S2)))) := by
      rw [plug_addrs, plug_addrs]
      simp [ATree.addrs]
    rw [haddr]
    exact hndA'
  -- second rotation: left-rotate at the grandparent
  obtain ⟨hrootC, hrepC, hndC⟩ := leftRotate_rep (C := up2) hrecB hndB
  have e_cpaC : getColor (leftRotate (setColor (setColor (rightRotate h1 x (some pa)).1
      (some pa) 'b') (some pg) 'r') x (some pg)).1 (some pa) = 'b' := by
    have := rep_color_at (C := .right (.node U pg wg 'r' .nil) L nw 'r' up2) hrepC
    exact this
  refine ⟨(leftRotate (setColor (setColor (rightRotate h1 x (some pa)).1 (some pa) 'b')
      (some pg) 'r') x (some pg)).1,
    plug up2 (.node (.node U pg wg 'r' .nil) L nw 'r' (.node .nil pa w' 'b' S2)),
    ?_, ?_, hndC, plug_node_ne_nil, ?_⟩
  · rw [fixupLoop_step hg, hfix]
    rw [show ATree.rootAddr (plug up2 (.node (.node U pg wg 'r' .nil) L nw 'r'
      (.node .nil pa w' 'b' S2))) = (leftRotate (setColor (setColor
        (rightRotate h1 x (some pa)).1 (some pa) 'b') (some pg) 'r') x (some pg)).2 from
      Rep_rootAddr hrepC]
    exact fixupLoop_exit (Or.inr (by rw [e_cpaC]; decide))
  · rw [show ATree.rootAddr (plug up2 (.node (.node U pg wg 'r' .nil) L nw 'r'
      (.node .nil pa w' 'b' S2))) = (leftRotate (setColor (setColor
        (rightRotate h1 x (some pa)).1 (some pa) 'b') (some pg) 'r') x (some pg)).2 from
      Rep_rootAddr hrepC]
    exact hrepC
  · rw [plug_words, plug_words]
    simp [ATree.words]

/-- Full case analysis of the fixup loop as the C code runs it on a freshly
attached red leaf: the loop performs at most one body iteration, because every
branch leaves the stale `parent` variable pointing at a black node, and the
result is a well-formed tree over the same multiset of words. -/
theorem fixup_spec {h1 : Heap} {x : Option Nat} {C2 : Ctx} {L pa : Nat} {nw : Word}
    (hrep : Rep h1 x none (plug C2 (.node .nil L nw 'r' .nil)))
    (hnd : (ATree.addrs (plug C2 (.node .nil L nw 'r' .nil))).Nodup)
    (hrootb : ATree.rootColor (plug C2 (.node .nil L nw 'r' .nil)) = 'b')
    (hchp : chp C2 = some pa) (fuel : Nat) :
    ∃ h2 t2, fixupLoop h1 x (some L) (some pa) (fuel + 1) = some (h2, ATree.rootAddr t2) ∧
      Rep h2 (ATree.rootAddr t2) none t2 ∧ (ATree.addrs t2).Nodup ∧ t2 ≠ .nil ∧
      ATree.words t2 = ATree.words (plug C2 (.node .nil L nw 'r' .nil)) := by
  have hndp := plug_nodup_parts hnd
  have hC2ne : C2 ≠ .root := by
    intro he
    rw [he] at hchp
    exact Option.noConfusion hchp
  obtain ⟨a0, ha0, ha0mem⟩ := rootAddr_plug_mem hC2ne (.node .nil L nw 'r' .nil)
  have hxa0 : x = some a0 := by rw [← Rep_rootAddr hrep, ha0]
  have hLctx : L ∉ ctxAddrs C2 := hndp.2.1 L (by simp [ATree.addrs])
  have hLx : some L ≠ x := by
    rw [hxa0]
    intro he
    exact hLctx (Option.some.inj he ▸ ha0mem)
  obtain ⟨hcC2, hsubNEW⟩ := plug_rep_split hrep
  obtain ⟨_, ndL, hAL, hwL2, hcL2, hpL, hlL2, hrL2, _, _⟩ := Rep_node_elim hsubNEW
  rw [hchp] at hpL
  cases C2 with
  | root => exact absurd rfl hC2ne
  | left C3 pa' w' cpa S2 =>
    obtain rfl : pa = pa' := (Option.some.inj hchp).symm
    have e_cpa : getColor h1 (some pa) = cpa := rep_color_at (C := C3) hrep
    by_cases hcpa : cpa = 'r'
    · subst hcpa
      cases C3 with
      | root => exact absurd (show ('r' : Char) = 'b' from hrootb) (by decide)
      | left up2 pg wg cg U =>
        by_cases hU : ATree.rootColor U = 'r'
        · cases U with
          | nil => exact absurd hU (by decide)
          | node rl ur uw cu rr =>
            have hcu : cu = 'r' := hU
            subst hcu
            exact fixup_caseA_left hrep hnd hAL hpL hLx fuel
        · exact fixup_zigzig_left hrep hnd hU hLx fuel
      | right U pg wg cg up2 =>
        by_cases hU : ATree.rootColor U = 'r'
        · cases U with
          | nil => exact absurd hU (by decide)
          | node ll ul ulw cu lr =>
            have hcu : cu = 'r' := hU
            subst hcu
            exact fixup_caseA_right hrep hnd hAL hpL hLx fuel
        · exact fixup_zigzag_right hrep hnd hU hLx fuel
    · refine ⟨h1, plug (Ctx.left C3 pa w' cpa S2) (.node .nil L nw 'r' .nil),
        ?_, ?_, hnd, plug_node_ne_nil, rfl⟩
      · rw [show ATree.rootAddr (plug (Ctx.left C3 pa w' cpa S2)
          (.node .nil L nw 'r' .nil)) = x from Rep_rootAddr hrep]
        exact fixupLoop_exit (Or.inr (by rw [e_cpa]; exact hcpa))
      · rw [show ATree.rootAddr (plug (Ctx.left C3 pa w' cpa S2)
          (.node .nil L nw 'r' .nil)) = x from Rep_rootAddr hrep]
        exact hrep
  | right S1 pa' w' cpa C3 =>
    obtain rfl : pa = pa' := (Option.some.inj hchp).symm
    have e_cpa : getColor h1 (some pa) = cpa := rep_color_at (C := C3) hrep
    by_cases hcpa : cpa = 'r'
    · subst hcpa
      cases C3 with
      | root => exact absurd (show ('r' : Char) = 'b' from hrootb) (by decide)
      | left up2 pg wg cg U =>
        by_cases hU : ATree.rootColor U = 'r'
        · cases U with
          | nil => exact absurd hU (by decide)
          | node rl ur uw cu rr =>
            have hcu : cu = 'r' := hU
            subst hcu
            exact fixup_caseA_left hrep hnd hAL hpL hLx fuel
        · exact fixup_zigzag_left hrep hnd hU hLx fuel
      | right U pg wg cg up2 =>
        by_cases hU : ATree.rootColor U = 'r'
        · cases U with
          | nil => exact absurd hU (by decide)
          | node ll ul ulw cu lr =>
            have hcu : cu = 'r' := hU
            subst hcu
            exact fixup_caseA_right hrep hnd hAL hpL hLx fuel
        · exact fixup_zigzig_right hrep hnd hU hLx fuel
    · refine ⟨h1, plug (Ctx.right S1 pa w' cpa C3) (.node .nil L nw 'r' .nil),
        ?_, ?_, hnd, plug_node_ne_nil, rfl⟩
      · rw [show ATree.rootAddr (plug (Ctx.right S1 pa w' cpa C3)
          (.node .nil L nw 'r' .nil)) = x from Rep_rootAddr hrep]
        exact fixupLoop_exit (Or.inr (by rw [e_cpa]; exact hcpa))
      · rw [show ATree.rootAddr (plug (Ctx.right S1 pa w' cpa C3)
          (.node .nil L nw 'r' .nil)) = x from Rep_rootAddr hrep]
        exact hrep

/-- `insert` on the empty initial state: the first `makeNode` becomes the
root (blackened at the end); the unlinked second allocation of the
`cmp == 0` attach branch leaks at address 1. -/
theorem insert_empty (word : Word) :
    insert [] none word =
      some ([⟨word, 'b', none, none, none⟩, newNode word none], some 0) := rfl

/-- The state after inserting into the empty tree represents the singleton
black tree holding the word at address 0. -/
theorem insert_empty_rep (word : Word) :
    Rep [⟨word, 'b', none, none, none⟩, newNode word none] (some 0) none
      (.node .nil 0 word 'b' .nil) :=
  @Rep.node _ 0 ⟨word, 'b', none, none, none⟩ none .nil .nil rfl rfl
    (Rep.nil _) (Rep.nil _)

/-- Full behaviour of `insert` on a represented, duplicate-free, sorted,
root-black non-empty tree: it succeeds, and the result represents a sorted,
duplicate-free, root-black tree whose words are the old ones plus (as a set)
the inserted word. -/
theorem insert_spec {h : Heap} {x : Option Nat} {t : ATree} (word : Word)
    (hrep : Rep h x none t) (hnd : (ATree.addrs t).Nodup)
    (hsort : (ATree.words t).Sorted wordLt)
    (hblack : ATree.rootColor t = 'b') (hne : t ≠ .nil) :
    ∃ h' x' t', insert h x word = some (h', x') ∧
      Rep h' x' none t' ∧ (ATree.addrs t').Nodup ∧
      (ATree.words t').Sorted wordLt ∧ ATree.rootColor t' = 'b' ∧ t' ≠ .nil ∧
      (∀ u, u ∈ ATree.words t' ↔ (u ∈ ATree.words t ∨ u = word)) := by
  rcases phase1_spec word hrep hnd hne with ⟨hph, hmem⟩ |
    ⟨C2, pa, hchp, hplug, hok, h1, hph, hrep1, hnd1⟩
  · refine ⟨h, x, t, ?_, hrep, hnd, hsort, hblack, hne, ?_⟩
    · simp only [insert, hph]
    · intro u
      constructor
      · exact fun hu => Or.inl hu
      · rintro (hu | rfl)
        · exact hu
        · exact hmem
  · have hC2ne : C2 ≠ .root := by
      intro he
      rw [he] at hchp
      exact Option.noConfusion hchp
    have hrootb : ATree.rootColor (plug C2 (.node .nil h.length word 'r' .nil)) = 'b' := by
      rw [(plug_root_indep hC2ne _ .nil).2, hplug]
      exact hblack
    obtain ⟨h2, t2, hloop, hrep2, hnd2, hne2, hwords2⟩ :=
      fixup_spec hrep1 hnd1 hrootb hchp h1.length
    have hwt : ATree.words t = wpre C2 ++ wpost C2 := by rw [← hplug, words_plug_nil]
    have hsortp : (wpre C2 ++ wpost C2).Sorted wordLt := hwt ▸ hsort
    obtain ⟨hlo, hhi⟩ := ctx_bounds hsortp hok
    have hw2 : ATree.words t2 = wpre C2 ++ word :: wpost C2 := by
      rw [hwords2, words_plug_single]
    cases t2 with
    | nil => exact absurd rfl hne2
    | node l a w2 c2 r =>
      refine ⟨setColor h2 (some a) 'b', some a, .node l a w2 'b' r, ?_, ?_, hnd2, ?_, rfl,
        fun he => ATree.noConfusion he, ?_⟩
      · simp only [insert, hph, hloop]
        rfl
      · exact Rep_blacken_root hrep2 hnd2
      · show (ATree.words (.node l a w2 'b' r)).Sorted wordLt
        have : ATree.words (.node l a w2 'b' r) = ATree.words (.node l a w2 c2 r) := rfl
        rw [this, hw2]
        exact sorted_insert_middle hsortp hlo hhi
      · intro u
        have : ATree.words (.node l a w2 'b' r) = ATree.words (.node l a w2 c2 r) := rfl
        rw [this, hw2, hwt]
        simp only [List.mem_append, List.mem_cons]
        tauto

/-- Folding `insert` over a word list from any well-formed state succeeds and
preserves the invariant: represented tree, duplicate-free addresses, sorted
in-order words, black root (or the untouched empty initial state), and the
words of the tree are exactly the starting words plus the inserted ones. -/
theorem foldl_inserts_spec (ws : List Word) :
    ∀ (h : Heap) (x : Option Nat) (t : ATree),
      Rep h x none t → (ATree.addrs t).Nodup → (ATree.words t).Sorted wordLt →
      (ATree.rootColor t = 'b' ∨ (t = .nil ∧ h = [] ∧ x = none)) →
      ∃ h' x' t', List.foldlM (fun s w => insert s.1 s.2 w) (h, x) ws = some (h', x') ∧
        Rep h' x' none t' ∧ (ATree.addrs t').Nodup ∧ (ATree.words t').Sorted wordLt ∧
        (ATree.rootColor t' = 'b' ∨ (t' = .nil ∧ h' = [] ∧ x' = none)) ∧
        (∀ u, u ∈ ATree.words t' ↔ (u ∈ ATree.words t ∨ u ∈ ws)) := by
  induction ws with
  | nil =>
    intro h x t h1 h2 h3 h4
    exact ⟨h, x, t, rfl, h1, h2, h3, h4, by simp⟩
  | cons w ws ih =>
    intro h x t h1 h2 h3 h4
    rcases h4 with hb | ⟨rfl, rfl, rfl⟩
    · have hne : t ≠ .nil := by
        intro he
        rw [he] at hb
        exact absurd hb (by decide)
      obtain ⟨ha, xa, ta, hins, hr, hn, hs, hbl, hnn, hm⟩ := insert_spec w h1 h2 h3 hb hne
      obtain ⟨h', x', t', hfold, hr', hn', hs', hb', hm'⟩ := ih ha xa ta hr hn hs (Or.inl hbl)
      refine ⟨h', x', t', ?_, hr', hn', hs', hb', ?_⟩
      · simp only [List.foldlM_cons, hins, Option.some_bind]
        exact hfold
      · intro u
        rw [hm' u, hm u]
        simp only [List.mem_cons]
        tauto
    · obtain ⟨h', x', t', hfold, hr', hn', hs', hb', hm'⟩ :=
        ih [⟨w, 'b', none, none, none⟩, newNode w none] (some 0) (.node .nil 0 w 'b' .nil)
          (insert_empty_rep w) (by simp [ATree.addrs]) (by simp [ATree.words]) (Or.inl rfl)
      refine ⟨h', x', t', ?_, hr', hn', hs', hb', ?_⟩
      · simp only [List.foldlM_cons, insert_empty, Option.some_bind]
        exact hfold
      · intro u
        rw [hm' u]
        simp [ATree.words, List.mem_cons]
/-- `runInserts` (the tree-building loop of `main`) always succeeds and
produces a well-formed sorted tree holding exactly the input words. -/
theorem runInserts_spec (ws : List Word) :
    ∃ h x t, runInserts ws = some (h, x) ∧ Rep h x none t ∧
      (ATree.addrs t).Nodup ∧ (ATree.words t).Sorted wordLt ∧
      (ATree.rootColor t = 'b' ∨ (t = .nil ∧ h = [] ∧ x = none)) ∧
      (∀ u, u ∈ ATree.words t ↔ u ∈ ws) := by
  obtain ⟨h, x, t, hf, hr, hn, hs, hb, hm⟩ :=
    foldl_inserts_spec ws [] none .nil (Rep.nil _) (by simp [ATree.addrs])
      (by simp [ATree.words]) (Or.inr ⟨rfl, rfl, rfl⟩)
  refine ⟨h, x, t, hf, hr, hn, hs, hb, ?_⟩
  intro u
  rw [hm u]
  simp [ATree.words]

/-- `printTree` on a represented tree prints exactly the in-order word list,
given at least `sizeA t` fuel. -/
theorem printTree_spec {h : Heap} {t : ATree} :
    ∀ {x p : Option Nat}, Rep h x p t → ∀ fuel, ATree.sizeA t ≤ fuel →
      printTree h x fuel = some (ATree.words t) := by
  induction t with
  | nil =>
    intro x p hrep fuel _
    have hx : x = none := by rw [← Rep_rootAddr hrep]; rfl
    subst hx
    cases fuel <;> rfl
  | node l a w c r ihl ihr =>
    intro x p hrep fuel hsz
    obtain ⟨hx, nd, hA, hw, hc, hp, hl, hr, hrl, hrr⟩ := Rep_node_elim hrep
    subst hx
    cases fuel with
    | zero =>
      rw [show ATree.sizeA (.node l a w c r) =
        ATree.sizeA l + ATree.sizeA r + 1 from rfl] at hsz
      omega
    | succ f =>
      have hszl : ATree.sizeA l ≤ f := by
        rw [show ATree.sizeA (.node l a w c r) =
          ATree.sizeA l + ATree.sizeA r + 1 from rfl] at hsz
        omega
      have hszr : ATree.sizeA r ≤ f := by
        rw [show ATree.sizeA (.node l a w c r) =
          ATree.sizeA l + ATree.sizeA r + 1 from rfl] at hsz
        omega
      simp only [printTree, hA, ihl hrl f hszl, ihr hrr f hszr]
      rw [hw]
      rfl

/-! ## Claim theorems (computational counterexamples and direct facts) -/

/-- C4: the claim that every tree reachable by insertions satisfies
black-height uniformity is false: after inserting the words "a", "c", "b"
the insertion of "b" ends in the mirrored inner-child case, which recolors
the stale local `parent` (the node now rotated to the bottom) instead of the
promoted node, and the resulting tree has root-to-leaf paths with different
numbers of BLACK nodes. -/
theorem C4_black_height_violated :
    ∃ s t, runInserts [[97], [99], [98]] = some s ∧
      extractTree s.1 s.2 s.1.length = some t ∧ ATree.bh t = none := by
  refine ⟨([{ word := [97], color := 'r', parent := some 3, left := none, right := none },
    { word := [97], color := 'r', parent := none, left := none, right := none },
    { word := [99], color := 'b', parent := some 3, left := none, right := none },
    { word := [98], color := 'b', parent := none, left := some 0, right := some 2 }],
    some 3),
    .node (.node .nil 0 [97] 'r' .nil) 3 [98] 'b' (.node .nil 2 [99] 'b' .nil),
    ?_, ?_, ?_⟩ <;> decide

/-- C2: the claim that no RED node ever has a RED child after an insertion is
false: after inserting "a", "b", "c", "e", "d" the final fixup leaves the
node "d" RED with its RED child "c" (the zig-zag case blackens the stale
`parent` instead of the node promoted by the rotation). -/
theorem C2_red_red_violated :
    ∃ s t, runInserts [[97], [98], [99], [101], [100]] = some s ∧
      extractTree s.1 s.2 s.1.length = some t ∧ ATree.noRedRed t = false := by
  refine ⟨([{ word := [97], color := 'b', parent := some 2, left := none, right := none },
    { word := [97], color := 'r', parent := none, left := none, right := none },
    { word := [98], color := 'b', parent := none, left := some 0, right := some 5 },
    { word := [99], color := 'r', parent := some 5, left := none, right := none },
    { word := [101], color := 'b', parent := some 5, left := none, right := none },
    { word := [100], color := 'r', parent := some 2, left := some 3, right := some 4 }],
    some 2),
    .node (.node .nil 0 [97] 'b' .nil) 2 [98] 'b'
      (.node (.node .nil 3 [99] 'r' .nil) 5 [100] 'r' (.node .nil 4 [101] 'b' .nil)),
    ?_, ?_, ?_⟩ <;> decide

/-- C3: the second half of the claim is false. After inserting
"a", "d", "c", "b", "e", "f" and then "g", the fixup meets a RED uncle
(Case A): it recolors parent and uncle BLACK and the grandparent RED and
moves `ptr` to the grandparent, exactly as claimed — but the loop guard then
reads the color of the stale local `parent` (just recolored BLACK) rather
than the parent of the new `ptr`, so the loop stops after this single step
even though `ptr` is not the root and the parent of the current `ptr` is
RED. The violation is not re-examined at the grandparent. -/
theorem C3_fixup_loop_exits_early :
    ∃ (h h1 h2 : Heap) (root ptr parent root2 ptr2 : Option Nat),
      runInserts [[97], [100], [99], [98], [101], [102]] = some (h, root) ∧
      phase1 h root [103] = some (.go h1 root ptr parent) ∧
      getColor h1 (getUncle h1 ptr) = 'r' ∧
      fixupStep h1 root ptr parent = (h2, root2, ptr2) ∧
      ptr2 = getGrandparent h1 ptr ∧
      getColor h2 parent = 'b' ∧
      fixupLoop h1 root ptr parent (h1.length + 1) = some (h2, root2) ∧
      ptr2 ≠ root2 ∧
      getColor h2 (getParent h2 ptr2) = 'r' := by
  refine ⟨[{ word := [97], color := 'b', parent := some 4, left := none, right := none },
    { word := [97], color := 'r', parent := none, left := none, right := none },
    { word := [100], color := 'r', parent := some 5, left := none, right := none },
    { word := [99], color := 'r', parent := some 4, left := none, right := some 5 },
    { word := [98], color := 'b', parent := none, left := some 0, right := some 3 },
    { word := [101], color := 'b', parent := some 3, left := some 2, right := some 6 },
    { word := [102], color := 'r', parent := some 5, left := none, right := none }],
    [{ word := [97], color := 'b', parent := some 4, left := none, right := none },
    { word := [97], color := 'r', parent := none, left := none, right := none },
    { word := [100], color := 'r', parent := some 5, left := none, right := none },
    { word := [99], color := 'r', parent := some 4, left := none, right := some 5 },
    { word := [98], color := 'b', parent := none, left := some 0, right := some 3 },
    { word := [101], color := 'b', parent := some 3, left := some 2, right := some 6 },
    { word := [102], color := 'r', parent := some 5, left := none, right := some 7 },
    { word := [103], color := 'r', parent := some 6, left := none, right := none }],
    [{ word := [97], color := 'b', parent := some 4, left := none, right := none },
    { word := [97], color := 'r', parent := none, left := none, right := none },
    { word := [100], color := 'b', parent := some 5, left := none, right := none },
    { word := [99], color := 'r', parent := some 4, left := none, right := some 5 },
    { word := [98], color := 'b', parent := none, left := some 0, right := some 3 },
    { word := [101], color := 'r', parent := some 3, left := some 2, right := some 6 },
    { word := [102], color := 'b', parent := some 5, left := none, right := some 7 },
    { word := [103], color := 'r', parent := some 6, left := none, right := none }],
    some 4, some 7, some 6, some 4, some 5,
    ?_, ?_, ?_, ?_, ?_, ?_, ?_, ?_, ?_⟩ <;> decide

/-- C9: `setColor` with a color other than `'r'` or `'b'` changes nothing at
all (defensive no-op), and with a valid color the node's color afterwards is
exactly that color. -/
theorem C9_setColor_valid_invalid :
    (∀ (h : Heap) (n : Option Nat) (c : Char), c ≠ 'r' → c ≠ 'b' → setColor h n c = h) ∧
    (∀ (h : Heap) (a : Nat) (nd : Node) (c : Char), h.get? a = some nd →
      (c = 'r' ∨ c = 'b') → getColor (setColor h (some a) c) (some a) = c) := by
  constructor
  · intro h n c hr hb
    match n with
    | none => rfl
    | some a =>
      simp only [setColor]
      rw [if_neg]
      rintro (h | h) <;> [exact hr h; exact hb h]
  · intro h a nd c hget hc
    have hlt : a < h.length := by
      by_contra hge
      rw [List.get?_eq_getElem?, List.getElem?_eq_none (Nat.le_of_not_lt hge)] at hget
      exact Option.noConfusion hget
    simp only [setColor, if_pos hc, hupd, hget, getColor, deref]
    rw [get?_set_self _ _ _ hlt]

/-- C9 witness: a concrete invalid color is ignored and a concrete valid
recoloring lands. -/
theorem C9_witness :
    setColor [] none 'x' = [] ∧
    getColor (setColor [{ word := [97], color := 'b', parent := none, left := none, right := none }] (some 0) 'r') (some 0) = 'r' :=
  ⟨C9_setColor_valid_invalid.1 [] none 'x' (by decide) (by decide),
   C9_setColor_valid_invalid.2 _ 0
     { word := [97], color := 'b', parent := none, left := none, right := none }
     'r' rfl (Or.inl rfl)⟩

/-- C8: inserting any non-empty word into the empty tree returns a tree whose
root is a single BLACK node holding that word, with no children and no parent
(the second, unlinked allocation of the attach branch is unreachable). -/
theorem C8_insert_into_empty (w : Word) (_hw : w ≠ []) :
    ∃ h, insert [] none w = some (h, some 0) ∧
      h.get? 0 = some { word := w, color := 'b', parent := none, left := none, right := none } := by
  exact ⟨[{ word := w, color := 'b', parent := none, left := none, right := none },
    { word := w, color := 'r', parent := none, left := none, right := none }], rfl, rfl⟩

/-- C8 witness: the concrete word "a". -/
theorem C8_witness :
    ([97] : Word) ≠ [] ∧
    ∃ h, insert [] none [97] = some (h, some 0) ∧
      h.get? 0 = some { word := [97], color := 'b', parent := none, left := none, right := none } :=
  ⟨by decide, C8_insert_into_empty [97] (by decide)⟩

/-- C1: building the tree from any word sequence with `insert` and then
traversing it with `printTree` yields the distinct words of the sequence in
strictly ascending `strcmp` order, each exactly once, and any sequence with
the same set of words yields the identical output list. -/
theorem C1_traversal_sorted_distinct_permutation_invariant
    (ws ws' : List Word) (hperm : ∀ u, u ∈ ws ↔ u ∈ ws') :
    ∃ h x out h' x' out',
      runInserts ws = some (h, x) ∧ printTree h x h.length = some out ∧
      List.Sorted wordLt out ∧ out.Nodup ∧ (∀ u, u ∈ out ↔ u ∈ ws) ∧
      runInserts ws' = some (h', x') ∧ printTree h' x' h'.length = some out' ∧
      out' = out := by
  obtain ⟨h, x, t, hf, hr, hn, hs, hb, hm⟩ := runInserts_spec ws
  obtain ⟨h', x', t', hf', hr', hn', hs', hb', hm'⟩ := runInserts_spec ws'
  have hfuel : ATree.sizeA t ≤ h.length := by
    rw [sizeA_eq_length_addrs]
    exact addrs_length_le hr hn
  have hfuel' : ATree.sizeA t' ≤ h'.length := by
    rw [sizeA_eq_length_addrs]
    exact addrs_length_le hr' hn'
  have heq : ATree.words t' = ATree.words t := by
    apply sorted_ext hs' hs
    intro u
    rw [hm' u, hm u]
    exact (hperm u).symm
  exact ⟨h, x, ATree.words t, h', x', ATree.words t', hf,
    printTree_spec hr h.length hfuel, hs, hs.nodup, hm, hf',
    printTree_spec hr' h'.length hfuel', heq⟩

/-- C1 witness: the sequences "a","b" and "b","a","a" hold the same word set
and both print the sorted, duplicate-free output. -/
theorem C1_witness :
    (∀ u, u ∈ ([[97], [98]] : List Word) ↔ u ∈ ([[98], [97], [97]] : List Word)) ∧
    (∃ h x out h' x' out',
      runInserts [[97], [98]] = some (h, x) ∧ printTree h x h.length = some out ∧
      List.Sorted wordLt out ∧ out.Nodup ∧ (∀ u, u ∈ out ↔ u ∈ [[97], [98]]) ∧
      runInserts [[98], [97], [97]] = some (h', x') ∧
      printTree h' x' h'.length = some out' ∧ out' = out) :=
  ⟨by intro u; simp [List.mem_cons]; tauto,
   C1_traversal_sorted_distinct_permutation_invariant [[97], [98]] [[98], [97], [97]]
     (by intro u; simp [List.mem_cons]; tauto)⟩

/-- C5: after inserting any word into any tree built by a sequence of
insertions from the empty tree, the returned root pointer is non-`NULL` and
designates a BLACK node. -/
theorem C5_insert_root_black (ws : List Word) (w : Word) :
    ∃ h x h' x' a nd, runInserts ws = some (h, x) ∧ insert h x w = some (h', x') ∧
      x' = some a ∧ h'.get? a = some nd ∧ nd.color = 'b' := by
  obtain ⟨h, x, t, hf, hr, hn, hs, hb, hm⟩ := runInserts_spec ws
  rcases hb with hb | ⟨rfl, rfl, rfl⟩
  · have hne : t ≠ .nil := by
      intro he
      rw [he] at hb
      exact absurd hb (by decide)
    obtain ⟨h', x', t', hins, hr', hn', hs', hbl, hnn, hm'⟩ := insert_spec w hr hn hs hb hne
    cases t' with
    | nil => exact absurd rfl hnn
    | node l a w2 c2 r =>
      obtain ⟨hx', nd, hA, hw2, hc2, _, _, _, _, _⟩ := Rep_node_elim hr'
      refine ⟨h, x, h', x', a, nd, hf, hins, hx', hA, ?_⟩
      rw [hc2]
      exact hbl
  · exact ⟨[], none, [⟨w, 'b', none, none, none⟩, newNode w none], some 0, 0,
      ⟨w, 'b', none, none, none⟩, hf, insert_empty w, rfl, rfl, rfl⟩

/-- C6: inserting a word that is already in the tree returns the heap and the
root pointer completely unchanged — the duplicate branch of the search loop
returns before any allocation or mutation. -/
theorem C6_duplicate_insert_noop (ws : List Word) (w : Word) (hw : w ∈ ws) :
    ∃ h x, runInserts ws = some (h, x) ∧ insert h x w = some (h, x) := by
  obtain ⟨h, x, t, hf, hr, hn, hs, hb, hm⟩ := runInserts_spec ws
  have hwt : w ∈ ATree.words t := (hm w).mpr hw
  have hne : t ≠ .nil := by
    intro he
    rw [he] at hwt
    simp [ATree.words] at hwt
  rcases phase1_spec w hr hn hne with ⟨hph, _⟩ |
    ⟨C2, pa, hchp, hplug, hok, h1, hph, _, _⟩
  · exact ⟨h, x, hf, by simp only [insert, hph]⟩
  · exfalso
    have hwords : ATree.words t = wpre C2 ++ wpost C2 := by rw [← hplug, words_plug_nil]
    have hsp : (wpre C2 ++ wpost C2).Sorted wordLt := hwords ▸ hs
    obtain ⟨hlo, hhi⟩ := ctx_bounds hsp hok
    rw [hwords] at hwt
    rcases List.mem_append.mp hwt with hu | hu
    · exact wordLt_irrefl w (hlo w hu)
    · exact wordLt_irrefl w (hhi w hu)

/-- C6 witness: re-inserting "a" after building the one-word tree changes
nothing. -/
theorem C6_witness :
    ([97] : Word) ∈ ([[97]] : List Word) ∧
    ∃ h x, runInserts [[97]] = some (h, x) ∧ insert h x [97] = some (h, x) :=
  ⟨by decide, C6_duplicate_insert_noop [[97]] [97] (by decide)⟩

/-- C7: a left rotation at a node with a right child and a right rotation at
a node with a left child both preserve the in-order word sequence exactly,
and each returns the incoming root reference unless the rotated node was the
root, in which case the promoted child is the new root. -/
theorem C7_rotations_inorder_root {h1 h2 : Heap} {x1 x2 : Option Nat}
    {C D : Ctx} {A B Cc A2 B2 Cc2 : ATree} {n m n2 m2 : Nat}
    {w v w2 v2 : Word} {c d c2 d2 : Char}
    (hrepL : Rep h1 x1 none (plug C (.node A n w c (.node B m v d Cc))))
    (hndL : (ATree.addrs (plug C (.node A n w c (.node B m v d Cc)))).Nodup)
    (hrepR : Rep h2 x2 none (plug D (.node (.node A2 m2 v2 d2 B2) n2 w2 c2 Cc2)))
    (hndR : (ATree.addrs (plug D (.node (.node A2 m2 v2 d2 B2) n2 w2 c2 Cc2))).Nodup) :
    (Rep (leftRotate h1 x1 (some n)).1 (leftRotate h1 x1 (some n)).2 none
        (plug C (.node (.node A n w c B) m v d Cc)) ∧
      ATree.words (plug C (.node (.node A n w c B) m v d Cc)) =
        ATree.words (plug C (.node A n w c (.node B m v d Cc))) ∧
      (leftRotate h1 x1 (some n)).2 = (if x1 = some n then some m else x1)) ∧
    (Rep (rightRotate h2 x2 (some n2)).1 (rightRotate h2 x2 (some n2)).2 none
        (plug D (.node A2 m2 v2 d2 (.node B2 n2 w2 c2 Cc2))) ∧
      ATree.words (plug D (.node A2 m2 v2 d2 (.node B2 n2 w2 c2 Cc2))) =
        ATree.words (plug D (.node (.node A2 m2 v2 d2 B2) n2 w2 c2 Cc2)) ∧
      (rightRotate h2 x2 (some n2)).2 = (if x2 = some n2 then some m2 else x2)) := by
  obtain ⟨hroot1, hrep1, _⟩ := leftRotate_rep hrepL hndL
  obtain ⟨hroot2, hrep2, _⟩ := rightRotate_rep hrepR hndR
  refine ⟨⟨hrep1, ?_, hroot1⟩, ⟨hrep2, ?_, hroot2⟩⟩
  · rw [plug_words, plug_words]
    simp [ATree.words]
  · rw [plug_words, plug_words]
    simp [ATree.words]

/-- C7 witness: concrete two-node heaps, rotated at the root in both
directions. -/
theorem C7_witness :
    (Rep [⟨[97], 'b', none, none, some 1⟩, ⟨[98], 'r', some 0, none, none⟩] (some 0) none
        (plug .root (.node .nil 0 [97] 'b' (.node .nil 1 [98] 'r' .nil))) ∧
      Rep [⟨[98], 'b', none, some 1, none⟩, ⟨[97], 'r', some 0, none, none⟩] (some 0) none
        (plug .root (.node (.node .nil 1 [97] 'r' .nil) 0 [98] 'b' .nil))) ∧
    ((Rep (leftRotate [⟨[97], 'b', none, none, some 1⟩, ⟨[98], 'r', some 0, none, none⟩]
          (some 0) (some 0)).1
        (leftRotate [⟨[97], 'b', none, none, some 1⟩, ⟨[98], 'r', some 0, none, none⟩]
          (some 0) (some 0)).2 none
        (plug .root (.node (.node .nil 0 [97] 'b' .nil) 1 [98] 'r' .nil)) ∧
      ATree.words (plug .root (.node (.node .nil 0 [97] 'b' .nil) 1 [98] 'r' .nil)) =
        ATree.words (plug .root (.node .nil 0 [97] 'b' (.node .nil 1 [98] 'r' .nil))) ∧
      (leftRotate [⟨[97], 'b', none, none, some 1⟩, ⟨[98], 'r', some 0, none, none⟩]
          (some 0) (some 0)).2 =
        (if (some 0 : Option Nat) = some 0 then some 1 else some 0)) ∧
    (Rep (rightRotate [⟨[98], 'b', none, some 1, none⟩, ⟨[97], 'r', some 0, none, none⟩]
          (some 0) (some 0)).1
        (rightRotate [⟨[98], 'b', none, some 1, none⟩, ⟨[97], 'r', some 0, none, none⟩]
          (some 0) (some 0)).2 none
        (plug .root (.node .nil 1 [97] 'r' (.node .nil 0 [98] 'b' .nil))) ∧
      ATree.words (plug .root (.node .nil 1 [97] 'r' (.node .nil 0 [98] 'b' .nil))) =
        ATree.words (plug .root (.node (.node .nil 1 [97] 'r' .nil) 0 [98] 'b' .nil)) ∧
      (rightRotate [⟨[98], 'b', none, some 1, none⟩, ⟨[97], 'r', some 0, none, none⟩]
          (some 0) (some 0)).2 =
        (if (some 0 : Option Nat) = some 0 then some 1 else some 0))) :=
  ⟨⟨@Rep.node _ 0 ⟨[97], 'b', none, none, some 1⟩ none .nil (.node .nil 1 [98] 'r' .nil)
      rfl rfl (Rep.nil _)
      (@Rep.node _ 1 ⟨[98], 'r', some 0, none, none⟩ (some 0) .nil .nil rfl rfl
        (Rep.nil _) (Rep.nil _)),
    @Rep.node _ 0 ⟨[98], 'b', none, some 1, none⟩ none (.node .nil 1 [97] 'r' .nil) .nil
      rfl rfl
      (@Rep.node _ 1 ⟨[97], 'r', some 0, none, none⟩ (some 0) .nil .nil rfl rfl
        (Rep.nil _) (Rep.nil _))
      (Rep.nil _)⟩,
   C7_rotations_inorder_root
     (@Rep.node _ 0 ⟨[97], 'b', none, none, some 1⟩ none .nil (.node .nil 1 [98] 'r' .nil)
       rfl rfl (Rep.nil _)
       (@Rep.node _ 1 ⟨[98], 'r', some 0, none, none⟩ (some 0) .nil .nil rfl rfl
         (Rep.nil _) (Rep.nil _)))
     (by decide)
     (@Rep.node _ 0 ⟨[98], 'b', none, some 1, none⟩ none (.node .nil 1 [97] 'r' .nil) .nil
       rfl rfl
       (@Rep.node _ 1 ⟨[97], 'r', some 0, none, none⟩ (some 0) .nil .nil rfl rfl
         (Rep.nil _) (Rep.nil _))
       (Rep.nil _))
     (by decide)⟩

/-- C10: after inserting any word into any tree built by a sequence of
insertions from the empty tree, the returned root pointer is non-`NULL` and
the node it designates has an absent (`NULL`) parent link. -/
theorem C10_insert_root_parent_none (ws : List Word) (w : Word) :
    ∃ h x h' x' a nd, runInserts ws = some (h, x) ∧ insert h x w = some (h', x') ∧
      x' = some a ∧ h'.get? a = some nd ∧ nd.parent = none := by
  obtain ⟨h, x, t, hf, hr, hn, hs, hb, hm⟩ := runInserts_spec ws
  rcases hb with hb | ⟨rfl, rfl, rfl⟩
  · have hne : t ≠ .nil := by
      intro he
      rw [he] at hb
      exact absurd hb (by decide)
    obtain ⟨h', x', t', hins, hr', hn', hs', hbl, hnn, hm'⟩ := insert_spec w hr hn hs hb hne
    cases t' with
    | nil => exact absurd rfl hnn
    | node l a w2 c2 r =>
      obtain ⟨hx', nd, hA, hw2, hc2, hp, _, _, _, _⟩ := Rep_node_elim hr'
      exact ⟨h, x, h', x', a, nd, hf, hins, hx', hA, hp⟩
  · exact ⟨[], none, [⟨w, 'b', none, none, none⟩, newNode w none], some 0, 0,
      ⟨w, 'b', none, none, none⟩, hf, insert_empty w, rfl, rfl, rfl⟩

end RBC
